import Mathlib

/-!
# Verification of `rnnlm/rnnlm-egs.cc`

A shallow embedding of the minibatch creator and sampler of `src/rnnlm/rnnlm-egs.cc`
(chunk splitting, slot packing, materialisation of the slots into
`(input word, output word, weight)` triples, the unigram table of the sampler, histories and
their weights) and theorems about it.

Conventions of the embedding:

* `int32` values are `Int`.  Where the source multiplies sizes (`ProportionFull`,
  `CreateMinibatch`) the `int32` result is `wrapInt32` of the exact one, and the theorems state
  the bounds under which it is exact; where the source uses the range limit itself (the
  sentinel in the search loop of `AcceptChunk`), the bound on `chunk_length` is an explicit
  hypothesis; elsewhere the values are taken to stay within the 32-bit range;
* `BaseFloat` values (weights, probabilities) are embedded as rationals `ℚ`;
* `std::vector<T>` is `List T`; an access outside the bounds of a vector, an integer division
  by zero and a failing `KALDI_ASSERT` all make the embedded function return `none` (a
  `BaseFloat` division by zero does not abort; a theorem about such a quotient assumes the
  divisor is not zero);
* a `for` loop over `[a, b)` is a recursion over the list `intRange a b`;
* the random source `RandInt` is a parameter of the functions that use it;
* `rnnlm-egs.h` is not part of the sources: the types it declares are embedded from the way the
  source uses them and from the specification, as said at each of them.  The source is a
  draft with a few misspelt identifiers (`chunks_` for `eg_chunks_`, `config_.bos` for
  `config_.bos_symbol`, …); they are read as the identifiers they stand for.
-/

namespace kaldi.rnnlm

/-! ## Data model -/

/-- The configuration class `RnnlmEgsConfig`; only its field names are used by the source. -/
structure RnnlmEgsConfig where
  chunk_length : Int
  minibatch_size : Int
  min_split_context : Int
  sample_group_size : Int
  num_samples : Int
  chunk_buffer_size : Int
  bos_symbol : Int
  brk_symbol : Int
  eos_symbol : Int
  special_symbol_prob : ℚ
  unigram_prob_mass : ℚ
deriving DecidableEq

/-- Modelled from the spec: the struct `SequenceChunk` is declared in `rnnlm-egs.h`, which is not
part of the sources.  It is "a view into a Sequence with three offsets
`context_begin ≤ begin ≤ end`", carrying "the parent sequence's weight and a shared reference to
its token buffer".  (`end` is a reserved word, hence `end_`.) -/
structure SequenceChunk where
  sequence : List Int
  weight : ℚ
  begin : Int
  end_ : Int
  context_begin : Int
deriving DecidableEq

/-- Modelled from the spec: `SequenceChunk::Length()` of the missing header,
"`Length() = end − context_begin`". -/
def SequenceChunk.Length (c : SequenceChunk) : Int :=
  c.end_ - c.context_begin

/-- Modelled from the spec: the constructor `SequenceChunk(config, ptr, weight, begin, end)` of
the missing header.  The chunk is the predicted span `[begin, end)` of the shared token buffer;
`min_split_context` is the "left-context carried into a split continuation chunk", so the
chunk's context starts `min_split_context` positions before `begin`, but not before the start of
the sequence. -/
def SequenceChunk.create (cfg : RnnlmEgsConfig) (s : List Int) (weight : ℚ)
    (begin end_ : Int) : SequenceChunk :=
  { sequence := s, weight := weight, begin := begin, end_ := end_,
    context_begin := max 0 (begin - cfg.min_split_context) }

/-- The batch `RnnlmMinibatch` (declared outside the sources): the fields the code reads and
writes.  The position of timestep `t` of slot `n` in the word and weight arrays is
`t * minibatch_size + n`.  (The source writes the weight array as `weights` in `Set` and as
`output_weights` elsewhere; it is one array.) -/
structure RnnlmMinibatch where
  num_sequences : Int
  chunk_length : Int
  num_samples : Int
  sample_group_size : Int
  input_words : List Int
  output_words : List Int
  output_weights : List ℚ
  sampled_words : List Int
  sample_probs : List ℚ
deriving DecidableEq

/-- The integers `a, a+1, …, b-1`: the values a loop `for (i = a; i < b; i++)` runs through. -/
def intRange (a b : Int) : List Int :=
  (List.range (b - a).toNat).map (fun (k : Nat) => a + (k : Int))

/-- Reading `v[i]` from a vector; `none` outside its bounds. -/
def vecGet? {α : Type} (v : List α) (i : Int) : Option α :=
  if 0 ≤ i then v[i.toNat]? else none

/-- Writing `v[i] = x` into a vector; `none` outside its bounds. -/
def vecSet? {α : Type} (v : List α) (i : Int) (x : α) : Option (List α) :=
  if 0 ≤ i ∧ i < (v.length : Int) then some (v.set i.toNat x) else none

/-- Sum of `Length()` over a list of chunks (`total_current_chunk_length`). -/
def totalLength (cs : List SequenceChunk) : Int :=
  (cs.map SequenceChunk.Length).sum

/-! ## `SingleMinibatchCreator`: materialising one slot -/

/-- The arguments of one call `Set(n, t, input_word, output_word, weight, minibatch)`
(without the slot `n` and the batch, which are the same for all calls of one materialisation). -/
structure SetCall where
  t : Int
  input_word : Int
  output_word : Int
  weight : ℚ
deriving DecidableEq

/-- `SingleMinibatchCreator::Set`: the assertion, then the three writes at index
`t * minibatch_size + n`. -/
def SingleMinibatchCreator.Set (cfg : RnnlmEgsConfig) (n t input_word output_word : Int)
    (weight : ℚ) (mb : RnnlmMinibatch) : Option RnnlmMinibatch :=
  if 0 ≤ n ∧ n < cfg.minibatch_size ∧ 0 ≤ t ∧ t < cfg.chunk_length ∧ 0 ≤ weight then
    let i := t * cfg.minibatch_size + n
    match vecSet? mb.input_words i input_word, vecSet? mb.output_words i output_word,
        vecSet? mb.output_weights i weight with
    | some iw, some ow, some wt =>
        some { mb with input_words := iw, output_words := ow, output_weights := wt }
    | _, _, _ => none
  else none

/-- One pass of the inner `for` loop of the left-context growth (lines 329-335): every chunk, in
slot order, whose `context_begin` is positive gets one more position of context while
`extra_length_available` is positive.  Returns `(changed, chunks, extra_length_available)`. -/
def growRound : List SequenceChunk → Int → Bool × List SequenceChunk × Int
  | [], extra => (false, [], extra)
  | c :: cs, extra =>
    if c.context_begin > 0 ∧ extra > 0 then
      let r := growRound cs (extra - 1)
      (true, { c with context_begin := c.context_begin - 1 } :: r.2.1, r.2.2)
    else
      let r := growRound cs extra
      (r.1, c :: r.2.1, r.2.2)

/-- The `while (true)` loop of lines 327-338, with a bound on the number of rounds; `none` when
the bound is reached before a round leaves everything unchanged. -/
def growLoop : Nat → List SequenceChunk → Int → Option (List SequenceChunk × Int)
  | 0, _, _ => none
  | fuel + 1, cs, extra =>
    let r := growRound cs extra
    if r.1 then growLoop fuel r.2.1 r.2.2 else some (r.2.1, r.2.2)

/-- The body of the loop over `i` (lines 357-367) for position `i` of `chunk`, emitted at batch
position `pos`: the arguments of its `Set` call. -/
def chunkCallAt (cfg : RnnlmEgsConfig) (chunk : SequenceChunk) (i pos : Int) : Option SetCall :=
  match vecGet? chunk.sequence i with
  | none => none
  | some output_word =>
    let weight : ℚ := if i < chunk.begin then 0 else chunk.weight
    if i = chunk.context_begin then
      if chunk.context_begin = 0 then some ⟨pos, cfg.bos_symbol, output_word, weight⟩
      else some ⟨pos, cfg.brk_symbol, output_word, weight⟩
    else
      match vecGet? chunk.sequence (i - 1) with
      | none => none
      | some input_word => some ⟨pos, input_word, output_word, weight⟩

/-- The loop `for (i = context_begin; i < end; i++)` of lines 356-368 over the remaining values
`is` of `i`, starting at batch position `pos`: its `Set` calls in order, and the final `pos`. -/
def chunkCalls (cfg : RnnlmEgsConfig) (chunk : SequenceChunk) :
    List Int → Int → Option (List SetCall × Int)
  | [], pos => some ([], pos)
  | i :: is, pos =>
    match chunkCallAt cfg chunk i pos with
    | none => none
    | some call =>
      match chunkCalls cfg chunk is (pos + 1) with
      | none => none
      | some (rest, pos') => some (call :: rest, pos')

/-- The loop over the chunks of the slot (lines 342-369). -/
def slotCalls (cfg : RnnlmEgsConfig) : List SequenceChunk → Int → Option (List SetCall × Int)
  | [], pos => some ([], pos)
  | chunk :: cs, pos =>
    match chunkCalls cfg chunk (intRange chunk.context_begin chunk.end_) pos with
    | none => none
    | some (calls, pos') =>
      match slotCalls cfg cs pos' with
      | none => none
      | some (rest, pos'') => some (calls ++ rest, pos'')

/-- The padding loop `for (; pos < config_.chunk_length; pos++)` of lines 370-378. -/
def paddingCalls (cfg : RnnlmEgsConfig) (pos : Int) : List SetCall :=
  (intRange pos cfg.chunk_length).map (fun p => ⟨p, cfg.bos_symbol, cfg.eos_symbol, 0⟩)

/-- All `Set` calls of lines 340-378 for a slot with the given (already grown) chunks. -/
def allCalls (cfg : RnnlmEgsConfig) (cs : List SequenceChunk) : Option (List SetCall) :=
  match slotCalls cfg cs 0 with
  | none => none
  | some (calls, pos) => some (calls ++ paddingCalls cfg pos)

/-- Executing a list of `Set` calls for slot `n` in order. -/
def runCalls (cfg : RnnlmEgsConfig) (n : Int) :
    List SetCall → RnnlmMinibatch → Option RnnlmMinibatch
  | [], mb => some mb
  | c :: cs, mb =>
    match SingleMinibatchCreator.Set cfg n c.t c.input_word c.output_word c.weight mb with
    | none => none
    | some mb' => runCalls cfg n cs mb'

/-- The chunks of slot `n` after the left-context growth of lines 319-338 (which updates
`context_begin` of the chunks in place); `none` if the assertion of line 324 fails. -/
def grownChunks (cfg : RnnlmEgsConfig) (this_chunks : List SequenceChunk) :
    Option (List SequenceChunk) :=
  let total_current_chunk_length := totalLength this_chunks
  if total_current_chunk_length ≤ cfg.chunk_length then
    let extra_length_available := cfg.chunk_length - total_current_chunk_length
    match growLoop (extra_length_available.toNat + 1) this_chunks extra_length_available with
    | none => none
    | some r => some r.1
  else none

/-- `SingleMinibatchCreator::CreateMinibatchOneSequence(n, minibatch)` on the slot lists
`eg_chunks_`: returns the slot lists (slot `n` with its grown contexts) and the batch. -/
def SingleMinibatchCreator.CreateMinibatchOneSequence (cfg : RnnlmEgsConfig)
    (eg_chunks : List (List SequenceChunk)) (n : Int) (mb : RnnlmMinibatch) :
    Option (List (List SequenceChunk) × RnnlmMinibatch) :=
  match vecGet? eg_chunks n with
  | none => none
  | some this_chunks =>
    match grownChunks cfg this_chunks with
    | none => none
    | some grown =>
      match allCalls cfg grown with
      | none => none
      | some calls =>
        match runCalls cfg n calls mb with
        | none => none
        | some mb' => some (eg_chunks.set n.toNat grown, mb')

/-! ## `RnnlmMinibatchCreator`: splitting a sequence into chunks -/

/-- `RnnlmMinibatchCreator::ChooseChunkLengths(sequence_length, &chunk_lengths)`.  `RandInt` is
the random source (`RandInt(lo, hi)` returns a value in `[lo, hi]`); integer division and
remainder are the truncating ones of C++.  `none` when an assertion fails or a vector is
accessed outside its bounds. -/
def RnnlmMinibatchCreator.ChooseChunkLengths (cfg : RnnlmEgsConfig) (RandInt : Int → Int → Int)
    (sequence_length : Int) : Option (List Int) :=
  if sequence_length > cfg.chunk_length then
    let tot := sequence_length - cfg.min_split_context
    let chunk_length_no_context := cfg.chunk_length - cfg.min_split_context
    if chunk_length_no_context > 0 then
      let full : List Int :=
        (intRange 0 (Int.tdiv tot chunk_length_no_context)).map
          (fun _ => chunk_length_no_context)
      if full = [] then none
      else
        let remaining_size := Int.tmod tot chunk_length_no_context
        let with_remainder : Option (List Int) :=
          if remaining_size ≠ 0 then
            (vecSet? full (RandInt 0 ((full.length : Int) - 1)) remaining_size).map
              (fun l => l ++ [chunk_length_no_context])
          else some full
        match with_remainder with
        | none => none
        | some [] => none
        | some (first :: rest) =>
          let chunk_lengths := (first + cfg.min_split_context) :: rest
          if chunk_lengths.sum = sequence_length then some chunk_lengths else none
    else none
  else none

/-- The loop of lines 446-451 of `SplitSequenceIntoChunks`: one chunk per piece length, each
starting where the previous one ended. -/
def splitLoop (cfg : RnnlmEgsConfig) (ptr : List Int) (weight : ℚ) :
    List Int → Int → List SequenceChunk
  | [], _ => []
  | len :: rest, cur_start =>
    let this_end := cur_start + len
    SequenceChunk.create cfg ptr weight cur_start this_end ::
      splitLoop cfg ptr weight rest this_end

/-- The chunks `RnnlmMinibatchCreator::SplitSequenceIntoChunks(weight, words)` creates, in the
order in which it pushes them onto the pool. -/
def newChunks (cfg : RnnlmEgsConfig) (RandInt : Int → Int → Int) (weight : ℚ)
    (words : List Int) : Option (List SequenceChunk) :=
  let ptr := words ++ [cfg.eos_symbol]
  let sequence_length : Int := (ptr.length : Int)
  if sequence_length ≤ cfg.chunk_length then
    some [SequenceChunk.create cfg ptr weight 0 sequence_length]
  else
    match RnnlmMinibatchCreator.ChooseChunkLengths cfg RandInt sequence_length with
    | none => none
    | some chunk_lengths => some (splitLoop cfg ptr weight chunk_lengths 0)

/-- `RnnlmMinibatchCreator::SplitSequenceIntoChunks(weight, words)` on the pool `chunks_`:
the pool afterwards. -/
def RnnlmMinibatchCreator.SplitSequenceIntoChunks (cfg : RnnlmEgsConfig)
    (RandInt : Int → Int → Int) (chunks_ : List SequenceChunk) (weight : ℚ)
    (words : List Int) : Option (List SequenceChunk) :=
  match newChunks cfg RandInt weight words with
  | none => none
  | some new => some (chunks_ ++ new)

/-! ## `SingleMinibatchCreator`: packing chunks into slots -/

/-- The member variables of `RnnlmMinibatchCreator::SingleMinibatchCreator` (the configuration
is passed separately): `eg_chunks_[j]` is the list of chunks of slot `j`, `empty_eg_chunks_`
the indices of the slots without a chunk, `partial_eg_chunks_` the pairs
`(slot index, space left)` of the slots that have a chunk and space left. -/
structure SingleMinibatchCreator where
  eg_chunks_ : List (List SequenceChunk)
  empty_eg_chunks_ : List Int
  partial_eg_chunks_ : List (Int × Int)
deriving DecidableEq

/-- The constructor `SingleMinibatchCreator(config)`: `minibatch_size` empty slots, all listed
in `empty_eg_chunks_` in increasing order.  (A vector cannot be created with a negative
size.) -/
def SingleMinibatchCreator.construct (cfg : RnnlmEgsConfig) : Option SingleMinibatchCreator :=
  if 0 ≤ cfg.minibatch_size then
    some { eg_chunks_ := List.replicate cfg.minibatch_size.toNat [],
           empty_eg_chunks_ := intRange 0 cfg.minibatch_size,
           partial_eg_chunks_ := [] }
  else none

/-- The largest `int32`, `std::numeric_limits<int32>::max()`. -/
def INT32_MAX : Int := 2147483647

/-- The search loop of lines 253-260 of `AcceptChunk` over the remaining entries of
`partial_eg_chunks_`, `i` being the index of the first of them; the state is
`(best_i, best_j, best_space_left)`. -/
def bestFitLoop (chunk_len : Int) : List (Int × Int) → Int → Int × Int × Int → Int × Int × Int
  | [], _, best => best
  | p :: rest, i, best =>
    let this_space_left := p.2
    if this_space_left ≥ chunk_len ∧ this_space_left < best.2.2 then
      bestFitLoop chunk_len rest (i + 1) (i, p.1, this_space_left)
    else
      bestFitLoop chunk_len rest (i + 1) best

/-- The two statements `v[i] = v.back(); v.pop_back();` of lines 262-263. -/
def swapRemove {α : Type} (v : List α) (i : Int) : Option (List α) :=
  match v.getLast? with
  | none => none
  | some last => (vecSet? v i last).map List.dropLast

/-- Lines 274-281 of `AcceptChunk`: the chunk goes to slot `best_j`, which had
`best_space_left` positions left; the slot is listed as partially filled again if space is
left. -/
def placeChunk (eg_chunks : List (List SequenceChunk)) (empty_eg_chunks : List Int)
    (partial_eg_chunks : List (Int × Int)) (best_j best_space_left : Int)
    (chunk : SequenceChunk) : Option (Bool × SingleMinibatchCreator) :=
  let new_space_left := best_space_left - chunk.Length
  if new_space_left ≥ 0 then
    let partial_eg_chunks' :=
      if new_space_left > 0 then partial_eg_chunks ++ [(best_j, new_space_left)]
      else partial_eg_chunks
    match vecGet? eg_chunks best_j with
    | none => none
    | some l =>
      some (true, { eg_chunks_ := eg_chunks.set best_j.toNat (l ++ [chunk]),
                    empty_eg_chunks_ := empty_eg_chunks,
                    partial_eg_chunks_ := partial_eg_chunks' })
  else none

/-- `SingleMinibatchCreator::AcceptChunk(chunk)`: the returned flag and the state afterwards;
`none` when an assertion fails or a vector is accessed outside its bounds. -/
def SingleMinibatchCreator.AcceptChunk (cfg : RnnlmEgsConfig) (s : SingleMinibatchCreator)
    (chunk : SequenceChunk) : Option (Bool × SingleMinibatchCreator) :=
  let chunk_len := chunk.Length
  if chunk_len = cfg.chunk_length then
    match s.empty_eg_chunks_.getLast? with
    | none => some (false, s)
    | some i =>
      match vecGet? s.eg_chunks_ i with
      | some [] =>
        some (true, { s with eg_chunks_ := s.eg_chunks_.set i.toNat [chunk],
                             empty_eg_chunks_ := s.empty_eg_chunks_.dropLast })
      | _ => none
  else if chunk_len < cfg.chunk_length then
    let best := bestFitLoop chunk_len s.partial_eg_chunks_ 0 (-1, -1, INT32_MAX)
    if best.1 ≠ -1 then
      match swapRemove s.partial_eg_chunks_ best.1 with
      | none => none
      | some partial_eg_chunks =>
        placeChunk s.eg_chunks_ s.empty_eg_chunks_ partial_eg_chunks best.2.1 best.2.2 chunk
    else
      match s.empty_eg_chunks_.getLast? with
      | none => some (false, s)
      | some best_j =>
        placeChunk s.eg_chunks_ s.empty_eg_chunks_.dropLast s.partial_eg_chunks_ best_j
          cfg.chunk_length chunk
  else none

/-- The value the numerator of `ProportionFull` stands for, computed in unbounded integers:
`minibatch_size * chunk_length`, minus `chunk_length` per listed empty slot, minus the listed
space of each partially filled slot. -/
def recordedOccupancy (cfg : RnnlmEgsConfig) (s : SingleMinibatchCreator) : Int :=
  let den := cfg.minibatch_size * cfg.chunk_length
  s.partial_eg_chunks_.foldl (fun num p => num - p.2)
    (den - cfg.chunk_length * (s.empty_eg_chunks_.length : Int))

/-- The result of an `int32` operation whose exact value is `x`: the value in
`[-2^31, 2^31)` that differs from `x` by a multiple of `2^32`. -/
def wrapInt32 (x : Int) : Int :=
  (x + 2147483648) % 4294967296 - 2147483648

/-- The `int32` variable `num` computed by `ProportionFull` (lines 286-290): every product and
difference is an `int32` operation, and the size of `empty_eg_chunks_` is cast to `int32`. -/
def SingleMinibatchCreator.ProportionFullNum (cfg : RnnlmEgsConfig)
    (s : SingleMinibatchCreator) : Int :=
  let den := wrapInt32 (cfg.minibatch_size * cfg.chunk_length)
  s.partial_eg_chunks_.foldl (fun num p => wrapInt32 (num - p.2))
    (wrapInt32 (den -
      wrapInt32 (cfg.chunk_length * wrapInt32 (s.empty_eg_chunks_.length : Int))))

/-- `SingleMinibatchCreator::ProportionFull()`: `none` if the assertion `num >= 0` fails; `den`
is the `int32` product of line 286, and the quotient `num * 1.0 / den` is the exact rational
one. -/
def SingleMinibatchCreator.ProportionFull (cfg : RnnlmEgsConfig)
    (s : SingleMinibatchCreator) : Option ℚ :=
  let den := wrapInt32 (cfg.minibatch_size * cfg.chunk_length)
  let num := SingleMinibatchCreator.ProportionFullNum cfg s
  if num ≥ 0 then some ((num : ℚ) * 1 / (den : ℚ)) else none

/-! ## `RnnlmMinibatchSampler` -/

/-- Modelled from the spec: the language-model collaborator `ArpaForSampling` (declared
outside the sources), "exposing `GetUnigramDistribution()` → per-id probability table and
`Order()` → n-gram order (history length = Order − 1)". -/
structure ArpaForSampling where
  Order : Int
  unigram : List ℚ
deriving DecidableEq

/-- The member variables of `RnnlmMinibatchSampler`: the configuration, the language model,
and `sampler_`, which is `NULL` (`none`) when sampling is disabled and otherwise the
`Sampler` built from a unigram distribution. -/
structure RnnlmMinibatchSampler where
  config_ : RnnlmEgsConfig
  arpa_ : ArpaForSampling
  sampler_ : Option (List ℚ)
deriving DecidableEq

/-- The call `v.resize(n)` of a vector: the first `n` entries are kept, new entries are
`fill`; a negative `n` is not a size. -/
def vecResize {α : Type} (v : List α) (n : Int) (fill : α) : Option (List α) :=
  if 0 ≤ n then some (v.take n.toNat ++ List.replicate (n.toNat - v.length) fill) else none

/-- The loop of lines 186-199 of `GetHistory` over the remaining values of `t_step`; `none`
when the assertion `hist_t >= 0` fails. -/
def historyLoop (cfg : RnnlmEgsConfig) (mb : RnnlmMinibatch) (t n : Int) :
    List Int → List Int → Option (List Int)
  | [], history => some history
  | t_step :: rest, history =>
    let hist_t := t + t_step
    if hist_t ≥ 0 then
      match vecGet? mb.input_words (hist_t * cfg.minibatch_size + n) with
      | none => none
      | some history_word =>
        if history_word = cfg.bos_symbol ∨ history_word = cfg.brk_symbol then
          some (history ++ [history_word])
        else historyLoop cfg mb t n rest (history ++ [history_word])
    else none

/-- `RnnlmMinibatchSampler::GetHistory(t, n, minibatch, max_history_length, &history)`:
`history->reserve(max_history_length)` throws for a negative length (`none`); then `t_step`
runs through `0, -1, …, -(max_history_length - 1)`, and the words collected are reversed at the
end. -/
def RnnlmMinibatchSampler.GetHistory (smp : RnnlmMinibatchSampler) (t n : Int)
    (mb : RnnlmMinibatch) (max_history_length : Int) : Option (List Int) :=
  if 0 ≤ max_history_length then
    (historyLoop smp.config_ mb t n
      ((List.range max_history_length.toNat).map (fun (k : Nat) => -(k : Int))) []).map
      List.reverse
  else none

/-- The statement `hist_to_weight[history] += weight` on a map kept as a list of
`(key, value)` pairs with distinct keys: a key not yet present starts from zero. -/
def addHistWeight : List (List Int × ℚ) → List Int → ℚ → List (List Int × ℚ)
  | [], history, weight => [(history, 0 + weight)]
  | (h, x) :: rest, history, weight =>
    if h = history then (h, x + weight) :: rest
    else (h, x) :: addHistWeight rest history weight

/-- The loop over `n` of lines 144-156 of `GetHistoriesForGroup`, at timestep `t`. -/
def histLoopN (smp : RnnlmMinibatchSampler) (mb : RnnlmMinibatch) (history_length t : Int) :
    List Int → List (List Int × ℚ) → Option (List (List Int × ℚ))
  | [], hist_to_weight => some hist_to_weight
  | n :: rest, hist_to_weight =>
    match vecGet? mb.output_weights (t * smp.config_.minibatch_size + n) with
    | none => none
    | some this_weight =>
      if this_weight ≥ 0 then
        if this_weight = 0 then histLoopN smp mb history_length t rest hist_to_weight
        else
          match smp.GetHistory t n mb history_length with
          | none => none
          | some history =>
            histLoopN smp mb history_length t rest
              (addHistWeight hist_to_weight history this_weight)
      else none

/-- The loop over `t` of lines 142-157 of `GetHistoriesForGroup`. -/
def histLoopT (smp : RnnlmMinibatchSampler) (mb : RnnlmMinibatch) (history_length : Int) :
    List Int → List (List Int × ℚ) → Option (List (List Int × ℚ))
  | [], hist_to_weight => some hist_to_weight
  | t :: rest, hist_to_weight =>
    match histLoopN smp mb history_length t (intRange 0 smp.config_.minibatch_size)
        hist_to_weight with
    | none => none
    | some m => histLoopT smp mb history_length rest m

/-- `RnnlmMinibatchSampler::GetHistoriesForGroup(g, minibatch, &hist_weights)`: the pairs
written to `hist_weights` (in the order of the list that stands for the hash map). -/
def RnnlmMinibatchSampler.GetHistoriesForGroup (smp : RnnlmMinibatchSampler) (g : Int)
    (mb : RnnlmMinibatch) : Option (List (List Int × ℚ)) :=
  if smp.arpa_.Order > 0 then
    let history_length := smp.arpa_.Order - 1
    match histLoopT smp mb history_length
        (intRange (g * smp.config_.sample_group_size)
          ((g + 1) * smp.config_.sample_group_size)) [] with
    | none => none
    | some hist_to_weight =>
      if hist_to_weight = [] then some [([], 1)] else some hist_to_weight
  else none

/-- The loop over `n` of lines 121-125 of `SampleForGroup`, at timestep `t`: the set
`words_we_must_sample` as a list without repetition. -/
def mustSampleLoopN (cfg : RnnlmEgsConfig) (mb : RnnlmMinibatch) (t : Int) :
    List Int → List Int → Option (List Int)
  | [], words => some words
  | n :: rest, words =>
    match vecGet? mb.output_words (t * cfg.minibatch_size + n) with
    | none => none
    | some output_word =>
      mustSampleLoopN cfg mb t rest
        (if output_word ∈ words then words else words ++ [output_word])

/-- The loop over `t` of lines 119-126 of `SampleForGroup`. -/
def mustSampleLoopT (cfg : RnnlmEgsConfig) (mb : RnnlmMinibatch) :
    List Int → List Int → Option (List Int)
  | [], words => some words
  | t :: rest, words =>
    match mustSampleLoopN cfg mb t (intRange 0 cfg.minibatch_size) words with
    | none => none
    | some words' => mustSampleLoopT cfg mb rest words'

/-- `RnnlmMinibatchSampler::SampleForGroup(g, minibatch)`: it computes the local set
`words_we_must_sample` and the local vector `hist_weights` and ends there, writing nothing to
the batch. -/
def RnnlmMinibatchSampler.SampleForGroup (smp : RnnlmMinibatchSampler) (g : Int)
    (mb : RnnlmMinibatch) : Option RnnlmMinibatch :=
  match mustSampleLoopT smp.config_ mb
      (intRange (g * smp.config_.sample_group_size)
        ((g + 1) * smp.config_.sample_group_size)) [] with
  | none => none
  | some _words_we_must_sample =>
    match smp.GetHistoriesForGroup g mb with
    | none => none
    | some _hist_weights => some mb

/-- The loop over the groups of lines 105-107 of `SampleForMinibatch`. -/
def sampleGroupsLoop (smp : RnnlmMinibatchSampler) :
    List Int → RnnlmMinibatch → Option RnnlmMinibatch
  | [], mb => some mb
  | g :: rest, mb =>
    match smp.SampleForGroup g mb with
    | none => none
    | some mb' => sampleGroupsLoop smp rest mb'

/-- `RnnlmMinibatchSampler::SampleForMinibatch(minibatch)`: the batch afterwards; `none` when
an assertion fails, a vector is accessed outside its bounds, or a division by zero occurs.
The conjunct `sample_group_size % chunk_length == 0` of the assertion is as in the source,
`chunk_length ≠ 0` stands for the division by zero in it. -/
def RnnlmMinibatchSampler.SampleForMinibatch (smp : RnnlmMinibatchSampler)
    (mb : RnnlmMinibatch) : Option RnnlmMinibatch :=
  match smp.sampler_ with
  | none => some mb
  | some _ =>
    if mb.chunk_length = smp.config_.chunk_length ∧
        mb.num_sequences = smp.config_.minibatch_size ∧
        smp.config_.chunk_length ≠ 0 ∧
        Int.tmod smp.config_.sample_group_size smp.config_.chunk_length = 0 ∧
        (mb.input_words.length : Int) =
          smp.config_.chunk_length * smp.config_.minibatch_size then
      let num_samples := smp.config_.num_samples
      let sample_group_size := smp.config_.sample_group_size
      let chunk_length := smp.config_.chunk_length
      if sample_group_size = 0 then none
      else
        let num_groups := Int.tdiv chunk_length sample_group_size
        match vecResize mb.sampled_words (num_groups * num_samples) 0,
            vecResize mb.sample_probs (num_groups * num_samples) 0 with
        | some sampled_words, some sample_probs =>
          sampleGroupsLoop smp (intRange 0 num_groups)
            { mb with num_samples := num_samples, sample_group_size := sample_group_size,
                      sampled_words := sampled_words, sample_probs := sample_probs }
        | _, _ => none
    else none

/-- The candidate words recorded in `sampled_words` for group `g`: the entries
`g * num_samples, …, (g + 1) * num_samples - 1`. -/
def sampledWordsOfGroup (mb : RnnlmMinibatch) (g : Int) : List Int :=
  (mb.sampled_words.drop (g * mb.num_samples).toNat).take mb.num_samples.toNat

/-! ## Predicates used to state the properties -/

/-- A well-formed chunk: `0 ≤ context_begin ≤ begin ≤ end ≤ sequence length` and a positive
weight. -/
def SequenceChunk.WellFormed (c : SequenceChunk) : Prop :=
  0 ≤ c.context_begin ∧ c.context_begin ≤ c.begin ∧ c.begin ≤ c.end_ ∧
    c.end_ ≤ (c.sequence.length : Int) ∧ 0 < c.weight

instance (c : SequenceChunk) : Decidable c.WellFormed := by
  unfold SequenceChunk.WellFormed; infer_instance

/-- Chunk `c'` is chunk `c` with its left context possibly extended: the same token buffer,
weight, `begin` and `end`, and a `context_begin` that is not larger and still not negative. -/
def SequenceChunk.ExtendedFrom (c' c : SequenceChunk) : Prop :=
  c'.sequence = c.sequence ∧ c'.weight = c.weight ∧ c'.begin = c.begin ∧ c'.end_ = c.end_ ∧
    c'.context_begin ≤ c.context_begin ∧ (0 ≤ c.context_begin → 0 ≤ c'.context_begin)

/-- The word and weight arrays of the batch have `chunk_length * minibatch_size` entries, as
after the `resize` calls of `CreateMinibatch`. -/
def RnnlmMinibatch.Shaped (cfg : RnnlmEgsConfig) (mb : RnnlmMinibatch) : Prop :=
  (mb.input_words.length : Int) = cfg.chunk_length * cfg.minibatch_size ∧
  (mb.output_words.length : Int) = cfg.chunk_length * cfg.minibatch_size ∧
  (mb.output_weights.length : Int) = cfg.chunk_length * cfg.minibatch_size

instance (cfg : RnnlmEgsConfig) (mb : RnnlmMinibatch) : Decidable (mb.Shaped cfg) := by
  unfold RnnlmMinibatch.Shaped; infer_instance

/-- The batch position at which chunk number `c` of a slot starts: the total `Length()` of the
chunks before it. -/
def slotOffset (cs : List SequenceChunk) (c : Nat) : Int :=
  totalLength (cs.take c)

/-- The packer states reachable from the constructor by `AcceptChunk` calls with chunks whose
`Length()` is in `[1, chunk_length]` (the calls that return). -/
inductive Reachable (cfg : RnnlmEgsConfig) : SingleMinibatchCreator → Prop
  | init (s : SingleMinibatchCreator) :
      SingleMinibatchCreator.construct cfg = some s → Reachable cfg s
  | step (s s' : SingleMinibatchCreator) (chunk : SequenceChunk) (b : Bool) :
      Reachable cfg s → 1 ≤ chunk.Length → chunk.Length ≤ cfg.chunk_length →
      SingleMinibatchCreator.AcceptChunk cfg s chunk = some (b, s') → Reachable cfg s'

/-- The free capacity of a slot holding the chunks `l`. -/
def freeCapacity (cfg : RnnlmEgsConfig) (l : List SequenceChunk) : Int :=
  cfg.chunk_length - totalLength l

/-- The occupied capacity: the sum of `Length()` over all chunks in all slots. -/
def occupied (s : SingleMinibatchCreator) : Int :=
  (s.eg_chunks_.map totalLength).sum

/-- The bookkeeping invariant of the packer: there are `minibatch_size` slots, every chunk in a
slot has a positive `Length()`, the chunks of a slot fit into `chunk_length`,
`empty_eg_chunks_` lists each slot without a chunk once and nothing else, and
`partial_eg_chunks_` lists `(j, space left)` once for each slot `j` that has a chunk and space
left, and nothing else. -/
structure PackerInvariant (cfg : RnnlmEgsConfig) (s : SingleMinibatchCreator) : Prop where
  size : (s.eg_chunks_.length : Int) = cfg.minibatch_size
  chunk_pos : ∀ l ∈ s.eg_chunks_, ∀ c ∈ l, 1 ≤ c.Length
  fits : ∀ l ∈ s.eg_chunks_, totalLength l ≤ cfg.chunk_length
  empty_nodup : s.empty_eg_chunks_.Nodup
  empty_iff : ∀ j, j ∈ s.empty_eg_chunks_ ↔ vecGet? s.eg_chunks_ j = some []
  partial_nodup : (s.partial_eg_chunks_.map Prod.fst).Nodup
  partial_iff : ∀ j sp, (j, sp) ∈ s.partial_eg_chunks_ ↔
    ∃ l, vecGet? s.eg_chunks_ j = some l ∧ l ≠ [] ∧ sp = freeCapacity cfg l ∧ 0 < sp

/-! ## Concrete inputs used to exercise the theorems -/

/-- A configuration with `chunk_length = 8`, two slots, `min_split_context = 1`, and the
symbols `bos = 1`, `brk = 2`, `eos = 9`. -/
def exampleConfig : RnnlmEgsConfig :=
  { chunk_length := 8, minibatch_size := 2, min_split_context := 1, sample_group_size := 8,
    num_samples := 1, chunk_buffer_size := 10, bos_symbol := 1, brk_symbol := 2,
    eos_symbol := 9, special_symbol_prob := 0, unigram_prob_mass := 0 }

/-- Two chunks of two different sequences, both continuation pieces with one position of split
context: lengths 3 and 3, so that a slot holding both has two positions to spare. -/
def exampleSlot : List SequenceChunk :=
  [ { sequence := [3, 4, 5, 6, 7, 8, 9], weight := 7, begin := 4, end_ := 6, context_begin := 3 },
    { sequence := [13, 14, 15, 16, 17, 18, 9], weight := 5, begin := 3, end_ := 5,
      context_begin := 2 } ]

/-- A batch for `exampleConfig` as `CreateMinibatch` sets it up before filling it. -/
def exampleBatch : RnnlmMinibatch :=
  { num_sequences := 2, chunk_length := 8, num_samples := 1, sample_group_size := 0,
    input_words := List.replicate 16 0, output_words := List.replicate 16 0,
    output_weights := List.replicate 16 0, sampled_words := List.replicate 8 0,
    sample_probs := [] }

/-- A chunk of the given length, starting at the beginning of a sequence of weight 1. -/
def exampleChunk (len : Int) : SequenceChunk :=
  { sequence := [3, 4, 5, 6, 7, 8, 10, 11, 9], weight := 1, begin := 0, end_ := len,
    context_begin := 0 }

/-- The packer for `exampleConfig` after accepting one chunk of length 3: it went to slot 1,
which has 5 positions left; slot 0 is empty. -/
def examplePacker : SingleMinibatchCreator :=
  { eg_chunks_ := [[], [exampleChunk 3]], empty_eg_chunks_ := [0],
    partial_eg_chunks_ := [(1, 5)] }

/-- A small configuration for the sampler: `chunk_length = 2`, one slot, one group of two
timesteps, one sample per group, `bos = 1`, `brk = 2`, `eos = 9`. -/
def smallConfig : RnnlmEgsConfig :=
  { chunk_length := 2, minibatch_size := 1, min_split_context := 0, sample_group_size := 2,
    num_samples := 1, chunk_buffer_size := 10, bos_symbol := 1, brk_symbol := 2,
    eos_symbol := 9, special_symbol_prob := 0, unigram_prob_mass := 0 }

/-- A sampler for `smallConfig` with sampling enabled, over a trigram model whose unigram
table gives the words 3 and 9 probability one half each. -/
def smallSampler : RnnlmMinibatchSampler :=
  { config_ := smallConfig,
    arpa_ := { Order := 3, unigram := [0, 0, 0, 1 / 2, 0, 0, 0, 0, 0, 1 / 2] },
    sampler_ := some [0, 0, 0, 1 / 2, 0, 0, 0, 0, 0, 1 / 2] }

/-- The batch `CreateMinibatch` produces under `smallConfig` from the single token sequence
`[3]` of weight 1: inputs `[bos, 3]`, outputs `[3, eos]`, both with weight 1. -/
def smallBatch : RnnlmMinibatch :=
  { num_sequences := 1, chunk_length := 2, num_samples := 1, sample_group_size := 0,
    input_words := [1, 3], output_words := [3, 9], output_weights := [1, 1],
    sampled_words := [0, 0], sample_probs := [] }

/-! ## `RnnlmMinibatchCreator`: checking a sequence -/

/-- The loop of lines 488-490 of `CheckSequence`; `none` when the assertion fails. -/
def checkWordsLoop (bos_symbol brk_symbol : Int) : List Int → Option Unit
  | [] => some ()
  | w :: rest =>
    if w ≠ bos_symbol ∧ w ≠ brk_symbol then checkWordsLoop bos_symbol brk_symbol rest
    else none

/-- `RnnlmMinibatchCreator::CheckSequence(weight, words)`: `none` when an assertion fails;
otherwise the flag says whether the warning of lines 491-496 is issued. -/
def RnnlmMinibatchCreator.CheckSequence (cfg : RnnlmEgsConfig) (weight : ℚ)
    (words : List Int) : Option Bool :=
  if weight > 0 then
    match checkWordsLoop cfg.bos_symbol cfg.brk_symbol words with
    | none => none
    | some _ => some (decide (words ≠ [] ∧ words.getLast? = some cfg.eos_symbol))
  else none

/-! ## Notions used to state the properties of `GetHistoriesForGroup` -/

/-- The `(timestep, slot)` positions of group `g`, in the order in which the loops of
`GetHistoriesForGroup` visit them. -/
def groupPositions (cfg : RnnlmEgsConfig) (g : Int) : List (Int × Int) :=
  List.flatMap (intRange (g * cfg.sample_group_size) ((g + 1) * cfg.sample_group_size))
    (fun (t : Int) => (intRange 0 cfg.minibatch_size).map (fun (n : Int) => (t, n)))

/-- What one position contributes to the histories of its group: its history and its output
weight if the weight is not zero, nothing otherwise. -/
def positionContribution (smp : RnnlmMinibatchSampler) (mb : RnnlmMinibatch)
    (p : Int × Int) : Option (List Int × ℚ) :=
  match vecGet? mb.output_weights (p.1 * smp.config_.minibatch_size + p.2) with
  | none => none
  | some w =>
    if w = 0 then none
    else (smp.GetHistory p.1 p.2 mb (smp.arpa_.Order - 1)).map (fun (h : List Int) => (h, w))

/-- The `(history, output weight)` pairs of the positions of group `g` with nonzero output
weight. -/
def groupContributions (smp : RnnlmMinibatchSampler) (g : Int) (mb : RnnlmMinibatch) :
    List (List Int × ℚ) :=
  (groupPositions smp.config_ g).filterMap (positionContribution smp mb)

/-- The sum of the weights of the pairs of `contribs` whose history is `h`. -/
def historyWeight (contribs : List (List Int × ℚ)) (h : List Int) : ℚ :=
  ((contribs.filter (fun c => c.1 = h)).map Prod.snd).sum

/-- The value stored under the key `h` in a map kept as a list of pairs. -/
def histLookup : List (List Int × ℚ) → List Int → Option ℚ
  | [], _ => none
  | (k, x) :: rest, h => if k = h then some x else histLookup rest h

/-- The map `m` (with distinct keys) holds, for the pairs `contribs` added so far, each
history that occurs in them with the sum of its weights. -/
def HistMapOf (m contribs : List (List Int × ℚ)) : Prop :=
  (m.map Prod.fst).Nodup ∧
  ∀ k, histLookup m k =
    if k ∈ contribs.map Prod.fst then some (historyWeight contribs k) else none

/-! ## The constructor of `RnnlmMinibatchSampler` -/

/-- The loop `for (i = 1; i < num_words; i++) unigram_distribution[i] += x` of lines 44-45,
over the remaining values of `i`. -/
def addMassLoop (x : ℚ) : List Int → List ℚ → Option (List ℚ)
  | [], unigram_distribution => some unigram_distribution
  | i :: rest, unigram_distribution =>
    match vecGet? unigram_distribution i with
    | none => none
    | some p =>
      match vecSet? unigram_distribution i (p + x) with
      | none => none
      | some ud => addMassLoop x rest ud

/-- Lines 41-46 of the constructor: the smoothing mass is added to the table. -/
def addUniformMass (cfg : RnnlmEgsConfig) (unigram_distribution : List ℚ) :
    Option (List ℚ) :=
  let num_words : Int := (unigram_distribution.length : Int)
  if cfg.unigram_prob_mass > 0 then
    let x : ℚ := cfg.unigram_prob_mass / ((num_words - 1 : Int) : ℚ)
    addMassLoop x (intRange 1 num_words) unigram_distribution
  else some unigram_distribution

/-- Lines 33-55 of the constructor: the unigram table after the smoothing and after the two
reserved ids have been given `special_symbol_prob`; `none` when one of the two assertions
fails (`abs(sum - 1.0) < 0.01` is written as two inequalities) or a reserved id is outside the
table. -/
def modifiedUnigram (cfg : RnnlmEgsConfig) (arpa : ArpaForSampling) : Option (List ℚ) :=
  let sum : ℚ := arpa.unigram.sum
  if -(1 / 100) < sum - 1 ∧ sum - 1 < 1 / 100 then
    match addUniformMass cfg arpa.unigram with
    | none => none
    | some ud =>
      match vecGet? ud cfg.bos_symbol, vecGet? ud cfg.brk_symbol with
      | some p_bos, some p_brk =>
        if p_bos < 1 / 10000000000 ∧ p_brk < 1 / 10000000000 then
          match vecSet? ud cfg.bos_symbol cfg.special_symbol_prob with
          | none => none
          | some ud1 => vecSet? ud1 cfg.brk_symbol cfg.special_symbol_prob
        else none
      | _, _ => none
  else none

/-- The loop of lines 64-68: the number of nonzero entries of the table, and the table with
every entry multiplied by `scale`. -/
def scaleLoop (scale : ℚ) : List ℚ → Int × List ℚ
  | [] => (0, [])
  | p :: rest =>
    let r := scaleLoop scale rest
    ((if p ≠ 0 then 1 else 0) + r.1, p * scale :: r.2)

/-- Lines 56-68 of the constructor, after the assertions: the pair of
`num_words_nonzero_prob` and the local table `unigram_distribution` as the renormalisation
loop leaves them; `none` when an assertion has failed before.  (A `BaseFloat` division by zero
does not abort; the quotient then has no meaning, here as there.) -/
def renormalisedUnigram (cfg : RnnlmEgsConfig) (arpa : ArpaForSampling) :
    Option (Int × List ℚ) :=
  match modifiedUnigram cfg arpa with
  | none => none
  | some ud =>
    let new_sum : ℚ := ud.sum
    let scale : ℚ := 1 / new_sum
    some (scaleLoop scale ud)

/-- The constructor `RnnlmMinibatchSampler(config, arpa)`.  The `Sampler` it builds is
represented by the table it is built from, the renormalised `unigram_distribution`. -/
def RnnlmMinibatchSampler.construct (cfg : RnnlmEgsConfig) (arpa : ArpaForSampling) :
    Option RnnlmMinibatchSampler :=
  match renormalisedUnigram cfg arpa with
  | none => none
  | some r =>
    let num_words_nonzero_prob := r.1
    let config_ : RnnlmEgsConfig :=
      if cfg.num_samples > num_words_nonzero_prob then { cfg with num_samples := 0 } else cfg
    some { config_ := config_, arpa_ := arpa,
           sampler_ := if config_.num_samples = 0 then none else some r.2 }

/-- A language model of order 3 over five word ids; ids 1 and 2 (`bos`, `brk`) have no unigram
probability. -/
def exampleArpa : ArpaForSampling :=
  { Order := 3, unigram := [1 / 2, 0, 0, 1 / 4, 1 / 4] }

/-- `smallConfig` with `special_symbol_prob = 1/4` and two samples per group. -/
def samplerConfig : RnnlmEgsConfig :=
  { smallConfig with special_symbol_prob := 1 / 4, num_samples := 2 }

/-- `samplerConfig` with a smoothing mass of `2/5`. -/
def massConfig : RnnlmEgsConfig :=
  { samplerConfig with unigram_prob_mass := 2 / 5 }

/-- `smallConfig` with `chunk_length = 4`: the group size 2 divides the chunk length. -/
def groupConfig : RnnlmEgsConfig :=
  { smallConfig with chunk_length := 4 }

/-- A sampler for `groupConfig` with sampling enabled. -/
def groupSampler : RnnlmMinibatchSampler :=
  { config_ := groupConfig,
    arpa_ := { Order := 3, unigram := [0, 0, 0, 1 / 4, 1 / 4, 1 / 4, 0, 0, 0, 1 / 4] },
    sampler_ := some [0, 0, 0, 1 / 4, 1 / 4, 1 / 4, 0, 0, 0, 1 / 4] }

/-- The batch `CreateMinibatch` produces under `groupConfig` from the single token sequence
`[3, 4, 5]` of weight 1: inputs `[bos, 3, 4, 5]`, outputs `[3, 4, 5, eos]`. -/
def groupBatch : RnnlmMinibatch :=
  { num_sequences := 1, chunk_length := 4, num_samples := 1, sample_group_size := 0,
    input_words := [1, 3, 4, 5], output_words := [3, 4, 5, 9], output_weights := [1, 1, 1, 1],
    sampled_words := [0, 0, 0, 0], sample_probs := [] }

/-! ## `SingleMinibatchCreator::CreateMinibatch` and `WriteMinibatch` -/

/-- The loop over `n` of lines 410-412 of `CreateMinibatch`, over the remaining slots. -/
def createLoop (cfg : RnnlmEgsConfig) :
    List Int → List (List SequenceChunk) → RnnlmMinibatch →
      Option (List (List SequenceChunk) × RnnlmMinibatch)
  | [], eg_chunks, mb => some (eg_chunks, mb)
  | n :: rest, eg_chunks, mb =>
    match SingleMinibatchCreator.CreateMinibatchOneSequence cfg eg_chunks n mb with
    | none => none
    | some r => createLoop cfg rest r.1 r.2

/-- `SingleMinibatchCreator::CreateMinibatch(minibatch)`: the three size fields are set, the
arrays are resized to the `int32` products of lines 406 and 410 (`Resize` of the weight vector
sets it to zero) and every slot is materialised.  Returns the packer, in which only the
contexts of the chunks may have grown, and the batch; `empty_eg_chunks_` and
`partial_eg_chunks_` are not written. -/
def SingleMinibatchCreator.CreateMinibatch (cfg : RnnlmEgsConfig) (s : SingleMinibatchCreator)
    (mb : RnnlmMinibatch) : Option (SingleMinibatchCreator × RnnlmMinibatch) :=
  let num_words := wrapInt32 (cfg.chunk_length * cfg.minibatch_size)
  match vecResize mb.input_words num_words 0, vecResize mb.output_words num_words 0,
      vecResize mb.sampled_words (wrapInt32 (cfg.chunk_length * cfg.num_samples)) 0 with
  | some input_words, some output_words, some sampled_words =>
    match createLoop cfg (intRange 0 cfg.minibatch_size) s.eg_chunks_
        { mb with num_sequences := cfg.minibatch_size, chunk_length := cfg.chunk_length,
                  num_samples := cfg.num_samples, input_words := input_words,
                  output_words := output_words,
                  output_weights := List.replicate num_words.toNat 0,
                  sampled_words := sampled_words } with
    | none => none
    | some r => some ({ s with eg_chunks_ := r.1 }, r.2)
  | _, _, _ => none

/-- Modelled from the spec: the member variables of `RnnlmMinibatchCreator` that hold chunks
(the class is declared in a header outside the sources): the chunk pool `chunks_` that
`AcceptSequence` and `GetRandomChunk` use, and the slot-set of the packer ("Chunks live in the
Chunk Pool until drawn by the Packer, then transfer ownership to a Slot"). -/
structure RnnlmMinibatchCreator where
  chunks_ : List SequenceChunk
  slots : SingleMinibatchCreator
deriving DecidableEq

/-- `RnnlmMinibatchCreator::WriteMinibatch()` (lines 425-428): the body is empty, so every
member variable keeps its value.  (There is no `return` statement; the result of the call is
not modelled.) -/
def RnnlmMinibatchCreator.WriteMinibatch (s : RnnlmMinibatchCreator) : RnnlmMinibatchCreator :=
  s

/-- A creator with an empty pool whose slot-set is `examplePacker`: slot 1 holds a chunk of
length 3. -/
def exampleCreator : RnnlmMinibatchCreator :=
  { chunks_ := [], slots := examplePacker }

/-- The sum of `context_begin` over the chunks of a slot: the number of positions by which the
left contexts of the slot could still be extended. -/
def contextSum (cs : List SequenceChunk) : Int :=
  (cs.map SequenceChunk.context_begin).sum

/-- The number of chunks among the first `i` of the slot that have `context_begin > 0`. -/
def positivesBefore (cs : List SequenceChunk) (i : Nat) : Int :=
  (((cs.take i).filter (fun c => c.context_begin > 0)).length : Int)

/-! # Theorems -/

/-! ## Ranges and vectors -/

theorem intRange_length (a b : Int) : (intRange a b).length = (b - a).toNat := by
  simp [intRange]

theorem intRange_of_le {a b : Int} (h : b ≤ a) : intRange a b = [] := by
  have : (b - a).toNat = 0 := by omega
  simp [intRange, this]

theorem intRange_of_lt {a b : Int} (h : a < b) : intRange a b = a :: intRange (a + 1) b := by
  have h1 : (b - a).toNat = (b - (a + 1)).toNat + 1 := by omega
  unfold intRange
  rw [h1, List.range_succ_eq_map]
  simp only [List.map_cons, List.map_map]
  congr 1
  · simp
  · apply List.map_congr_left
    intro k _
    simp only [Function.comp, Nat.cast_succ]
    omega

theorem vecGet?_nonneg {α : Type} (v : List α) {i : Int} (h : 0 ≤ i) :
    vecGet? v i = v[i.toNat]? := by
  simp [vecGet?, h]

theorem vecGet?_natCast {α : Type} (v : List α) (k : Nat) : vecGet? v (k : Int) = v[k]? := by
  simp [vecGet?]

theorem vecGet?_append_left {α : Type} (u v : List α) {i : Int} (h : i < (u.length : Int)) :
    vecGet? (u ++ v) i = vecGet? u i := by
  unfold vecGet?
  split
  · rw [List.getElem?_append_left]; omega
  · rfl

theorem vecGet?_append_right {α : Type} (u v : List α) {i : Int} (h : (u.length : Int) ≤ i) :
    vecGet? (u ++ v) i = vecGet? v (i - u.length) := by
  unfold vecGet?
  have h0 : 0 ≤ i := by omega
  have h1 : 0 ≤ i - u.length := by omega
  rw [if_pos h0, if_pos h1, List.getElem?_append_right (by omega)]
  congr 1
  omega

theorem vecGet?_cons_zero {α : Type} (x : α) (v : List α) : vecGet? (x :: v) 0 = some x := by
  simp [vecGet?]

theorem vecGet?_cons_pos {α : Type} (x : α) (v : List α) {i : Int} (h : 0 < i) :
    vecGet? (x :: v) i = vecGet? v (i - 1) := by
  have := vecGet?_append_right [x] v (i := i) (by simpa using h)
  simpa using this

/-! ## Left-context growth -/

theorem totalLength_nil : totalLength [] = 0 := rfl

theorem totalLength_cons (c : SequenceChunk) (cs : List SequenceChunk) :
    totalLength (c :: cs) = c.Length + totalLength cs := by
  simp [totalLength]

theorem SequenceChunk.ExtendedFrom.refl (c : SequenceChunk) : c.ExtendedFrom c :=
  ⟨rfl, rfl, rfl, rfl, le_refl _, fun h => h⟩

theorem SequenceChunk.ExtendedFrom.trans {a b c : SequenceChunk} (h1 : a.ExtendedFrom b)
    (h2 : b.ExtendedFrom c) : a.ExtendedFrom c := by
  obtain ⟨a1, a2, a3, a4, a5, a6⟩ := h1
  obtain ⟨b1, b2, b3, b4, b5, b6⟩ := h2
  exact ⟨a1.trans b1, a2.trans b2, a3.trans b3, a4.trans b4, le_trans a5 b5,
    fun h => a6 (b6 h)⟩

theorem SequenceChunk.ExtendedFrom.wellFormed {c' c : SequenceChunk} (h : c'.ExtendedFrom c)
    (hc : c.WellFormed) : c'.WellFormed := by
  obtain ⟨h1, h2, h3, h4, h5, h6⟩ := h
  obtain ⟨w1, w2, w3, w4, w5⟩ := hc
  refine ⟨h6 w1, ?_, ?_, ?_, ?_⟩
  · rw [h3]; exact le_trans h5 w2
  · rw [h3, h4]; exact w3
  · rw [h1, h4]; exact w4
  · rw [h2]; exact w5

theorem forall₂_extendedFrom_trans {as bs cs : List SequenceChunk}
    (h1 : List.Forall₂ SequenceChunk.ExtendedFrom as bs)
    (h2 : List.Forall₂ SequenceChunk.ExtendedFrom bs cs) :
    List.Forall₂ SequenceChunk.ExtendedFrom as cs := by
  induction h1 generalizing cs with
  | nil => cases h2; exact List.Forall₂.nil
  | cons hab _ ih =>
    cases h2 with
    | cons hbc hrest => exact List.Forall₂.cons (hab.trans hbc) (ih hrest)

/-- One round of growth: the chunks are extended, the capacity used is taken from
`extra_length_available`, which stays non-negative and strictly decreases when something
changed. -/
theorem growRound_spec (cs : List SequenceChunk) (extra : Int) (h0 : 0 ≤ extra) :
    List.Forall₂ SequenceChunk.ExtendedFrom (growRound cs extra).2.1 cs ∧
    totalLength (growRound cs extra).2.1 + (growRound cs extra).2.2 = totalLength cs + extra ∧
    0 ≤ (growRound cs extra).2.2 ∧
    ((growRound cs extra).1 = true → (growRound cs extra).2.2 < extra) ∧
    (growRound cs extra).2.2 ≤ extra := by
  induction cs generalizing extra with
  | nil => simp [growRound, h0]
  | cons c cs ih =>
    unfold growRound
    split
    · rename_i hc
      obtain ⟨i1, i2, i3, i4, i5⟩ := ih (extra - 1) (by omega)
      refine ⟨List.Forall₂.cons ⟨rfl, rfl, rfl, rfl, by simp, fun _ => by simp; omega⟩ i1,
        ?_, i3, fun _ => by simp only; omega, by simp only; omega⟩
      simp only [totalLength_cons, SequenceChunk.Length] at i2 ⊢
      omega
    · obtain ⟨i1, i2, i3, i4, i5⟩ := ih extra h0
      refine ⟨List.Forall₂.cons (SequenceChunk.ExtendedFrom.refl c) i1, ?_, i3, i4, i5⟩
      simp only [totalLength_cons] at i2 ⊢
      omega

/-- The growth loop ends within `extra_length_available + 1` rounds. -/
theorem growLoop_spec (fuel : Nat) (cs : List SequenceChunk) (extra : Int) (h0 : 0 ≤ extra)
    (hfuel : extra.toNat < fuel) :
    ∃ cs' extra', growLoop fuel cs extra = some (cs', extra') ∧
      List.Forall₂ SequenceChunk.ExtendedFrom cs' cs ∧
      totalLength cs' + extra' = totalLength cs + extra ∧ 0 ≤ extra' := by
  induction fuel generalizing cs extra with
  | zero => omega
  | succ fuel ih =>
    obtain ⟨r1, r2, r3, r4, r5⟩ := growRound_spec cs extra h0
    unfold growLoop
    by_cases hch : (growRound cs extra).1 = true
    · simp only [hch, if_true]
      obtain ⟨cs', extra', e1, e2, e3, e4⟩ :=
        ih (growRound cs extra).2.1 (growRound cs extra).2.2 r3 (by have := r4 hch; omega)
      exact ⟨cs', extra', e1, forall₂_extendedFrom_trans e2 r1, by omega, e4⟩
    · simp only [hch]
      exact ⟨_, _, rfl, r1, r2, r3⟩

/-- The growth step succeeds on a slot whose chunk lengths sum to at most `chunk_length`; the
grown chunks still fit. -/
theorem grownChunks_spec (cfg : RnnlmEgsConfig) (cs : List SequenceChunk)
    (hlen : totalLength cs ≤ cfg.chunk_length) :
    ∃ grown, grownChunks cfg cs = some grown ∧
      List.Forall₂ SequenceChunk.ExtendedFrom grown cs ∧
      totalLength grown ≤ cfg.chunk_length := by
  obtain ⟨cs', extra', e1, e2, e3, e4⟩ :=
    growLoop_spec ((cfg.chunk_length - totalLength cs).toNat + 1) cs
      (cfg.chunk_length - totalLength cs) (by omega) (by omega)
  refine ⟨cs', ?_, e2, by omega⟩
  simp [grownChunks, hlen, e1]

/-! ## The `Set` calls of one slot -/

theorem mem_intRange {a b x : Int} : x ∈ intRange a b ↔ a ≤ x ∧ x < b := by
  unfold intRange
  simp only [List.mem_map, List.mem_range]
  constructor
  · rintro ⟨k, hk, rfl⟩
    omega
  · intro h
    exact ⟨(x - a).toNat, by omega, by omega⟩

theorem intRange_append {a b c : Int} (hab : a ≤ b) (hbc : b ≤ c) :
    intRange a b ++ intRange b c = intRange a c := by
  obtain ⟨m, hm⟩ : ∃ m : Nat, (b - a).toNat = m := ⟨_, rfl⟩
  induction m generalizing a with
  | zero =>
    have : a = b := by omega
    subst this
    simp [intRange_of_le (le_refl a)]
  | succ m ih =>
    have hlt : a < b := by omega
    rw [intRange_of_lt hlt, intRange_of_lt (lt_of_lt_of_le hlt hbc), List.cons_append,
      ih (by omega) (by omega)]

theorem SequenceChunk.WellFormed.length_nonneg {c : SequenceChunk} (h : c.WellFormed) :
    0 ≤ c.Length := by
  obtain ⟨_, _, _, _, _⟩ := h
  unfold SequenceChunk.Length
  omega

theorem totalLength_nonneg {cs : List SequenceChunk} (h : ∀ c ∈ cs, c.WellFormed) :
    0 ≤ totalLength cs := by
  induction cs with
  | nil => simp [totalLength]
  | cons c cs ih =>
    rw [totalLength_cons]
    have h1 := (h c (List.mem_cons_self _ _)).length_nonneg
    have h2 := ih (fun x hx => h x (List.mem_cons_of_mem _ hx))
    omega

theorem slotOffset_nonneg {cs : List SequenceChunk} (h : ∀ c ∈ cs, c.WellFormed) (k : Nat) :
    0 ≤ slotOffset cs k :=
  totalLength_nonneg (fun c hc => h c (List.mem_of_mem_take hc))

/-- What the loop body emits for index `i` of a chunk, when it emits something. -/
theorem chunkCallAt_sound (cfg : RnnlmEgsConfig) (chunk : SequenceChunk) (i pos : Int)
    (call : SetCall) (h : chunkCallAt cfg chunk i pos = some call) :
    call.t = pos ∧
      vecGet? chunk.sequence i = some call.output_word ∧
      call.weight = (if i < chunk.begin then 0 else chunk.weight) ∧
      (i = chunk.context_begin → chunk.context_begin = 0 → call.input_word = cfg.bos_symbol) ∧
      (i = chunk.context_begin → chunk.context_begin ≠ 0 →
        call.input_word = cfg.brk_symbol) ∧
      (i ≠ chunk.context_begin → vecGet? chunk.sequence (i - 1) = some call.input_word) := by
  unfold chunkCallAt at h
  cases hout : vecGet? chunk.sequence i with
  | none => simp [hout] at h
  | some o =>
    rw [hout] at h
    dsimp only at h
    by_cases hic : i = chunk.context_begin
    · rw [if_pos hic] at h
      by_cases hz : chunk.context_begin = 0
      · rw [if_pos hz] at h
        cases h
        exact ⟨rfl, rfl, rfl, fun _ _ => rfl, fun _ hn => absurd hz hn, fun hn => absurd hic hn⟩
      · rw [if_neg hz] at h
        cases h
        exact ⟨rfl, rfl, rfl, fun _ hn => absurd hn hz, fun _ _ => rfl, fun hn => absurd hic hn⟩
    · rw [if_neg hic] at h
      cases hin : vecGet? chunk.sequence (i - 1) with
      | none => simp [hin] at h
      | some w =>
        rw [hin] at h
        cases h
        exact ⟨rfl, rfl, rfl, fun hn => absurd hn hic, fun hn => absurd hn hic, fun _ => rfl⟩

/-- The loop body emits a call for every index `context_begin ≤ i < end` of a well-formed
chunk (no access outside the token buffer). -/
theorem chunkCallAt_isSome (cfg : RnnlmEgsConfig) (chunk : SequenceChunk) (i pos : Int)
    (hwf : chunk.WellFormed) (h1 : chunk.context_begin ≤ i) (h2 : i < chunk.end_) :
    ∃ call, chunkCallAt cfg chunk i pos = some call := by
  obtain ⟨w1, w2, w3, w4, w5⟩ := hwf
  have hi : i.toNat < chunk.sequence.length := by omega
  have hout : vecGet? chunk.sequence i = some (chunk.sequence[i.toNat]) := by
    rw [vecGet?_nonneg _ (by omega), List.getElem?_eq_getElem hi]
  unfold chunkCallAt
  rw [hout]
  dsimp only
  by_cases hic : i = chunk.context_begin
  · rw [if_pos hic]
    by_cases hz : chunk.context_begin = 0
    · rw [if_pos hz]; exact ⟨_, rfl⟩
    · rw [if_neg hz]; exact ⟨_, rfl⟩
  · have hi1 : (i - 1).toNat < chunk.sequence.length := by omega
    have hin : vecGet? chunk.sequence (i - 1) = some (chunk.sequence[(i - 1).toNat]) := by
      rw [vecGet?_nonneg _ (by omega), List.getElem?_eq_getElem hi1]
    rw [if_neg hic, hin]
    exact ⟨_, rfl⟩

/-- The calls of the loop over the indices `a, …, end - 1` of a well-formed chunk. -/
theorem chunkCalls_spec (cfg : RnnlmEgsConfig) (chunk : SequenceChunk)
    (hwf : chunk.WellFormed) (a pos : Int) (ha : chunk.context_begin ≤ a)
    (hae : a ≤ chunk.end_) :
    ∃ calls, chunkCalls cfg chunk (intRange a chunk.end_) pos =
        some (calls, pos + (chunk.end_ - a)) ∧
      (calls.length : Int) = chunk.end_ - a ∧
      calls.map SetCall.t = intRange pos (pos + (chunk.end_ - a)) ∧
      ∀ i, a ≤ i → i < chunk.end_ →
        ∃ call, chunkCallAt cfg chunk i (pos + (i - a)) = some call ∧
          vecGet? calls (i - a) = some call := by
  obtain ⟨m, hm⟩ : ∃ m : Nat, (chunk.end_ - a).toNat = m := ⟨_, rfl⟩
  induction m generalizing a pos with
  | zero =>
    have hea : chunk.end_ = a := by omega
    refine ⟨[], ?_, ?_, ?_, ?_⟩
    · rw [intRange_of_le (by omega)]; simp [chunkCalls, hea]
    · simp [hea]
    · rw [intRange_of_le (by omega)]; rfl
    · intro i h1 h2; omega
  | succ m ih =>
    have hlt : a < chunk.end_ := by omega
    obtain ⟨call, hcall⟩ := chunkCallAt_isSome cfg chunk a pos hwf ha hlt
    obtain ⟨rest, r1, r2, r3, r4⟩ := ih (a + 1) (pos + 1) (by omega) (by omega) (by omega)
    refine ⟨call :: rest, ?_, ?_, ?_, ?_⟩
    · rw [intRange_of_lt hlt]
      simp only [chunkCalls, hcall, r1]
      congr 2
      omega
    · simp only [List.length_cons, Nat.cast_succ]; omega
    · rw [List.map_cons, r3, (chunkCallAt_sound cfg chunk a pos call hcall).1,
        intRange_of_lt (by omega : pos < pos + (chunk.end_ - a))]
      congr 2
      omega
    · intro i h1 h2
      by_cases hia : i = a
      · subst hia
        refine ⟨call, ?_, ?_⟩
        · simpa using hcall
        · simp [vecGet?_cons_zero]
      · obtain ⟨c, c1, c2⟩ := r4 i (by omega) h2
        refine ⟨c, ?_, ?_⟩
        · have : pos + (i - a) = pos + 1 + (i - (a + 1)) := by omega
          rw [this]; exact c1
        · rw [vecGet?_cons_pos _ _ (by omega)]
          have : i - a - 1 = i - (a + 1) := by omega
          rw [this]; exact c2

theorem vecGet?_lt_length {α : Type} {v : List α} {i : Int} {x : α}
    (h : vecGet? v i = some x) : 0 ≤ i ∧ i < (v.length : Int) := by
  unfold vecGet? at h
  split at h
  · have := (List.getElem?_eq_some.mp h).1
    omega
  · cases h

theorem slotOffset_zero (cs : List SequenceChunk) : slotOffset cs 0 = 0 := by
  simp [slotOffset, totalLength]

theorem slotOffset_cons_succ (c : SequenceChunk) (cs : List SequenceChunk) (k : Nat) :
    slotOffset (c :: cs) (k + 1) = c.Length + slotOffset cs k := by
  simp [slotOffset, totalLength_cons]

/-- The calls of the loop over the chunks of a slot of well-formed chunks: chunk number `c`
occupies the positions from `slotOffset cs c` on, one per index from `context_begin` to
`end - 1`. -/
theorem slotCalls_spec (cfg : RnnlmEgsConfig) (cs : List SequenceChunk)
    (hwf : ∀ c ∈ cs, c.WellFormed) (pos : Int) :
    ∃ calls, slotCalls cfg cs pos = some (calls, pos + totalLength cs) ∧
      (calls.length : Int) = totalLength cs ∧
      calls.map SetCall.t = intRange pos (pos + totalLength cs) ∧
      ∀ (c : Nat) (hc : c < cs.length) (i : Int),
        cs[c].context_begin ≤ i → i < cs[c].end_ →
        ∃ call, chunkCallAt cfg cs[c] i
            (pos + (slotOffset cs c + (i - cs[c].context_begin))) = some call ∧
          vecGet? calls (slotOffset cs c + (i - cs[c].context_begin)) = some call := by
  induction cs generalizing pos with
  | nil =>
    refine ⟨[], by simp [slotCalls, totalLength], by simp [totalLength], ?_, ?_⟩
    · simp [totalLength, intRange_of_le]
    · intro c hc; simp at hc
  | cons chunk cs ih =>
    have hw := hwf chunk (List.mem_cons_self _ _)
    have hws : ∀ c ∈ cs, c.WellFormed := fun x hx => hwf x (List.mem_cons_of_mem _ hx)
    have hL := hw.length_nonneg
    have hT := totalLength_nonneg hws
    obtain ⟨w1, w2, w3, w4, w5⟩ := hw
    obtain ⟨calls, c1, c2, c3, c4⟩ :=
      chunkCalls_spec cfg chunk ⟨w1, w2, w3, w4, w5⟩ chunk.context_begin pos (le_refl _)
        (by omega)
    obtain ⟨rest, r1, r2, r3, r4⟩ := ih hws (pos + chunk.Length)
    have hlen : chunk.end_ - chunk.context_begin = chunk.Length := rfl
    rw [hlen] at c1 c2 c3
    refine ⟨calls ++ rest, ?_, ?_, ?_, ?_⟩
    · simp only [slotCalls, c1, r1, totalLength_cons]
      congr 2
      omega
    · simp only [List.length_append, Nat.cast_add, totalLength_cons]; omega
    · rw [List.map_append, c3, r3, totalLength_cons,
        intRange_append (by omega) (by omega)]
      congr 1
      omega
    · intro c hc i h1 h2
      cases c with
      | zero =>
        simp only [List.getElem_cons_zero] at h1 h2 ⊢
        obtain ⟨call, k1, k2⟩ := c4 i h1 h2
        rw [slotOffset_zero, zero_add]
        refine ⟨call, k1, ?_⟩
        rw [vecGet?_append_left _ _ (by omega)]
        exact k2
      | succ c =>
        simp only [List.getElem_cons_succ] at h1 h2 ⊢
        have hc' : c < cs.length := by simpa using hc
        obtain ⟨call, k1, k2⟩ := r4 c hc' i h1 h2
        have ho := slotOffset_nonneg hws c
        rw [slotOffset_cons_succ]
        refine ⟨call, ?_, ?_⟩
        · rw [← k1]; congr 1; omega
        · rw [vecGet?_append_right _ _ (by omega), ← k2]
          congr 1
          omega

/-- All `Set` calls of a slot of well-formed chunks that fit into `chunk_length`: there are
`chunk_length` of them, for the timesteps `0, 1, …, chunk_length - 1` in this order; the
chunks come first, then the padding. -/
theorem allCalls_spec (cfg : RnnlmEgsConfig) (cs : List SequenceChunk)
    (hwf : ∀ c ∈ cs, c.WellFormed) (hlen : totalLength cs ≤ cfg.chunk_length) :
    ∃ calls, allCalls cfg cs = some calls ∧
      (calls.length : Int) = cfg.chunk_length ∧
      calls.map SetCall.t = intRange 0 cfg.chunk_length ∧
      (∀ (c : Nat) (hc : c < cs.length) (i : Int),
        cs[c].context_begin ≤ i → i < cs[c].end_ →
        ∃ call, chunkCallAt cfg cs[c] i (slotOffset cs c + (i - cs[c].context_begin)) =
            some call ∧
          vecGet? calls (slotOffset cs c + (i - cs[c].context_begin)) = some call) ∧
      ∀ p, totalLength cs ≤ p → p < cfg.chunk_length →
        vecGet? calls p = some ⟨p, cfg.bos_symbol, cfg.eos_symbol, 0⟩ := by
  have hT := totalLength_nonneg hwf
  obtain ⟨calls, c1, c2, c3, c4⟩ := slotCalls_spec cfg cs hwf 0
  rw [zero_add] at c1 c3
  have hpadlen : ((paddingCalls cfg (totalLength cs)).length : Int) =
      cfg.chunk_length - totalLength cs := by
    simp only [paddingCalls, List.length_map, intRange_length]; omega
  refine ⟨calls ++ paddingCalls cfg (totalLength cs), by simp [allCalls, c1], ?_, ?_, ?_, ?_⟩
  · simp only [List.length_append, Nat.cast_add]; omega
  · rw [List.map_append, c3, ← intRange_append hT hlen]
    congr 1
    unfold paddingCalls
    rw [List.map_map]
    exact List.map_id _
  · intro c hc i h1 h2
    obtain ⟨call, k1, k2⟩ := c4 c hc i h1 h2
    rw [zero_add] at k1
    refine ⟨call, k1, ?_⟩
    have hlt : slotOffset cs c + (i - cs[c].context_begin) < (calls.length : Int) := by
      have := (vecGet?_lt_length k2).2
      omega
    rw [vecGet?_append_left _ _ hlt]
    exact k2
  · intro p h1 h2
    rw [vecGet?_append_right _ _ (by omega), c2]
    unfold paddingCalls intRange
    rw [vecGet?_nonneg _ (by omega)]
    simp only [List.map_map, List.getElem?_map]
    have : (p - totalLength cs).toNat < (cfg.chunk_length - totalLength cs).toNat := by omega
    rw [List.getElem?_range this]
    simp only [Option.map_some', Function.comp]
    congr 2
    omega

/-! ## Executing the `Set` calls -/

theorem batchIndex_bounds {n m t cl : Int} (hn0 : 0 ≤ n) (hnm : n < m) (ht0 : 0 ≤ t)
    (htc : t < cl) : 0 ≤ t * m + n ∧ t * m + n < cl * m := by
  have hm : 0 < m := by omega
  constructor
  · have := mul_nonneg ht0 hm.le
    omega
  · have h1 : (t + 1) * m ≤ cl * m := mul_le_mul_of_nonneg_right (by omega) hm.le
    have h2 : (t + 1) * m = t * m + m := by ring
    omega

theorem batchIndex_inj {n m t t' : Int} (hm : 0 < m) (h : t * m + n = t' * m + n) : t = t' := by
  have h1 : t * m = t' * m := by omega
  exact mul_right_cancel₀ hm.ne' h1

theorem vecGet?_set_self {α : Type} (v : List α) {i : Int} (x : α) (h0 : 0 ≤ i)
    (h1 : i < (v.length : Int)) : vecGet? (v.set i.toNat x) i = some x := by
  rw [vecGet?_nonneg _ h0, List.getElem?_set_self]
  omega

theorem vecGet?_set_ne {α : Type} (v : List α) {i j : Int} (x : α) (h0 : 0 ≤ i)
    (hne : j ≠ i) : vecGet? (v.set i.toNat x) j = vecGet? v j := by
  unfold vecGet?
  split
  · rw [List.getElem?_set_ne]
    omega
  · rfl

/-- `Set` with its assertion satisfied, on a batch of the right shape. -/
theorem Set_spec (cfg : RnnlmEgsConfig) (n t iw ow : Int) (w : ℚ) (mb : RnnlmMinibatch)
    (hn0 : 0 ≤ n) (hnm : n < cfg.minibatch_size) (ht0 : 0 ≤ t) (htc : t < cfg.chunk_length)
    (hw : 0 ≤ w) (hmb : mb.Shaped cfg) :
    SingleMinibatchCreator.Set cfg n t iw ow w mb =
      some { mb with
        input_words := mb.input_words.set (t * cfg.minibatch_size + n).toNat iw,
        output_words := mb.output_words.set (t * cfg.minibatch_size + n).toNat ow,
        output_weights := mb.output_weights.set (t * cfg.minibatch_size + n).toNat w } := by
  obtain ⟨s1, s2, s3⟩ := hmb
  obtain ⟨b1, b2⟩ := batchIndex_bounds hn0 hnm ht0 htc
  unfold SingleMinibatchCreator.Set
  rw [if_pos ⟨hn0, hnm, ht0, htc, hw⟩]
  simp only [vecSet?]
  rw [if_pos ⟨b1, by omega⟩, if_pos ⟨b1, by omega⟩, if_pos ⟨b1, by omega⟩]

/-- Executing calls for the consecutive timesteps `p0, p0 + 1, …` below `chunk_length`, with
non-negative weights, on a batch of the right shape: no assertion fails, the batch keeps its
shape and every field other than the three arrays, each call's triple is in the batch at its
index `t * minibatch_size + n`, and every index not written keeps its content. -/
theorem runCalls_spec (cfg : RnnlmEgsConfig) (n : Int) (hn0 : 0 ≤ n)
    (hnm : n < cfg.minibatch_size) (calls : List SetCall) (mb : RnnlmMinibatch) (p0 : Int)
    (hp0 : 0 ≤ p0) (ht : calls.map SetCall.t = intRange p0 (p0 + calls.length))
    (hend : p0 + calls.length ≤ cfg.chunk_length) (hw : ∀ call ∈ calls, 0 ≤ call.weight)
    (hmb : mb.Shaped cfg) :
    ∃ mb', runCalls cfg n calls mb = some mb' ∧ mb'.Shaped cfg ∧
      (∀ call ∈ calls,
        vecGet? mb'.input_words (call.t * cfg.minibatch_size + n) = some call.input_word ∧
        vecGet? mb'.output_words (call.t * cfg.minibatch_size + n) = some call.output_word ∧
        vecGet? mb'.output_weights (call.t * cfg.minibatch_size + n) = some call.weight) ∧
      (∀ idx : Int, (∀ call ∈ calls, idx ≠ call.t * cfg.minibatch_size + n) →
        vecGet? mb'.input_words idx = vecGet? mb.input_words idx ∧
        vecGet? mb'.output_words idx = vecGet? mb.output_words idx ∧
        vecGet? mb'.output_weights idx = vecGet? mb.output_weights idx) ∧
      mb'.num_sequences = mb.num_sequences ∧ mb'.chunk_length = mb.chunk_length ∧
      mb'.num_samples = mb.num_samples ∧ mb'.sample_group_size = mb.sample_group_size ∧
      mb'.sampled_words = mb.sampled_words ∧ mb'.sample_probs = mb.sample_probs := by
  induction calls generalizing mb p0 with
  | nil =>
    exact ⟨mb, rfl, hmb, fun _ h => by simp at h, fun _ _ => ⟨rfl, rfl, rfl⟩,
      rfl, rfl, rfl, rfl, rfl, rfl⟩
  | cons c rest ih =>
    have hlen : ((c :: rest).length : Int) = (rest.length : Int) + 1 := by simp
    rw [hlen] at ht hend
    rw [intRange_of_lt (by omega), List.map_cons] at ht
    obtain ⟨hct, hrest⟩ := List.cons.inj ht
    have hrest' : rest.map SetCall.t = intRange (p0 + 1) (p0 + 1 + rest.length) := by
      rw [hrest]; congr 1; omega
    obtain ⟨b1, b2⟩ := batchIndex_bounds hn0 hnm (by omega : 0 ≤ c.t)
      (by omega : c.t < cfg.chunk_length)
    obtain ⟨mb1, hmb1, hset⟩ : ∃ mb1 : RnnlmMinibatch, mb1 = { mb with
        input_words := mb.input_words.set (c.t * cfg.minibatch_size + n).toNat c.input_word,
        output_words := mb.output_words.set (c.t * cfg.minibatch_size + n).toNat c.output_word,
        output_weights := mb.output_weights.set (c.t * cfg.minibatch_size + n).toNat c.weight } ∧
        SingleMinibatchCreator.Set cfg n c.t c.input_word c.output_word c.weight mb =
          some mb1 :=
      ⟨_, rfl, Set_spec cfg n c.t c.input_word c.output_word c.weight mb hn0 hnm
        (by omega) (by omega) (hw c (List.mem_cons_self _ _)) hmb⟩
    obtain ⟨s1, s2, s3⟩ := hmb
    have hshape : mb1.Shaped cfg := by
      rw [hmb1]; exact ⟨by simp [s1], by simp [s2], by simp [s3]⟩
    obtain ⟨mb', r1, r2, r3, r4, r5⟩ := ih mb1 (p0 + 1) (by omega) hrest' (by omega)
      (fun x hx => hw x (List.mem_cons_of_mem _ hx)) hshape
    have e1 : mb1.input_words =
        mb.input_words.set (c.t * cfg.minibatch_size + n).toNat c.input_word := by rw [hmb1]
    have e2 : mb1.output_words =
        mb.output_words.set (c.t * cfg.minibatch_size + n).toNat c.output_word := by rw [hmb1]
    have e3 : mb1.output_weights =
        mb.output_weights.set (c.t * cfg.minibatch_size + n).toNat c.weight := by rw [hmb1]
    have e4 : mb1.num_sequences = mb.num_sequences ∧ mb1.chunk_length = mb.chunk_length ∧
        mb1.num_samples = mb.num_samples ∧ mb1.sample_group_size = mb.sample_group_size ∧
        mb1.sampled_words = mb.sampled_words ∧ mb1.sample_probs = mb.sample_probs := by
      rw [hmb1]; exact ⟨rfl, rfl, rfl, rfl, rfl, rfl⟩
    have hlater : ∀ call ∈ rest, c.t * cfg.minibatch_size + n ≠
        call.t * cfg.minibatch_size + n := by
      intro call hcall heq
      have h1 : call.t ∈ rest.map SetCall.t := List.mem_map_of_mem _ hcall
      rw [hrest', mem_intRange] at h1
      have := batchIndex_inj (by omega : 0 < cfg.minibatch_size) heq
      omega
    refine ⟨mb', ?_, r2, ?_, ?_, ?_⟩
    · simp only [runCalls, hset, r1]
    · intro call hcall
      rcases List.mem_cons.mp hcall with rfl | hcall
      · obtain ⟨f1, f2, f3⟩ := r4 _ hlater
        rw [f1, f2, f3, e1, e2, e3]
        exact ⟨vecGet?_set_self _ _ b1 (by omega), vecGet?_set_self _ _ b1 (by omega),
          vecGet?_set_self _ _ b1 (by omega)⟩
      · exact r3 call hcall
    · intro idx hidx
      obtain ⟨f1, f2, f3⟩ := r4 idx (fun call hcall => hidx call (List.mem_cons_of_mem _ hcall))
      have hne := hidx c (List.mem_cons_self _ _)
      rw [f1, f2, f3, e1, e2, e3]
      exact ⟨vecGet?_set_ne _ _ b1 hne, vecGet?_set_ne _ _ b1 hne, vecGet?_set_ne _ _ b1 hne⟩
    · obtain ⟨g1, g2, g3, g4, g5, g6⟩ := r5
      obtain ⟨k1, k2, k3, k4, k5, k6⟩ := e4
      exact ⟨g1.trans k1, g2.trans k2, g3.trans k3, g4.trans k4, g5.trans k5, g6.trans k6⟩

/-! ## `CreateMinibatchOneSequence` -/

theorem chunkCalls_weight_nonneg (cfg : RnnlmEgsConfig) (chunk : SequenceChunk)
    (hw : 0 ≤ chunk.weight) (is : List Int) (pos : Int) (calls : List SetCall) (pos' : Int)
    (h : chunkCalls cfg chunk is pos = some (calls, pos')) :
    ∀ call ∈ calls, 0 ≤ call.weight := by
  induction is generalizing pos calls with
  | nil =>
    simp only [chunkCalls, Option.some.injEq, Prod.mk.injEq] at h
    intro call hcall
    rw [← h.1] at hcall
    simp at hcall
  | cons i is ih =>
    unfold chunkCalls at h
    cases h1 : chunkCallAt cfg chunk i pos with
    | none => simp [h1] at h
    | some call1 =>
      cases h2 : chunkCalls cfg chunk is (pos + 1) with
      | none => simp [h1, h2] at h
      | some r =>
        obtain ⟨rest, p⟩ := r
        simp only [h1, h2, Option.some.injEq, Prod.mk.injEq] at h
        intro call hcall
        rw [← h.1] at hcall
        rcases List.mem_cons.mp hcall with rfl | hmem
        · rw [(chunkCallAt_sound cfg chunk i pos _ h1).2.2.1]
          split
          · exact le_refl _
          · exact hw
        · exact ih (pos + 1) rest (h.2 ▸ h2) call hmem

theorem slotCalls_weight_nonneg (cfg : RnnlmEgsConfig) (cs : List SequenceChunk)
    (hw : ∀ c ∈ cs, 0 ≤ c.weight) (pos : Int) (calls : List SetCall) (pos' : Int)
    (h : slotCalls cfg cs pos = some (calls, pos')) :
    ∀ call ∈ calls, 0 ≤ call.weight := by
  induction cs generalizing pos calls with
  | nil =>
    simp only [slotCalls, Option.some.injEq, Prod.mk.injEq] at h
    intro call hcall
    rw [← h.1] at hcall
    simp at hcall
  | cons chunk cs ih =>
    unfold slotCalls at h
    cases h1 : chunkCalls cfg chunk (intRange chunk.context_begin chunk.end_) pos with
    | none => simp [h1] at h
    | some r1 =>
      obtain ⟨calls1, p1⟩ := r1
      cases h2 : slotCalls cfg cs p1 with
      | none => simp [h1, h2] at h
      | some r2 =>
        obtain ⟨rest, p2⟩ := r2
        simp only [h1, h2, Option.some.injEq, Prod.mk.injEq] at h
        intro call hcall
        rw [← h.1] at hcall
        rcases List.mem_append.mp hcall with hmem | hmem
        · exact chunkCalls_weight_nonneg cfg chunk (hw chunk (List.mem_cons_self _ _)) _ _ _ _
            h1 call hmem
        · exact ih (fun c hc => hw c (List.mem_cons_of_mem _ hc)) p1 rest (h.2 ▸ h2) call hmem

theorem allCalls_weight_nonneg (cfg : RnnlmEgsConfig) (cs : List SequenceChunk)
    (hw : ∀ c ∈ cs, 0 ≤ c.weight) (calls : List SetCall) (h : allCalls cfg cs = some calls) :
    ∀ call ∈ calls, 0 ≤ call.weight := by
  unfold allCalls at h
  cases h1 : slotCalls cfg cs 0 with
  | none => simp [h1] at h
  | some r =>
    obtain ⟨calls1, p⟩ := r
    simp only [h1, Option.some.injEq] at h
    intro call hcall
    rw [← h] at hcall
    rcases List.mem_append.mp hcall with hmem | hmem
    · exact slotCalls_weight_nonneg cfg cs hw 0 calls1 p h1 call hmem
    · simp only [paddingCalls, List.mem_map] at hmem
      obtain ⟨p', _, rfl⟩ := hmem
      exact le_refl _

theorem forall₂_extendedFrom_wellFormed {grown cs : List SequenceChunk}
    (h : List.Forall₂ SequenceChunk.ExtendedFrom grown cs) (hwf : ∀ c ∈ cs, c.WellFormed) :
    ∀ c ∈ grown, c.WellFormed := by
  induction h with
  | nil => intro c hc; simp at hc
  | cons hab _ ih =>
    intro c hc
    rcases List.mem_cons.mp hc with rfl | hmem
    · exact hab.wellFormed (hwf _ (List.mem_cons_self _ _))
    · exact ih (fun x hx => hwf x (List.mem_cons_of_mem _ hx)) c hmem

/-- Materialising slot `n`, whose chunks are well formed and fit into `chunk_length`, into a
batch of the right shape: the function returns, and the grown chunks, the `Set` calls and the
resulting batch are as described by the lemmas above. -/
theorem CreateMinibatchOneSequence_core (cfg : RnnlmEgsConfig)
    (eg_chunks : List (List SequenceChunk)) (n : Int) (mb : RnnlmMinibatch)
    (this_chunks : List SequenceChunk)
    (hsize : (eg_chunks.length : Int) = cfg.minibatch_size)
    (hslot : vecGet? eg_chunks n = some this_chunks)
    (hwf : ∀ c ∈ this_chunks, c.WellFormed)
    (hlen : totalLength this_chunks ≤ cfg.chunk_length)
    (hmb : mb.Shaped cfg) :
    ∃ grown calls mb',
      grownChunks cfg this_chunks = some grown ∧
      allCalls cfg grown = some calls ∧
      SingleMinibatchCreator.CreateMinibatchOneSequence cfg eg_chunks n mb =
        some (eg_chunks.set n.toNat grown, mb') ∧
      List.Forall₂ SequenceChunk.ExtendedFrom grown this_chunks ∧
      (∀ c ∈ grown, c.WellFormed) ∧
      totalLength grown ≤ cfg.chunk_length ∧
      runCalls cfg n calls mb = some mb' ∧
      mb'.Shaped cfg ∧
      (∀ p, 0 ≤ p → p < cfg.chunk_length → ∃ call, vecGet? calls p = some call ∧
        call.t = p ∧
        vecGet? mb'.input_words (p * cfg.minibatch_size + n) = some call.input_word ∧
        vecGet? mb'.output_words (p * cfg.minibatch_size + n) = some call.output_word ∧
        vecGet? mb'.output_weights (p * cfg.minibatch_size + n) = some call.weight) := by
  obtain ⟨hn0, hnlen⟩ := vecGet?_lt_length hslot
  obtain ⟨grown, g1, g2, g3⟩ := grownChunks_spec cfg this_chunks hlen
  have gwf := forall₂_extendedFrom_wellFormed g2 hwf
  obtain ⟨calls, a1, a2, a3, _, _⟩ := allCalls_spec cfg grown gwf g3
  have hwn := allCalls_weight_nonneg cfg grown (fun c hc => (gwf c hc).2.2.2.2.le) calls a1
  obtain ⟨mb', r1, r2, r3, _, _⟩ := runCalls_spec cfg n hn0 (by omega) calls mb 0 (le_refl _)
    (by rw [a3, zero_add, a2]) (by omega) hwn hmb
  refine ⟨grown, calls, mb', g1, a1, ?_, g2, gwf, g3, r1, r2, ?_⟩
  · simp only [SingleMinibatchCreator.CreateMinibatchOneSequence, hslot, g1, a1, r1]
  · intro p hp0 hpc
    have hpl : p.toNat < calls.length := by omega
    have hget : vecGet? calls p = some calls[p.toNat] := by
      rw [vecGet?_nonneg _ hp0, List.getElem?_eq_getElem hpl]
    have hmem : calls[p.toNat] ∈ calls := List.getElem_mem _
    have ht : calls[p.toNat].t = p := by
      have h1 : (calls.map SetCall.t)[p.toNat]? = some calls[p.toNat].t := by
        rw [List.getElem?_map, List.getElem?_eq_getElem hpl]; rfl
      rw [a3] at h1
      unfold intRange at h1
      rw [List.getElem?_map, List.getElem?_range (by omega)] at h1
      simp only [Option.map_some', Option.some.injEq] at h1
      omega
    have := r3 _ hmem
    rw [ht] at this
    exact ⟨_, hget, ht, this⟩

/-- **C1.** For a slot `n` (of `minibatch_size` slots) whose chunks are well formed and whose
`Length()` values sum to at most `chunk_length`, and a batch whose arrays have
`chunk_length * minibatch_size` entries, `CreateMinibatchOneSequence` returns (no assertion fails, no vector is
accessed outside its bounds); its `Set` calls are for the timesteps `0, 1, …, chunk_length - 1`,
each exactly once; the chunks keep their token buffer, weight, `begin` and `end`; and the weight
written for index `i` of chunk number `c` (at timestep `slotOffset grown c + (i - context_begin)`)
is `0` if `i < begin` (context only) and the chunk's weight if `begin ≤ i < end`, while every
tail padding timestep gets weight `0`.  The batch holds these weights at
`t * minibatch_size + n`. -/
theorem CreateMinibatchOneSequence_weights (cfg : RnnlmEgsConfig)
    (eg_chunks : List (List SequenceChunk)) (n : Int) (mb : RnnlmMinibatch)
    (this_chunks : List SequenceChunk)
    (hsize : (eg_chunks.length : Int) = cfg.minibatch_size)
    (hslot : vecGet? eg_chunks n = some this_chunks)
    (hwf : ∀ c ∈ this_chunks, c.WellFormed)
    (hlen : totalLength this_chunks ≤ cfg.chunk_length)
    (hmb : mb.Shaped cfg) :
    ∃ grown calls mb',
      grownChunks cfg this_chunks = some grown ∧
      allCalls cfg grown = some calls ∧
      SingleMinibatchCreator.CreateMinibatchOneSequence cfg eg_chunks n mb =
        some (eg_chunks.set n.toNat grown, mb') ∧
      List.Forall₂ SequenceChunk.ExtendedFrom grown this_chunks ∧
      calls.map SetCall.t = intRange 0 cfg.chunk_length ∧
      (∀ (c : Nat) (hc : c < grown.length) (i : Int),
        grown[c].context_begin ≤ i → i < grown[c].end_ →
        ∃ call, vecGet? calls (slotOffset grown c + (i - grown[c].context_begin)) = some call ∧
          call.weight = (if i < grown[c].begin then 0 else grown[c].weight) ∧
          vecGet? mb'.output_weights
            ((slotOffset grown c + (i - grown[c].context_begin)) * cfg.minibatch_size + n) =
            some call.weight) ∧
      (∀ p, totalLength grown ≤ p → p < cfg.chunk_length →
        ∃ call, vecGet? calls p = some call ∧ call.weight = 0 ∧
          vecGet? mb'.output_weights (p * cfg.minibatch_size + n) = some 0) := by
  obtain ⟨grown, calls, mb', g1, a1, h1, g2, gwf, g3, _, _, hb⟩ :=
    CreateMinibatchOneSequence_core cfg eg_chunks n mb this_chunks hsize hslot hwf hlen hmb
  obtain ⟨calls', a1', a2, a3, a4, a5⟩ := allCalls_spec cfg grown gwf g3
  obtain rfl : calls' = calls := Option.some.inj (a1'.symm.trans a1)
  refine ⟨grown, calls', mb', g1, a1, h1, g2, a3, ?_, ?_⟩
  · intro c hc i hi1 hi2
    obtain ⟨call, k1, k2⟩ := a4 c hc i hi1 hi2
    obtain ⟨hp0, hpl⟩ := vecGet?_lt_length k2
    obtain ⟨call', m1, _, _, _, m5⟩ :=
      hb (slotOffset grown c + (i - grown[c].context_begin)) hp0 (by omega)
    obtain rfl : call = call' := Option.some.inj (k2.symm.trans m1)
    exact ⟨call, k2, (chunkCallAt_sound cfg _ _ _ _ k1).2.2.1, m5⟩
  · intro p hp1 hp2
    have hT := totalLength_nonneg gwf
    obtain ⟨call', m1, _, _, _, m5⟩ := hb p (by omega) hp2
    have k := a5 p hp1 hp2
    obtain rfl : call' = _ := Option.some.inj (m1.symm.trans k)
    exact ⟨_, k, rfl, m5⟩

theorem CreateMinibatchOneSequence_weights_witness :
    ((([exampleSlot, []] : List (List SequenceChunk)).length : Int) =
        exampleConfig.minibatch_size ∧
      vecGet? [exampleSlot, []] 0 = some exampleSlot ∧
      (∀ c ∈ exampleSlot, c.WellFormed) ∧
      totalLength exampleSlot ≤ exampleConfig.chunk_length ∧
      exampleBatch.Shaped exampleConfig) ∧
    ∃ r, SingleMinibatchCreator.CreateMinibatchOneSequence exampleConfig [exampleSlot, []] 0
      exampleBatch = some r := by
  refine ⟨by decide, ?_⟩
  obtain ⟨grown, calls, mb', _, _, h, _⟩ :=
    CreateMinibatchOneSequence_weights exampleConfig [exampleSlot, []] 0 exampleBatch
      exampleSlot (by decide) (by decide) (by decide) (by decide) (by decide)
  exact ⟨_, h⟩

/-- **C2.** For a slot `n` (of `minibatch_size` slots) whose chunks are well formed and fit
into `chunk_length`, and a batch whose arrays have `chunk_length * minibatch_size` entries,
`CreateMinibatchOneSequence` returns and the words of its `Set` calls, which end up in the
batch at `t * minibatch_size + n`, follow the alignment rule.  At the timestep emitted for index `i` of
chunk number `c` (with `context_begin` as the growth step left it) the output word is
`sequence[i]`; the input word is `bos_symbol` if `i = context_begin = 0`, `brk_symbol` if
`i = context_begin > 0`, and `sequence[i - 1]` otherwise.  Every tail padding timestep carries
input `bos_symbol`, output `eos_symbol`.  Second part: with `chunk_length = 5`, one slot and
the tokens `[3, 4, 5]` (followed by `eos`), the batch gets inputs `[bos, 3, 4, 5, bos]`,
outputs `[3, 4, 5, eos, eos]` and weights `[w, w, w, w, 0]`. -/
theorem CreateMinibatchOneSequence_words :
    (∀ (cfg : RnnlmEgsConfig) (eg_chunks : List (List SequenceChunk)) (n : Int)
      (mb : RnnlmMinibatch) (this_chunks : List SequenceChunk),
      (eg_chunks.length : Int) = cfg.minibatch_size →
      vecGet? eg_chunks n = some this_chunks →
      (∀ c ∈ this_chunks, c.WellFormed) →
      totalLength this_chunks ≤ cfg.chunk_length →
      mb.Shaped cfg →
      ∃ grown calls mb',
        grownChunks cfg this_chunks = some grown ∧
        allCalls cfg grown = some calls ∧
        SingleMinibatchCreator.CreateMinibatchOneSequence cfg eg_chunks n mb =
          some (eg_chunks.set n.toNat grown, mb') ∧
        List.Forall₂ SequenceChunk.ExtendedFrom grown this_chunks ∧
        (∀ (c : Nat) (hc : c < grown.length) (i : Int),
          grown[c].context_begin ≤ i → i < grown[c].end_ →
          ∃ call,
            vecGet? calls (slotOffset grown c + (i - grown[c].context_begin)) = some call ∧
            vecGet? grown[c].sequence i = some call.output_word ∧
            (i = grown[c].context_begin → grown[c].context_begin = 0 →
              call.input_word = cfg.bos_symbol) ∧
            (i = grown[c].context_begin → 0 < grown[c].context_begin →
              call.input_word = cfg.brk_symbol) ∧
            (i ≠ grown[c].context_begin →
              vecGet? grown[c].sequence (i - 1) = some call.input_word) ∧
            vecGet? mb'.input_words
              ((slotOffset grown c + (i - grown[c].context_begin)) * cfg.minibatch_size + n) =
              some call.input_word ∧
            vecGet? mb'.output_words
              ((slotOffset grown c + (i - grown[c].context_begin)) * cfg.minibatch_size + n) =
              some call.output_word) ∧
        (∀ p, totalLength grown ≤ p → p < cfg.chunk_length →
          vecGet? calls p = some ⟨p, cfg.bos_symbol, cfg.eos_symbol, 0⟩ ∧
          vecGet? mb'.input_words (p * cfg.minibatch_size + n) = some cfg.bos_symbol ∧
          vecGet? mb'.output_words (p * cfg.minibatch_size + n) = some cfg.eos_symbol)) ∧
    (∀ (bos brk eos : Int) (w : ℚ), 0 < w →
      (SingleMinibatchCreator.CreateMinibatchOneSequence
        { chunk_length := 5, minibatch_size := 1, min_split_context := 0,
          sample_group_size := 5, num_samples := 0, chunk_buffer_size := 0, bos_symbol := bos,
          brk_symbol := brk, eos_symbol := eos, special_symbol_prob := 0,
          unigram_prob_mass := 0 }
        [[{ sequence := [3, 4, 5, eos], weight := w, begin := 0, end_ := 4,
            context_begin := 0 }]] 0
        { num_sequences := 1, chunk_length := 5, num_samples := 0, sample_group_size := 0,
          input_words := List.replicate 5 0, output_words := List.replicate 5 0,
          output_weights := List.replicate 5 0, sampled_words := [], sample_probs := [] }).map
        (fun r => (r.2.input_words, r.2.output_words, r.2.output_weights)) =
      some ([bos, 3, 4, 5, bos], [3, 4, 5, eos, eos], [w, w, w, w, 0])) := by
  constructor
  · intro cfg eg_chunks n mb this_chunks hsize hslot hwf hlen hmb
    obtain ⟨grown, calls, mb', g1, a1, h1, g2, gwf, g3, _, _, hb⟩ :=
      CreateMinibatchOneSequence_core cfg eg_chunks n mb this_chunks hsize hslot hwf hlen hmb
    obtain ⟨calls', a1', a2, a3, a4, a5⟩ := allCalls_spec cfg grown gwf g3
    obtain rfl : calls' = calls := Option.some.inj (a1'.symm.trans a1)
    refine ⟨grown, calls', mb', g1, a1, h1, g2, ?_, ?_⟩
    · intro c hc i hi1 hi2
      obtain ⟨call, k1, k2⟩ := a4 c hc i hi1 hi2
      obtain ⟨hp0, hpl⟩ := vecGet?_lt_length k2
      obtain ⟨call', m1, _, m3, m4, _⟩ :=
        hb (slotOffset grown c + (i - grown[c].context_begin)) hp0 (by omega)
      obtain rfl : call = call' := Option.some.inj (k2.symm.trans m1)
      obtain ⟨_, s2, _, s4, s5, s6⟩ := chunkCallAt_sound cfg _ _ _ _ k1
      exact ⟨call, k2, s2, s4, fun e h => s5 e (ne_of_gt h), s6, m3, m4⟩
    · intro p hp1 hp2
      have hT := totalLength_nonneg gwf
      obtain ⟨call', m1, _, m3, m4, _⟩ := hb p (by omega) hp2
      have k := a5 p hp1 hp2
      obtain rfl : call' = _ := Option.some.inj (m1.symm.trans k)
      exact ⟨k, m3, m4⟩
  · intro bos brk eos w hw
    have e1 : intRange 0 4 = [0, 1, 2, 3] := by decide
    have e2 : intRange 4 5 = [4] := by decide
    have hw' : 0 ≤ w := hw.le
    simp [SingleMinibatchCreator.CreateMinibatchOneSequence, vecGet?, grownChunks, totalLength,
      SequenceChunk.Length, growLoop, growRound, allCalls, slotCalls, e1, e2, chunkCalls,
      chunkCallAt, paddingCalls, runCalls, SingleMinibatchCreator.Set, vecSet?, hw',
      List.replicate]

theorem CreateMinibatchOneSequence_words_witness :
    ((([[], exampleSlot] : List (List SequenceChunk)).length : Int) =
        exampleConfig.minibatch_size ∧
      vecGet? [[], exampleSlot] 1 = some exampleSlot ∧
      (∀ c ∈ exampleSlot, c.WellFormed) ∧
      totalLength exampleSlot ≤ exampleConfig.chunk_length ∧
      exampleBatch.Shaped exampleConfig) ∧
    (∃ r, SingleMinibatchCreator.CreateMinibatchOneSequence exampleConfig [[], exampleSlot] 1
      exampleBatch = some r) ∧
    (0 : ℚ) < 7 ∧
    (SingleMinibatchCreator.CreateMinibatchOneSequence
        { chunk_length := 5, minibatch_size := 1, min_split_context := 0,
          sample_group_size := 5, num_samples := 0, chunk_buffer_size := 0, bos_symbol := 1,
          brk_symbol := 2, eos_symbol := 9, special_symbol_prob := 0,
          unigram_prob_mass := 0 }
        [[{ sequence := [3, 4, 5, 9], weight := 7, begin := 0, end_ := 4,
            context_begin := 0 }]] 0
        { num_sequences := 1, chunk_length := 5, num_samples := 0, sample_group_size := 0,
          input_words := List.replicate 5 0, output_words := List.replicate 5 0,
          output_weights := List.replicate 5 0, sampled_words := [], sample_probs := [] }).map
        (fun r => (r.2.input_words, r.2.output_words, r.2.output_weights)) =
      some ([1, 3, 4, 5, 1], [3, 4, 5, 9, 9], [7, 7, 7, 7, 0]) := by
  refine ⟨by decide, ?_, by decide, CreateMinibatchOneSequence_words.2 1 2 9 7 (by decide)⟩
  obtain ⟨grown, calls, mb', _, _, h, _⟩ :=
    CreateMinibatchOneSequence_words.1 exampleConfig [[], exampleSlot] 1 exampleBatch
      exampleSlot (by decide) (by decide) (by decide) (by decide) (by decide)
  exact ⟨_, h⟩

/-! ## Splitting a sequence into chunks -/

/-- The full-size pieces pushed by the first loop of `ChooseChunkLengths`. -/
theorem fullPieces_eq (q c : Int) :
    (intRange 0 q).map (fun _ => c) = List.replicate q.toNat c := by
  rw [List.map_const', intRange_length]
  simp

/-- Replacing one of `m` equal pieces `c` by `r` and appending another `c`: all pieces are `c`
or `r`, and they sum to `m * c + r`. -/
theorem replicate_set_append (m : Nat) (c r : Int) (k : Nat) (hk : k < m) :
    (∀ x ∈ (List.replicate m c).set k r ++ [c], x = c ∨ x = r) ∧
    ((List.replicate m c).set k r ++ [c]).sum = (m : Int) * c + r := by
  constructor
  · intro x hx
    rcases List.mem_append.mp hx with h | h
    · rcases List.mem_or_eq_of_mem_set h with h | h
      · exact Or.inl (List.eq_of_mem_replicate h)
      · exact Or.inr h
    · exact Or.inl (by simpa using h)
  · rw [List.sum_append, List.sum_set']
    simp only [List.length_replicate, hk, dite_true, List.getElem_replicate, List.sum_replicate,
      List.sum_cons, List.sum_nil, smul_eq_mul, nsmul_eq_mul]
    ring

/-- With `min_split_context < chunk_length < sequence_length`, and whatever index the
random source returns within its range, `ChooseChunkLengths` returns (no assertion fails) a
first piece in `(min_split_context, chunk_length]` and further pieces in
`(0, chunk_length - min_split_context]`, summing to `sequence_length`. -/
theorem ChooseChunkLengths_spec (cfg : RnnlmEgsConfig) (RandInt : Int → Int → Int)
    (hR : ∀ lo hi, lo ≤ hi → lo ≤ RandInt lo hi ∧ RandInt lo hi ≤ hi)
    (sequence_length : Int) (h1 : cfg.min_split_context < cfg.chunk_length)
    (h2 : cfg.chunk_length < sequence_length) :
    ∃ first rest,
      RnnlmMinibatchCreator.ChooseChunkLengths cfg RandInt sequence_length =
        some (first :: rest) ∧
      cfg.min_split_context < first ∧ first ≤ cfg.chunk_length ∧
      (∀ x ∈ rest, 0 < x ∧ x ≤ cfg.chunk_length - cfg.min_split_context) ∧
      (first :: rest).sum = sequence_length := by
  obtain ⟨c, hc⟩ : ∃ c, c = cfg.chunk_length - cfg.min_split_context := ⟨_, rfl⟩
  obtain ⟨tot, htot⟩ : ∃ tot, tot = sequence_length - cfg.min_split_context := ⟨_, rfl⟩
  have hcpos : 0 < c := by omega
  have htc : c < tot := by omega
  have hdiv : Int.tdiv tot c = tot / c := Int.tdiv_eq_ediv (by omega) (by omega)
  have hmod : Int.tmod tot c = tot % c := Int.tmod_eq_emod (by omega) (by omega)
  have hq1 : 1 ≤ tot / c := by
    have := Int.ediv_le_ediv hcpos htc.le
    rwa [Int.ediv_self (by omega)] at this
  have hr0 : 0 ≤ tot % c := Int.emod_nonneg _ (by omega)
  have hrc : tot % c < c := Int.emod_lt_of_pos _ hcpos
  have hsum : c * (tot / c) + tot % c = tot := Int.ediv_add_emod tot c
  obtain ⟨m, hm⟩ : ∃ m : Nat, (tot / c).toNat = m + 1 := ⟨(tot / c).toNat - 1, by omega⟩
  have hmq : ((m : Int) + 1) = tot / c := by omega
  -- the pieces before the first one is enlarged
  have key : ∃ f rest,
      (let full : List Int := (intRange 0 (Int.tdiv tot c)).map (fun _ => c)
       if Int.tmod tot c ≠ 0 then
         (vecSet? full (RandInt 0 ((full.length : Int) - 1)) (Int.tmod tot c)).map
           (fun l => l ++ [c])
       else some full) = some (f :: rest) ∧
      (0 < f ∧ f ≤ c) ∧ (∀ x ∈ rest, 0 < x ∧ x ≤ c) ∧ (f :: rest).sum = tot := by
    dsimp only
    rw [fullPieces_eq, hdiv, hmod, hm]
    by_cases hr : tot % c = 0
    · rw [if_neg (by simpa using hr)]
      refine ⟨c, List.replicate m c, by simp [List.replicate_succ], ⟨hcpos, le_refl _⟩, ?_, ?_⟩
      · intro x hx
        rw [List.eq_of_mem_replicate hx]
        exact ⟨hcpos, le_refl _⟩
      · rw [List.sum_cons, List.sum_replicate, nsmul_eq_mul]
        have : c * (tot / c) = tot := by omega
        rw [← hmq] at this
        linarith
    · rw [if_pos hr]
      obtain ⟨k1, k2⟩ := hR 0 (((List.replicate (m + 1) c).length : Int) - 1)
        (by simp)
      rw [List.length_replicate] at k1 k2
      obtain ⟨k, hk⟩ : ∃ k, k = RandInt 0 (((m + 1 : Nat) : Int) - 1) := ⟨_, rfl⟩
      rw [List.length_replicate, ← hk]
      rw [← hk] at k1 k2
      have hkm : k.toNat < m + 1 := by omega
      have hset : vecSet? (List.replicate (m + 1) c) k (tot % c) =
          some ((List.replicate (m + 1) c).set k.toNat (tot % c)) := by
        unfold vecSet?
        rw [if_pos ⟨k1, by rw [List.length_replicate]; omega⟩]
      rw [hset]
      obtain ⟨p1, p2⟩ := replicate_set_append (m + 1) c (tot % c) k.toNat hkm
      cases hl : (List.replicate (m + 1) c).set k.toNat (tot % c) ++ [c] with
      | nil => simp at hl
      | cons f rest =>
        rw [hl] at p1 p2
        have hall : ∀ x ∈ f :: rest, 0 < x ∧ x ≤ c := by
          intro x hx
          rcases p1 x hx with h | h
          · rw [h]; exact ⟨hcpos, le_refl _⟩
          · rw [h]; exact ⟨by omega, by omega⟩
        refine ⟨f, rest, by rw [Option.map_some', hl], hall f (List.mem_cons_self _ _),
          fun x hx => hall x (List.mem_cons_of_mem _ hx), ?_⟩
        rw [p2]
        have : ((m + 1 : Nat) : Int) = tot / c := by push_cast; omega
        rw [this]
        linarith
  obtain ⟨f, rest, e, ⟨f1, f2⟩, hrest, hs⟩ := key
  have hfull : (intRange 0 (Int.tdiv tot c)).map (fun _ => c) ≠ [] := by
    rw [fullPieces_eq, hdiv, hm]
    simp [List.replicate_succ]
  refine ⟨f + cfg.min_split_context, rest, ?_, by omega, by omega, ?_, ?_⟩
  · unfold RnnlmMinibatchCreator.ChooseChunkLengths
    rw [if_pos h2]
    simp only [← hc, ← htot]
    rw [if_pos hcpos, if_neg hfull]
    dsimp only at e
    simp only [e]
    rw [if_pos]
    rw [List.sum_cons] at hs ⊢
    omega
  · intro x hx
    have := hrest x hx
    omega
  · rw [List.sum_cons] at hs ⊢
    omega

/-- The chunks built by the loop of `SplitSequenceIntoChunks`: their predicted spans have the
piece lengths, start at `cur_start`, follow one another without gap, and end at
`cur_start + sum of the pieces`. -/
theorem splitLoop_tiles (cfg : RnnlmEgsConfig) (ptr : List Int) (weight : ℚ)
    (lens : List Int) (cur_start : Int) :
    (splitLoop cfg ptr weight lens cur_start).map (fun c => c.end_ - c.begin) = lens ∧
    (∀ c, (splitLoop cfg ptr weight lens cur_start).head? = some c → c.begin = cur_start) ∧
    List.Chain' (fun a b => b.begin = a.end_) (splitLoop cfg ptr weight lens cur_start) ∧
    (∀ c, (splitLoop cfg ptr weight lens cur_start).getLast? = some c →
      c.end_ = cur_start + lens.sum) := by
  induction lens generalizing cur_start with
  | nil => simp [splitLoop]
  | cons len rest ih =>
    obtain ⟨i1, i2, i3, i4⟩ := ih (cur_start + len)
    unfold splitLoop
    dsimp only
    refine ⟨?_, ?_, ?_, ?_⟩
    · rw [List.map_cons, i1]
      simp [SequenceChunk.create]
    · intro c hc
      simp only [List.head?_cons, Option.some.injEq] at hc
      rw [← hc]; rfl
    · rw [List.chain'_cons']
      refine ⟨?_, i3⟩
      intro y hy
      exact i2 y hy
    · intro c hc
      cases hrest : splitLoop cfg ptr weight rest (cur_start + len) with
      | nil =>
        cases rest with
        | nil =>
          rw [hrest] at hc
          simp only [List.getLast?_singleton, Option.some.injEq] at hc
          rw [← hc]; simp [SequenceChunk.create]
        | cons a as => simp [splitLoop] at hrest
      | cons x xs =>
        rw [hrest, List.getLast?_cons_cons] at hc
        rw [hrest] at i4
        rw [i4 c hc, List.sum_cons]
        ring

/-- The chunks built by the loop from pieces of size at most
`chunk_length - min_split_context`, starting after the first piece: each carries its split
context, fits into `chunk_length`, and has a positive `context_begin`. -/
theorem splitLoop_later (cfg : RnnlmEgsConfig) (ptr : List Int) (weight : ℚ)
    (lens : List Int) (cur_start : Int)
    (hlens : ∀ x ∈ lens, 0 < x ∧ x ≤ cfg.chunk_length - cfg.min_split_context)
    (hstart : cfg.min_split_context < cur_start) :
    ∀ c ∈ splitLoop cfg ptr weight lens cur_start,
      0 < c.context_begin ∧ c.context_begin = c.begin - cfg.min_split_context ∧
      c.Length ≤ cfg.chunk_length ∧
      c.end_ - c.begin ≤ cfg.chunk_length - cfg.min_split_context := by
  induction lens generalizing cur_start with
  | nil => intro c hc; simp [splitLoop] at hc
  | cons len rest ih =>
    obtain ⟨l1, l2⟩ := hlens len (List.mem_cons_self _ _)
    intro c hc
    unfold splitLoop at hc
    rcases List.mem_cons.mp hc with rfl | hmem
    · simp only [SequenceChunk.create, SequenceChunk.Length]
      have : max 0 (cur_start - cfg.min_split_context) = cur_start - cfg.min_split_context :=
        max_eq_right (by omega)
      rw [this]
      omega
    · exact ih (cur_start + len) (fun x hx => hlens x (List.mem_cons_of_mem _ hx)) (by omega)
        c hmem

theorem newChunks_split (cfg : RnnlmEgsConfig) (RandInt : Int → Int → Int) (weight : ℚ)
    (words : List Int) (lens : List Int) (hlong : cfg.chunk_length < (words.length : Int) + 1)
    (hl : RnnlmMinibatchCreator.ChooseChunkLengths cfg RandInt ((words.length : Int) + 1) =
      some lens) :
    newChunks cfg RandInt weight words =
      some (splitLoop cfg (words ++ [cfg.eos_symbol]) weight lens 0) := by
  unfold newChunks
  simp only [List.length_append, List.length_singleton, Nat.cast_add, Nat.cast_one]
  rw [if_neg (by omega), hl]

/-- **C3.** For a token list of length `L` with `L + 1 > chunk_length`,
`0 ≤ min_split_context < chunk_length`, and a random source that returns some index within
the range it is asked for, `ChooseChunkLengths` returns (its assertions hold) positive piece
lengths that sum to `L + 1`, and `SplitSequenceIntoChunks` appends to the pool chunks whose
predicted spans `[begin, end)` have these lengths and tile `[0, L + 1)` in order: the first
begins at `0`, each next one begins where the previous one ends, the last ends at `L + 1`.
Second part: sequence length 12, `chunk_length = 5`, `min_split_context = 1` gives the pieces
`[4, 4, 4]` or `[5, 3, 4]`. -/
theorem SplitSequenceIntoChunks_tiles :
    (∀ (cfg : RnnlmEgsConfig) (RandInt : Int → Int → Int) (chunks_ : List SequenceChunk)
      (weight : ℚ) (words : List Int),
      (∀ lo hi, lo ≤ hi → lo ≤ RandInt lo hi ∧ RandInt lo hi ≤ hi) →
      0 ≤ cfg.min_split_context → cfg.min_split_context < cfg.chunk_length →
      cfg.chunk_length < (words.length : Int) + 1 →
      ∃ lens new,
        RnnlmMinibatchCreator.ChooseChunkLengths cfg RandInt ((words.length : Int) + 1) =
          some lens ∧
        (∀ x ∈ lens, 0 < x) ∧ lens.sum = (words.length : Int) + 1 ∧
        RnnlmMinibatchCreator.SplitSequenceIntoChunks cfg RandInt chunks_ weight words =
          some (chunks_ ++ new) ∧
        new.map (fun c => c.end_ - c.begin) = lens ∧
        (∃ c, new.head? = some c ∧ c.begin = 0) ∧
        List.Chain' (fun a b => b.begin = a.end_) new ∧
        (∃ c, new.getLast? = some c ∧ c.end_ = (words.length : Int) + 1)) ∧
    (∀ (cfg : RnnlmEgsConfig) (RandInt : Int → Int → Int),
      (∀ lo hi, lo ≤ hi → lo ≤ RandInt lo hi ∧ RandInt lo hi ≤ hi) →
      cfg.chunk_length = 5 → cfg.min_split_context = 1 →
      RnnlmMinibatchCreator.ChooseChunkLengths cfg RandInt 12 = some [4, 4, 4] ∨
      RnnlmMinibatchCreator.ChooseChunkLengths cfg RandInt 12 = some [5, 3, 4]) := by
  constructor
  · intro cfg RandInt chunks_ weight words hR h0 h1 h2
    obtain ⟨first, rest, e, f1, f2, hrest, hsum⟩ :=
      ChooseChunkLengths_spec cfg RandInt hR ((words.length : Int) + 1) h1 h2
    obtain ⟨t1, t2, t3, t4⟩ :=
      splitLoop_tiles cfg (words ++ [cfg.eos_symbol]) weight (first :: rest) 0
    have hnew := newChunks_split cfg RandInt weight words _ h2 e
    refine ⟨first :: rest, splitLoop cfg (words ++ [cfg.eos_symbol]) weight (first :: rest) 0,
      e, ?_, hsum, ?_, t1, ?_, t3, ?_⟩
    · intro x hx
      rcases List.mem_cons.mp hx with rfl | hmem
      · omega
      · exact (hrest x hmem).1
    · simp only [RnnlmMinibatchCreator.SplitSequenceIntoChunks, hnew]
    · exact ⟨_, rfl, rfl⟩
    · cases hl : (splitLoop cfg (words ++ [cfg.eos_symbol]) weight (first :: rest) 0).getLast?
        with
      | none => simp [splitLoop] at hl
      | some c =>
        refine ⟨c, rfl, ?_⟩
        rw [t4 c hl, hsum]
        ring
  · intro cfg RandInt hR hcl hmsc
    have hk := hR 0 1 (by decide)
    have e1 : Int.tdiv 11 4 = 2 := by decide
    have e2 : Int.tmod 11 4 = 3 := by decide
    have e3 : intRange 0 2 = [0, 1] := by decide
    have hcases : RandInt 0 1 = 0 ∨ RandInt 0 1 = 1 := by omega
    rcases hcases with h | h
    · left
      simp [RnnlmMinibatchCreator.ChooseChunkLengths, hcl, hmsc, e1, e2, e3, h, vecSet?]
    · right
      simp [RnnlmMinibatchCreator.ChooseChunkLengths, hcl, hmsc, e1, e2, e3, h, vecSet?]

theorem SplitSequenceIntoChunks_tiles_witness :
    ((∀ lo hi : Int, lo ≤ hi → lo ≤ (fun (_ b : Int) => b) lo hi ∧
        (fun (_ b : Int) => b) lo hi ≤ hi) ∧
      0 ≤ exampleConfig.min_split_context ∧
      exampleConfig.min_split_context < exampleConfig.chunk_length ∧
      exampleConfig.chunk_length <
        (([11, 12, 13, 14, 15, 16, 17, 18, 19, 20] : List Int).length : Int) + 1) ∧
    RnnlmMinibatchCreator.ChooseChunkLengths exampleConfig (fun _ b => b) 11 = some [4, 7] ∧
    ∃ r, RnnlmMinibatchCreator.SplitSequenceIntoChunks exampleConfig (fun _ b => b) [] 3
      [11, 12, 13, 14, 15, 16, 17, 18, 19, 20] = some r := by
  have hR : ∀ lo hi : Int, lo ≤ hi → lo ≤ (fun (_ b : Int) => b) lo hi ∧
      (fun (_ b : Int) => b) lo hi ≤ hi := fun lo hi h => ⟨h, le_refl _⟩
  refine ⟨⟨hR, by decide, by decide, by decide⟩, by decide, ?_⟩
  obtain ⟨lens, new, _, _, _, h, _⟩ :=
    SplitSequenceIntoChunks_tiles.1 exampleConfig (fun _ b => b) [] 3
      [11, 12, 13, 14, 15, 16, 17, 18, 19, 20] hR (by decide) (by decide) (by decide)
  exact ⟨_, h⟩

/-- **C4.** With `0 ≤ min_split_context < chunk_length`, `SplitSequenceIntoChunks` returns for
every token list, and every chunk it creates has `Length() = end - context_begin` at most
`chunk_length`: the first piece is at most `chunk_length` and every later piece is at most
`chunk_length - min_split_context` and carries `min_split_context` positions of context.
Exactly one of the created chunks, the first, has `context_begin = 0`; every later one has a
positive `context_begin`. -/
theorem SplitSequenceIntoChunks_lengths (cfg : RnnlmEgsConfig) (RandInt : Int → Int → Int)
    (chunks_ : List SequenceChunk) (weight : ℚ) (words : List Int)
    (hR : ∀ lo hi, lo ≤ hi → lo ≤ RandInt lo hi ∧ RandInt lo hi ≤ hi)
    (h0 : 0 ≤ cfg.min_split_context) (h1 : cfg.min_split_context < cfg.chunk_length) :
    ∃ first rest,
      newChunks cfg RandInt weight words = some (first :: rest) ∧
      RnnlmMinibatchCreator.SplitSequenceIntoChunks cfg RandInt chunks_ weight words =
        some (chunks_ ++ first :: rest) ∧
      (∀ c ∈ first :: rest, c.Length = c.end_ - c.context_begin ∧
        c.Length ≤ cfg.chunk_length) ∧
      first.context_begin = 0 ∧ first.end_ - first.begin ≤ cfg.chunk_length ∧
      (∀ c ∈ rest, 0 < c.context_begin ∧
        c.context_begin = c.begin - cfg.min_split_context ∧
        c.end_ - c.begin ≤ cfg.chunk_length - cfg.min_split_context) := by
  have hcb0 : max 0 (0 - cfg.min_split_context) = 0 := max_eq_left (by omega)
  by_cases hlong : cfg.chunk_length < (words.length : Int) + 1
  · obtain ⟨f, r, e, f1, f2, hrest, hsum⟩ :=
      ChooseChunkLengths_spec cfg RandInt hR ((words.length : Int) + 1) h1 hlong
    have hnew := newChunks_split cfg RandInt weight words _ hlong e
    have hlater := splitLoop_later cfg (words ++ [cfg.eos_symbol]) weight r (0 + f) hrest
      (by omega)
    unfold splitLoop at hnew
    dsimp only at hnew
    refine ⟨_, _, hnew, ?_, ?_, ?_, ?_, ?_⟩
    · simp only [RnnlmMinibatchCreator.SplitSequenceIntoChunks, hnew]
    · intro c hc
      refine ⟨rfl, ?_⟩
      rcases List.mem_cons.mp hc with rfl | hmem
      · simp only [SequenceChunk.create, SequenceChunk.Length, hcb0]
        omega
      · exact (hlater c hmem).2.2.1
    · simp only [SequenceChunk.create, hcb0]
    · simp only [SequenceChunk.create]
      omega
    · intro c hc
      obtain ⟨a1, a2, _, a4⟩ := hlater c hc
      exact ⟨a1, a2, a4⟩
  · have hnew : newChunks cfg RandInt weight words =
        some [SequenceChunk.create cfg (words ++ [cfg.eos_symbol]) weight 0
          ((words.length : Int) + 1)] := by
      unfold newChunks
      simp only [List.length_append, List.length_singleton, Nat.cast_add, Nat.cast_one]
      rw [if_pos (by omega)]
    refine ⟨_, _, hnew, ?_, ?_, ?_, ?_, ?_⟩
    · simp only [RnnlmMinibatchCreator.SplitSequenceIntoChunks, hnew]
    · intro c hc
      refine ⟨rfl, ?_⟩
      rw [List.mem_singleton] at hc
      subst hc
      simp only [SequenceChunk.create, SequenceChunk.Length, hcb0]
      omega
    · simp only [SequenceChunk.create, hcb0]
    · simp only [SequenceChunk.create]
      omega
    · intro c hc
      simp at hc

theorem SplitSequenceIntoChunks_lengths_witness :
    ((∀ lo hi : Int, lo ≤ hi → lo ≤ (fun (a _ : Int) => a) lo hi ∧
        (fun (a _ : Int) => a) lo hi ≤ hi) ∧
      0 ≤ exampleConfig.min_split_context ∧
      exampleConfig.min_split_context < exampleConfig.chunk_length) ∧
    (newChunks exampleConfig (fun a _ => a) 3
      [11, 12, 13, 14, 15, 16, 17, 18, 19, 20]).map
        (fun l => l.map (fun c => (c.context_begin, c.begin, c.end_))) =
      some [(0, 0, 4), (3, 4, 11)] ∧
    ∃ r, RnnlmMinibatchCreator.SplitSequenceIntoChunks exampleConfig (fun a _ => a) [] 3
      [11, 12, 13, 14, 15, 16, 17, 18, 19, 20] = some r := by
  have hR : ∀ lo hi : Int, lo ≤ hi → lo ≤ (fun (a _ : Int) => a) lo hi ∧
      (fun (a _ : Int) => a) lo hi ≤ hi := fun lo hi h => ⟨le_refl _, h⟩
  refine ⟨⟨hR, by decide, by decide⟩, by decide, ?_⟩
  obtain ⟨first, rest, _, h, _⟩ :=
    SplitSequenceIntoChunks_lengths exampleConfig (fun a _ => a) [] 3
      [11, 12, 13, 14, 15, 16, 17, 18, 19, 20] hR (by decide) (by decide)
  exact ⟨_, h⟩

/-- **C5.** For a token list of length `L` with `L + 1 ≤ chunk_length` (and a non-negative
`min_split_context`), `SplitSequenceIntoChunks` adds exactly one chunk at the end of the pool
and leaves the chunks already there unchanged; the chunk has `context_begin = 0`, `begin = 0`,
`end = L + 1`, the given weight, and as token buffer the tokens followed by `eos_symbol`. -/
theorem SplitSequenceIntoChunks_single (cfg : RnnlmEgsConfig) (RandInt : Int → Int → Int)
    (chunks_ : List SequenceChunk) (weight : ℚ) (words : List Int)
    (h0 : 0 ≤ cfg.min_split_context)
    (hshort : (words.length : Int) + 1 ≤ cfg.chunk_length) :
    RnnlmMinibatchCreator.SplitSequenceIntoChunks cfg RandInt chunks_ weight words =
      some (chunks_ ++
        [{ sequence := words ++ [cfg.eos_symbol], weight := weight, begin := 0,
           end_ := (words.length : Int) + 1, context_begin := 0 }]) := by
  have hcb0 : max 0 (0 - cfg.min_split_context) = 0 := max_eq_left (by omega)
  unfold RnnlmMinibatchCreator.SplitSequenceIntoChunks newChunks
  simp only [List.length_append, List.length_singleton, Nat.cast_add, Nat.cast_one]
  rw [if_pos hshort]
  simp only [SequenceChunk.create, hcb0]

theorem SplitSequenceIntoChunks_single_witness :
    (0 ≤ exampleConfig.min_split_context ∧
      ((([3, 4, 5] : List Int).length : Int) + 1 ≤ exampleConfig.chunk_length)) ∧
    RnnlmMinibatchCreator.SplitSequenceIntoChunks exampleConfig (fun a _ => a) exampleSlot 7
      [3, 4, 5] =
      some (exampleSlot ++
        [{ sequence := [3, 4, 5] ++ [exampleConfig.eos_symbol], weight := 7, begin := 0,
           end_ := (([3, 4, 5] : List Int).length : Int) + 1, context_begin := 0 }]) :=
  ⟨by decide, SplitSequenceIntoChunks_single exampleConfig (fun a _ => a) exampleSlot 7
    [3, 4, 5] (by decide) (by decide)⟩

/-! ## The search loop and the list operations of `AcceptChunk` -/

/-- The search loop either leaves the state as it was, and then no remaining entry both fits
and is below the current best; or it ends at an entry `k` that fits, is below the starting
best, and is no larger than any remaining entry that fits. -/
theorem bestFitLoop_spec (chunk_len : Int) (rest : List (Int × Int)) (i : Int)
    (best : Int × Int × Int) :
    (bestFitLoop chunk_len rest i best = best ∧
      ∀ p ∈ rest, ¬ (chunk_len ≤ p.2 ∧ p.2 < best.2.2)) ∨
    (∃ k : Nat, k < rest.length ∧ (bestFitLoop chunk_len rest i best).1 = i + k ∧
      rest[k]? = some ((bestFitLoop chunk_len rest i best).2.1,
        (bestFitLoop chunk_len rest i best).2.2) ∧
      chunk_len ≤ (bestFitLoop chunk_len rest i best).2.2 ∧
      (bestFitLoop chunk_len rest i best).2.2 < best.2.2 ∧
      ∀ p ∈ rest, chunk_len ≤ p.2 → (bestFitLoop chunk_len rest i best).2.2 ≤ p.2) := by
  induction rest generalizing i best with
  | nil => left; exact ⟨rfl, fun p hp => by simp at hp⟩
  | cons p rest ih =>
    unfold bestFitLoop
    dsimp only
    by_cases hcond : p.2 ≥ chunk_len ∧ p.2 < best.2.2
    · rw [if_pos hcond]
      right
      rcases ih (i + 1) (i, p.1, p.2) with ⟨e, hno⟩ | ⟨k, hk, e1, e2, e3, e4, e5⟩
      · refine ⟨0, by simp, ?_, ?_, ?_, ?_, ?_⟩
        · rw [e]; simp
        · rw [e]; simp
        · rw [e]; exact hcond.1
        · rw [e]; exact hcond.2
        · rw [e]
          intro q hq hfit
          rcases List.mem_cons.mp hq with rfl | hmem
          · exact le_refl _
          · have := hno q hmem
            simp only [not_and, not_lt] at this
            exact this hfit
      · refine ⟨k + 1, by simpa using hk, ?_, ?_, e3, ?_, ?_⟩
        · rw [e1]; push_cast; ring
        · simpa using e2
        · exact lt_trans e4 hcond.2
        · intro q hq hfit
          rcases List.mem_cons.mp hq with rfl | hmem
          · exact le_of_lt e4
          · exact e5 q hmem hfit
    · rw [if_neg hcond]
      rcases ih (i + 1) best with ⟨e, hno⟩ | ⟨k, hk, e1, e2, e3, e4, e5⟩
      · left
        refine ⟨e, ?_⟩
        intro q hq
        rcases List.mem_cons.mp hq with rfl | hmem
        · exact hcond
        · exact hno q hmem
      · right
        refine ⟨k + 1, by simpa using hk, ?_, ?_, e3, e4, ?_⟩
        · rw [e1]; push_cast; ring
        · simpa using e2
        · intro q hq hfit
          rcases List.mem_cons.mp hq with rfl | hmem
          · simp only [ge_iff_le, not_and, not_lt] at hcond
            exact le_trans (le_of_lt e4) (hcond hfit)
          · exact e5 q hmem hfit

theorem set_perm_cons_eraseIdx {α : Type} (l : List α) (k : Nat) (x : α) (hk : k < l.length) :
    (l.set k x).Perm (x :: l.eraseIdx k) := by
  induction l generalizing k with
  | nil => simp at hk
  | cons y t ih =>
    cases k with
    | zero => simp
    | succ k =>
      simp only [List.set_cons_succ, List.eraseIdx_cons_succ]
      exact ((ih k (by simpa using hk)).cons y).trans (List.Perm.swap x y _)

/-- Removing entry `i` of a vector by overwriting it with the last entry and dropping the last
entry leaves, up to order, the other entries. -/
theorem swapRemove_spec {α : Type} (v : List α) (i : Int) (hi : 0 ≤ i)
    (hlt : i.toNat < v.length) :
    ∃ l', swapRemove v i = some l' ∧ l'.Perm (v.eraseIdx i.toNat) := by
  have hne : v ≠ [] := by intro h; simp [h] at hlt
  obtain ⟨init, last, rfl⟩ : ∃ init last, v = init ++ [last] :=
    ⟨v.dropLast, v.getLast hne, (List.dropLast_append_getLast hne).symm⟩
  have hrun : swapRemove (init ++ [last]) i =
      some ((init ++ [last]).set i.toNat last).dropLast := by
    unfold swapRemove
    rw [List.getLast?_concat]
    dsimp only
    unfold vecSet?
    rw [if_pos ⟨hi, by omega⟩]
    rfl
  refine ⟨_, hrun, ?_⟩
  simp only [List.length_append, List.length_singleton] at hlt
  by_cases hlast : i.toNat = init.length
  · rw [hlast, List.set_append_right _ _ (le_refl _), List.eraseIdx_append_of_length_le (le_refl _)]
    simp
  · have hk : i.toNat < init.length := by omega
    rw [List.set_append_left _ _ hk, List.dropLast_concat,
      List.eraseIdx_append_of_lt_length hk]
    exact (set_perm_cons_eraseIdx _ _ _ hk).trans (List.perm_append_singleton _ _).symm

/-! ## The invariant of the packer -/

theorem totalLength_append (a b : List SequenceChunk) :
    totalLength (a ++ b) = totalLength a + totalLength b := by
  simp [totalLength]

theorem totalLength_concat (l : List SequenceChunk) (c : SequenceChunk) :
    totalLength (l ++ [c]) = totalLength l + c.Length := by
  simp [totalLength]

theorem mem_of_vecGet? {α : Type} {v : List α} {i : Int} {x : α} (h : vecGet? v i = some x) :
    x ∈ v := by
  unfold vecGet? at h
  split at h
  · obtain ⟨hlt, hget⟩ := List.getElem?_eq_some.mp h
    rw [← hget]
    exact List.getElem_mem _
  · cases h

theorem totalLength_pos_of_ne_nil {l : List SequenceChunk} (h : ∀ c ∈ l, 1 ≤ c.Length)
    (hne : l ≠ []) : 1 ≤ totalLength l := by
  cases l with
  | nil => exact absurd rfl hne
  | cons c t =>
    rw [totalLength_cons]
    have h1 := h c (List.mem_cons_self _ _)
    have h2 : 0 ≤ totalLength t := by
      clear hne
      induction t with
      | nil => simp [totalLength]
      | cons d t ih =>
        rw [totalLength_cons]
        have := h d (List.mem_cons_of_mem _ (List.mem_cons_self _ _))
        have := ih (fun x hx => by
          rcases List.mem_cons.mp hx with rfl | hm
          · exact h _ (List.mem_cons_self _ _)
          · exact h x (List.mem_cons_of_mem _ (List.mem_cons_of_mem _ hm)))
        omega
    omega

/-- The state after the constructor satisfies the invariant. -/
theorem PackerInvariant.construct (cfg : RnnlmEgsConfig) (s : SingleMinibatchCreator)
    (hcl : 0 ≤ cfg.chunk_length)
    (h : SingleMinibatchCreator.construct cfg = some s) : PackerInvariant cfg s := by
  unfold SingleMinibatchCreator.construct at h
  split at h
  · rename_i h0
    cases h
    refine ⟨?_, ?_, ?_, ?_, ?_, ?_, ?_⟩
    · simp only [List.length_replicate]; omega
    · intro l hl c hc
      rw [List.eq_of_mem_replicate hl] at hc
      simp at hc
    · intro l hl
      rw [List.eq_of_mem_replicate hl]
      simpa [totalLength] using hcl
    · unfold intRange
      refine List.Nodup.map ?_ (List.nodup_range _)
      intro a b hab
      simpa using hab
    · intro j
      rw [mem_intRange]
      unfold vecGet?
      constructor
      · rintro ⟨h1, h2⟩
        rw [if_pos h1, List.getElem?_replicate, if_pos (by omega)]
      · intro hj
        split at hj
        · rename_i hj0
          have := (List.getElem?_eq_some.mp hj).1
          simp only [List.length_replicate] at this
          omega
        · cases hj
    · simp
    · intro j sp
      simp only [List.not_mem_nil, false_iff, not_exists, not_and]
      intro l hl hne
      exact absurd (List.eq_of_mem_replicate (mem_of_vecGet? hl)) hne
  · cases h

/-- Placing a chunk that fits into slot `j`, taking `j` out of the list it was in and listing
it with its new space, if any is left, keeps the invariant. -/
theorem PackerInvariant.place (cfg : RnnlmEgsConfig) (s : SingleMinibatchCreator)
    (inv : PackerInvariant cfg s) (j : Int) (l : List SequenceChunk) (chunk : SequenceChunk)
    (empty' : List Int) (P : List (Int × Int))
    (hslot : vecGet? s.eg_chunks_ j = some l)
    (h1 : 1 ≤ chunk.Length) (hfit : chunk.Length ≤ freeCapacity cfg l)
    (he1 : empty'.Nodup) (he2 : ∀ x, x ∈ empty' ↔ x ∈ s.empty_eg_chunks_ ∧ x ≠ j)
    (hp1 : (P.map Prod.fst).Nodup)
    (hp2 : ∀ x, x ∈ P ↔ x ∈ s.partial_eg_chunks_ ∧ x.1 ≠ j) :
    PackerInvariant cfg
      { eg_chunks_ := s.eg_chunks_.set j.toNat (l ++ [chunk]),
        empty_eg_chunks_ := empty',
        partial_eg_chunks_ :=
          if freeCapacity cfg l - chunk.Length > 0 then
            P ++ [(j, freeCapacity cfg l - chunk.Length)]
          else P } := by
  obtain ⟨hj0, hjl⟩ := vecGet?_lt_length hslot
  have hlmem := mem_of_vecGet? hslot
  have hfree : freeCapacity cfg (l ++ [chunk]) = freeCapacity cfg l - chunk.Length := by
    simp only [freeCapacity, totalLength_concat]; ring
  have hnew : vecGet? (s.eg_chunks_.set j.toNat (l ++ [chunk])) j = some (l ++ [chunk]) :=
    vecGet?_set_self _ _ hj0 hjl
  have hold : ∀ x, x ≠ j → vecGet? (s.eg_chunks_.set j.toNat (l ++ [chunk])) x =
      vecGet? s.eg_chunks_ x := fun x hx => vecGet?_set_ne _ _ hj0 hx
  have hjP : ∀ sp, (j, sp) ∉ P := fun sp h => ((hp2 _).mp h).2 rfl
  refine ⟨?_, ?_, ?_, he1, ?_, ?_, ?_⟩
  · simpa using inv.size
  · intro l' hl' c hc
    rcases List.mem_or_eq_of_mem_set hl' with h | h
    · exact inv.chunk_pos l' h c hc
    · rw [h] at hc
      rcases List.mem_append.mp hc with hm | hm
      · exact inv.chunk_pos l hlmem c hm
      · rw [List.mem_singleton.mp hm]; exact h1
  · intro l' hl'
    rcases List.mem_or_eq_of_mem_set hl' with h | h
    · exact inv.fits l' h
    · rw [h, totalLength_concat]
      unfold freeCapacity at hfit
      omega
  · intro x
    dsimp only
    rw [he2, inv.empty_iff]
    by_cases hx : x = j
    · subst hx
      rw [hnew]
      simp
    · rw [hold x hx]
      simp [hx]
  · dsimp only
    split
    · rw [List.map_append, List.map_singleton]
      refine List.Nodup.append hp1 (List.nodup_singleton _) ?_
      intro a hmem ha
      rw [List.mem_singleton] at ha
      obtain ⟨p, hp, hpj⟩ := List.mem_map.mp hmem
      exact ((hp2 p).mp hp).2 (hpj.trans ha)
    · exact hp1
  · intro x sp
    dsimp only
    by_cases hx : x = j
    · subst hx
      rw [hnew]
      constructor
      · intro hmem
        split at hmem
        · rename_i hpos
          rcases List.mem_append.mp hmem with hm | hm
          · exact absurd hm (hjP sp)
          · have hsp : sp = freeCapacity cfg l - chunk.Length := by simpa using hm
            exact ⟨_, rfl, by simp, by rw [hfree, hsp], by omega⟩
        · exact absurd hmem (hjP sp)
      · rintro ⟨l', e, _, hsp, hpos⟩
        cases e
        rw [hfree] at hsp
        rw [if_pos (by omega), hsp]
        simp
    · rw [hold x hx, ← inv.partial_iff]
      have hiff : (x, sp) ∈ P ↔ (x, sp) ∈ s.partial_eg_chunks_ := by
        rw [hp2]; simp [hx]
      split
      · rw [List.mem_append, hiff]
        simp [hx]
      · exact hiff

/-! ## `AcceptChunk` -/

theorem dropLast_of_getLast? {α : Type} {l : List α} {a : α} (h : l.getLast? = some a)
    (hnd : l.Nodup) :
    l.dropLast.Nodup ∧ (∀ x, x ∈ l.dropLast ↔ x ∈ l ∧ x ≠ a) ∧
      l.length = l.dropLast.length + 1 ∧ a ∈ l := by
  have hl : l.dropLast ++ [a] = l := List.dropLast_append_getLast? a h
  rw [← hl] at hnd
  have h1 := List.nodup_append.mp hnd
  have hnot : a ∉ l.dropLast := fun hm => h1.2.2 hm (List.mem_singleton_self a)
  refine ⟨h1.1, ?_, ?_, ?_⟩
  · intro x
    constructor
    · intro hx
      exact ⟨hl ▸ List.mem_append_left _ hx, fun e => hnot (e ▸ hx)⟩
    · rintro ⟨hx, hne⟩
      rw [← hl] at hx
      rcases List.mem_append.mp hx with hm | hm
      · exact hm
      · exact absurd (List.mem_singleton.mp hm) hne
  · conv_lhs => rw [← hl]
    simp
  · rw [← hl]; simp

theorem foldl_sub_snd (l : List (Int × Int)) (init : Int) :
    l.foldl (fun num p => num - p.2) init = init - (l.map Prod.snd).sum := by
  induction l generalizing init with
  | nil => simp
  | cons p t ih =>
    rw [List.foldl_cons, ih, List.map_cons, List.sum_cons]
    ring

theorem recordedOccupancy_eq (cfg : RnnlmEgsConfig) (s : SingleMinibatchCreator) :
    recordedOccupancy cfg s =
      cfg.minibatch_size * cfg.chunk_length -
        cfg.chunk_length * (s.empty_eg_chunks_.length : Int) -
        (s.partial_eg_chunks_.map Prod.snd).sum := by
  unfold recordedOccupancy
  exact foldl_sub_snd _ _

/-- In a state satisfying the invariant, a listed space is below `chunk_length`. -/
theorem PackerInvariant.space_lt (cfg : RnnlmEgsConfig) (s : SingleMinibatchCreator)
    (inv : PackerInvariant cfg s) (p : Int × Int) (hp : p ∈ s.partial_eg_chunks_) :
    0 < p.2 ∧ p.2 < cfg.chunk_length := by
  obtain ⟨l, hl, hne, hsp, hpos⟩ := (inv.partial_iff p.1 p.2).mp hp
  have := totalLength_pos_of_ne_nil (inv.chunk_pos l (mem_of_vecGet? hl)) hne
  unfold freeCapacity at hsp
  omega

/-- `AcceptChunk` for a chunk of full length when a slot is empty: it goes to the slot listed
last in `empty_eg_chunks_`. -/
theorem AcceptChunk_full (cfg : RnnlmEgsConfig) (s : SingleMinibatchCreator)
    (inv : PackerInvariant cfg s) (chunk : SequenceChunk) (h1 : 1 ≤ chunk.Length)
    (hfull : chunk.Length = cfg.chunk_length) (i : Int)
    (hlast : s.empty_eg_chunks_.getLast? = some i) :
    ∃ s', SingleMinibatchCreator.AcceptChunk cfg s chunk = some (true, s') ∧
      PackerInvariant cfg s' ∧ vecGet? s.eg_chunks_ i = some [] ∧
      s'.eg_chunks_ = s.eg_chunks_.set i.toNat ([] ++ [chunk]) ∧
      recordedOccupancy cfg s' =
        recordedOccupancy cfg s + chunk.Length := by
  obtain ⟨d1, d2, d3, d4⟩ := dropLast_of_getLast? hlast inv.empty_nodup
  have hslot : vecGet? s.eg_chunks_ i = some [] := (inv.empty_iff i).mp d4
  have hfree : freeCapacity cfg [] - chunk.Length = 0 := by
    simp [freeCapacity, totalLength, hfull]
  have hplace := PackerInvariant.place cfg s inv i [] chunk s.empty_eg_chunks_.dropLast
    s.partial_eg_chunks_ hslot h1 (by omega) d1 d2 inv.partial_nodup
    (by
      intro x
      constructor
      · intro hx
        refine ⟨hx, fun e => ?_⟩
        obtain ⟨l, hl, hne, _⟩ := (inv.partial_iff x.1 x.2).mp hx
        rw [e, hslot] at hl
        exact hne (Option.some.inj hl).symm
      · exact fun hx => hx.1)
  rw [hfree, if_neg (by decide)] at hplace
  refine ⟨_, ?_, hplace, hslot, rfl, ?_⟩
  · unfold SingleMinibatchCreator.AcceptChunk
    simp only [hfull, if_true, hlast, hslot, List.nil_append]
  · rw [recordedOccupancy_eq, recordedOccupancy_eq, d3, hfull]
    push_cast
    ring

/-- `AcceptChunk` for a shorter chunk when the search loop found no entry and a slot is empty:
the chunk goes to the slot listed last in `empty_eg_chunks_`. -/
theorem AcceptChunk_fresh (cfg : RnnlmEgsConfig) (s : SingleMinibatchCreator)
    (inv : PackerInvariant cfg s) (chunk : SequenceChunk) (h1 : 1 ≤ chunk.Length)
    (hlt : chunk.Length < cfg.chunk_length)
    (hbest : (bestFitLoop chunk.Length s.partial_eg_chunks_ 0 (-1, -1, INT32_MAX)).1 = -1)
    (j : Int) (hlast : s.empty_eg_chunks_.getLast? = some j) :
    ∃ s', SingleMinibatchCreator.AcceptChunk cfg s chunk = some (true, s') ∧
      PackerInvariant cfg s' ∧ vecGet? s.eg_chunks_ j = some [] ∧
      s'.eg_chunks_ = s.eg_chunks_.set j.toNat ([] ++ [chunk]) ∧
      recordedOccupancy cfg s' =
        recordedOccupancy cfg s + chunk.Length := by
  obtain ⟨d1, d2, d3, d4⟩ := dropLast_of_getLast? hlast inv.empty_nodup
  have hslot : vecGet? s.eg_chunks_ j = some [] := (inv.empty_iff j).mp d4
  have hfree : freeCapacity cfg [] = cfg.chunk_length := by
    simp [freeCapacity, totalLength]
  have hplace := PackerInvariant.place cfg s inv j [] chunk s.empty_eg_chunks_.dropLast
    s.partial_eg_chunks_ hslot h1 (by omega) d1 d2 inv.partial_nodup
    (by
      intro x
      constructor
      · intro hx
        refine ⟨hx, fun e => ?_⟩
        obtain ⟨l, hl, hne, _⟩ := (inv.partial_iff x.1 x.2).mp hx
        rw [e, hslot] at hl
        exact hne (Option.some.inj hl).symm
      · exact fun hx => hx.1)
  rw [hfree, if_pos (by omega)] at hplace
  refine ⟨_, ?_, hplace, hslot, rfl, ?_⟩
  · unfold SingleMinibatchCreator.AcceptChunk
    have hne : chunk.Length ≠ cfg.chunk_length := by omega
    simp only [hne, if_false, hlt, if_true, hbest, ne_eq, not_true_eq_false, hlast, placeChunk,
      hslot]
    rw [if_pos (by omega), if_pos (by omega)]
  · rw [recordedOccupancy_eq, recordedOccupancy_eq, d3]
    simp only [List.map_append, List.sum_append, List.map_cons, List.map_nil, List.sum_cons,
      List.sum_nil]
    push_cast
    ring

/-- `AcceptChunk` for a shorter chunk when the search loop ended at entry `k` of
`partial_eg_chunks_`: the chunk goes to the slot of that entry. -/
theorem AcceptChunk_listed (cfg : RnnlmEgsConfig) (s : SingleMinibatchCreator)
    (inv : PackerInvariant cfg s) (chunk : SequenceChunk) (h1 : 1 ≤ chunk.Length)
    (hlt : chunk.Length < cfg.chunk_length) (bi bj bs : Int) (k : Nat)
    (hbest : bestFitLoop chunk.Length s.partial_eg_chunks_ 0 (-1, -1, INT32_MAX) =
      (bi, bj, bs))
    (hbi : bi = 0 + (k : Int)) (hk : s.partial_eg_chunks_[k]? = some (bj, bs))
    (hfit : chunk.Length ≤ bs) :
    ∃ l s', SingleMinibatchCreator.AcceptChunk cfg s chunk = some (true, s') ∧
      PackerInvariant cfg s' ∧ vecGet? s.eg_chunks_ bj = some l ∧ l ≠ [] ∧
      bs = freeCapacity cfg l ∧
      s'.eg_chunks_ = s.eg_chunks_.set bj.toNat (l ++ [chunk]) ∧
      recordedOccupancy cfg s' =
        recordedOccupancy cfg s + chunk.Length := by
  obtain ⟨hklt, hkget⟩ := List.getElem?_eq_some.mp hk
  have hmem : (bj, bs) ∈ s.partial_eg_chunks_ := by
    rw [← hkget]; exact List.getElem_mem _
  obtain ⟨l, hslot, hne, hbs, hpos⟩ := (inv.partial_iff bj bs).mp hmem
  have hbi0 : 0 ≤ bi := by omega
  have hbik : bi.toNat = k := by omega
  obtain ⟨P, hP, hperm⟩ := swapRemove_spec s.partial_eg_chunks_ bi hbi0 (by omega)
  rw [hbik] at hperm
  -- the list without entry `k`
  have hsplit : s.partial_eg_chunks_ =
      s.partial_eg_chunks_.take k ++ (bj, bs) :: s.partial_eg_chunks_.drop (k + 1) := by
    rw [← hkget]; simp
  have herase : s.partial_eg_chunks_.eraseIdx k =
      s.partial_eg_chunks_.take k ++ s.partial_eg_chunks_.drop (k + 1) :=
    List.eraseIdx_eq_take_drop_succ _ _
  obtain ⟨a, ha⟩ : ∃ a, a = s.partial_eg_chunks_.take k := ⟨_, rfl⟩
  obtain ⟨b, hb⟩ : ∃ b, b = s.partial_eg_chunks_.drop (k + 1) := ⟨_, rfl⟩
  rw [← ha, ← hb] at hsplit herase
  rw [herase] at hperm
  have hnd := inv.partial_nodup
  rw [hsplit, List.map_append, List.map_cons] at hnd
  have hnd1 : (List.map Prod.fst (a ++ b)).Nodup := by
    rw [List.map_append]
    exact List.Nodup.sublist (List.Sublist.append_left (List.sublist_cons_self _ _) _) hnd
  have hnotin : bj ∉ List.map Prod.fst (a ++ b) := by
    rw [List.map_append]
    have := (List.nodup_middle.mp hnd)
    rw [List.nodup_cons] at this
    exact this.1
  have hp1 : (P.map Prod.fst).Nodup := (hperm.map Prod.fst).nodup_iff.mpr hnd1
  have hp2 : ∀ x, x ∈ P ↔ x ∈ s.partial_eg_chunks_ ∧ x.1 ≠ bj := by
    intro x
    rw [hperm.mem_iff, hsplit]
    constructor
    · intro hx
      refine ⟨?_, fun e => hnotin (e ▸ List.mem_map_of_mem _ hx)⟩
      rcases List.mem_append.mp hx with h | h
      · exact List.mem_append_left _ h
      · exact List.mem_append_right _ (List.mem_cons_of_mem _ h)
    · rintro ⟨hx, hne'⟩
      rcases List.mem_append.mp hx with h | h
      · exact List.mem_append_left _ h
      · rcases List.mem_cons.mp h with h | h
        · exact absurd (by rw [h]) hne'
        · exact List.mem_append_right _ h
  have hsumP : (P.map Prod.snd).sum = (s.partial_eg_chunks_.map Prod.snd).sum - bs := by
    rw [(hperm.map Prod.snd).sum_eq]
    conv_rhs => rw [hsplit]
    simp only [List.map_append, List.sum_append, List.map_cons, List.sum_cons]
    ring
  have hplace := PackerInvariant.place cfg s inv bj l chunk s.empty_eg_chunks_ P hslot h1
    (by omega) inv.empty_nodup
    (by
      intro x
      constructor
      · intro hx
        refine ⟨hx, fun e => ?_⟩
        have := (inv.empty_iff x).mp hx
        rw [e, hslot] at this
        exact hne (Option.some.inj this)
      · exact fun hx => hx.1)
    hp1 hp2
  rw [← hbs] at hplace
  refine ⟨l, _, ?_, hplace, hslot, hne, hbs, rfl, ?_⟩
  · unfold SingleMinibatchCreator.AcceptChunk
    have hne' : chunk.Length ≠ cfg.chunk_length := by omega
    have hbi1 : bi ≠ -1 := by omega
    simp only [hne', if_false, hlt, if_true, hbest, ne_eq, hbi1, not_false_eq_true, hP,
      placeChunk, hslot]
    rw [if_pos (by omega)]
  · rw [recordedOccupancy_eq, recordedOccupancy_eq]
    dsimp only
    split
    · simp only [List.map_append, List.sum_append, List.map_cons, List.map_nil, List.sum_cons,
        List.sum_nil, hsumP]
      ring
    · rename_i hz
      rw [hsumP]
      have : bs = chunk.Length := by omega
      rw [this]
      ring

/-- What `AcceptChunk` does in a state satisfying the invariant, for a chunk with `Length()` in
`[1, chunk_length]`.  Either it returns `false` and changes nothing, and then no slot is empty
and no listed space suffices; or it returns `true` after appending the chunk to a slot `j`
in which it fits, and then the invariant holds again, the recorded occupancy has
grown by `Length()`, a chunk of full length went to an empty slot, a partially filled slot
chosen is the tightest listed one, and an empty slot is chosen only if no listed space
suffices. -/
theorem AcceptChunk_spec (cfg : RnnlmEgsConfig) (s : SingleMinibatchCreator)
    (inv : PackerInvariant cfg s) (chunk : SequenceChunk) (h1 : 1 ≤ chunk.Length)
    (h2 : chunk.Length ≤ cfg.chunk_length) :
    (SingleMinibatchCreator.AcceptChunk cfg s chunk = some (false, s) ∧
      s.empty_eg_chunks_ = [] ∧
      (cfg.chunk_length ≤ INT32_MAX → ∀ p ∈ s.partial_eg_chunks_, p.2 < chunk.Length)) ∨
    (∃ j l s', SingleMinibatchCreator.AcceptChunk cfg s chunk = some (true, s') ∧
      PackerInvariant cfg s' ∧ vecGet? s.eg_chunks_ j = some l ∧
      chunk.Length ≤ freeCapacity cfg l ∧
      s'.eg_chunks_ = s.eg_chunks_.set j.toNat (l ++ [chunk]) ∧
      recordedOccupancy cfg s' =
        recordedOccupancy cfg s + chunk.Length ∧
      (chunk.Length = cfg.chunk_length → l = []) ∧
      (l ≠ [] → ∀ p ∈ s.partial_eg_chunks_, chunk.Length ≤ p.2 → freeCapacity cfg l ≤ p.2) ∧
      (l = [] → cfg.chunk_length ≤ INT32_MAX →
        ∀ p ∈ s.partial_eg_chunks_, p.2 < chunk.Length)) := by
  have hfree0 : freeCapacity cfg [] = cfg.chunk_length := by simp [freeCapacity, totalLength]
  by_cases hfull : chunk.Length = cfg.chunk_length
  · have hsmall : ∀ p ∈ s.partial_eg_chunks_, p.2 < chunk.Length := by
      intro p hp
      rw [hfull]
      exact (inv.space_lt cfg s p hp).2
    cases hlast : s.empty_eg_chunks_.getLast? with
    | none =>
      left
      refine ⟨?_, List.getLast?_eq_none_iff.mp hlast, fun _ => hsmall⟩
      unfold SingleMinibatchCreator.AcceptChunk
      simp only [hfull, if_true, hlast]
    | some i =>
      right
      obtain ⟨s', a1, a2, a3, a4, a5⟩ := AcceptChunk_full cfg s inv chunk h1 hfull i hlast
      exact ⟨i, [], s', a1, a2, a3, by omega, a4, a5, fun _ => rfl, fun h => absurd rfl h,
        fun _ _ => hsmall⟩
  · have hlt : chunk.Length < cfg.chunk_length := by omega
    rcases bestFitLoop_spec chunk.Length s.partial_eg_chunks_ 0 (-1, -1, INT32_MAX) with
      ⟨e, hno⟩ | ⟨k, hk, e1, e2, e3, e4, e5⟩
    · have hsmall : cfg.chunk_length ≤ INT32_MAX →
          ∀ p ∈ s.partial_eg_chunks_, p.2 < chunk.Length := by
        intro hmax p hp
        have h3 := hno p hp
        have h4 := (inv.space_lt cfg s p hp).2
        simp only [not_and, not_lt] at h3
        by_contra hcon
        have := h3 (by omega)
        omega
      cases hlast : s.empty_eg_chunks_.getLast? with
      | none =>
        left
        refine ⟨?_, List.getLast?_eq_none_iff.mp hlast, hsmall⟩
        unfold SingleMinibatchCreator.AcceptChunk
        simp only [hfull, if_false, hlt, if_true, e, ne_eq, not_true_eq_false, hlast]
      | some j =>
        right
        obtain ⟨s', a1, a2, a3, a4, a5⟩ :=
          AcceptChunk_fresh cfg s inv chunk h1 hlt (by rw [e]) j hlast
        exact ⟨j, [], s', a1, a2, a3, by omega, a4, a5, fun _ => rfl, fun h => absurd rfl h,
          fun _ => hsmall⟩
    · right
      obtain ⟨l, s', a1, a2, a3, a4, a5, a6, a7⟩ :=
        AcceptChunk_listed cfg s inv chunk h1 hlt _ _ _ k rfl e1 e2 e3
      refine ⟨_, l, s', a1, a2, a3, by rw [← a5]; exact e3, a6, a7, fun h => absurd h hfull, ?_,
        fun h => absurd h a4⟩
      intro _ p hp hfit
      rw [← a5]
      exact e5 p hp hfit

/-- Every reachable state satisfies the invariant. -/
theorem Reachable.invariant (cfg : RnnlmEgsConfig) (hcl : 0 ≤ cfg.chunk_length)
    (s : SingleMinibatchCreator) (h : Reachable cfg s) : PackerInvariant cfg s := by
  induction h with
  | init s hs => exact PackerInvariant.construct cfg s hcl hs
  | step s s' chunk b _ h1 h2 hacc ih =>
    rcases AcceptChunk_spec cfg s ih chunk h1 h2 with ⟨e, _⟩ | ⟨j, l, s'', e, inv', _⟩
    · rw [e] at hacc
      cases hacc
      exact ih
    · rw [e] at hacc
      cases hacc
      exact inv'

/-! ## Occupied capacity -/

theorem occupied_set (eg : List (List SequenceChunk)) (j : Int) (l : List SequenceChunk)
    (chunk : SequenceChunk) (hslot : vecGet? eg j = some l) :
    ((eg.set j.toNat (l ++ [chunk])).map totalLength).sum =
      (eg.map totalLength).sum + chunk.Length := by
  obtain ⟨hj0, hjl⟩ := vecGet?_lt_length hslot
  rw [vecGet?_nonneg _ hj0] at hslot
  obtain ⟨hlt, hget⟩ := List.getElem?_eq_some.mp hslot
  rw [List.map_set, List.sum_set']
  simp only [List.length_map, hlt, dite_true, List.getElem_map, hget, totalLength_concat]
  ring

theorem sum_totalLength_bounds (cfg : RnnlmEgsConfig) (eg : List (List SequenceChunk))
    (hpos : ∀ l ∈ eg, ∀ c ∈ l, 1 ≤ c.Length) (hfit : ∀ l ∈ eg, totalLength l ≤ cfg.chunk_length) :
    0 ≤ (eg.map totalLength).sum ∧
      (eg.map totalLength).sum ≤ (eg.length : Int) * cfg.chunk_length := by
  induction eg with
  | nil => simp
  | cons l t ih =>
    obtain ⟨i1, i2⟩ := ih (fun x hx => hpos x (List.mem_cons_of_mem _ hx))
      (fun x hx => hfit x (List.mem_cons_of_mem _ hx))
    have h1 : 0 ≤ totalLength l := by
      by_cases hl : l = []
      · simp [hl, totalLength]
      · have := totalLength_pos_of_ne_nil (hpos l (List.mem_cons_self _ _)) hl
        omega
    have h2 := hfit l (List.mem_cons_self _ _)
    simp only [List.map_cons, List.sum_cons, List.length_cons, Nat.cast_succ]
    constructor
    · omega
    · have : ((t.length : Int) + 1) * cfg.chunk_length =
          (t.length : Int) * cfg.chunk_length + cfg.chunk_length := by ring
      omega

/-- In every reachable state the recorded occupancy is the occupied capacity. -/
theorem Reachable.num_eq_occupied (cfg : RnnlmEgsConfig) (hcl : 0 ≤ cfg.chunk_length)
    (s : SingleMinibatchCreator) (h : Reachable cfg s) :
    recordedOccupancy cfg s = occupied s := by
  induction h with
  | init s hs =>
    unfold SingleMinibatchCreator.construct at hs
    split at hs
    · rename_i h0
      cases hs
      rw [recordedOccupancy_eq]
      simp only [occupied, intRange_length, List.map_nil, List.sum_nil, List.map_replicate,
        List.sum_replicate, totalLength, smul_zero, sub_zero]
      have : ((cfg.minibatch_size.toNat : Nat) : Int) = cfg.minibatch_size := by omega
      rw [this]
      ring
    · cases hs
  | step s s' chunk b hr h1 h2 hacc ih =>
    have inv := Reachable.invariant cfg hcl s hr
    rcases AcceptChunk_spec cfg s inv chunk h1 h2 with
      ⟨e, _⟩ | ⟨j, l, s'', e, _, hslot, _, heg, hnum, _⟩
    · rw [e] at hacc
      cases hacc
      exact ih
    · rw [e] at hacc
      cases hacc
      rw [hnum, ih]
      unfold occupied
      rw [heg, occupied_set _ _ _ _ hslot]

/-- A concrete reachable state: after the constructor, a chunk of length 3 has been accepted. -/
theorem examplePacker_reachable : Reachable exampleConfig examplePacker :=
  Reachable.step
    { eg_chunks_ := [[], []], empty_eg_chunks_ := [0, 1], partial_eg_chunks_ := [] }
    examplePacker (exampleChunk 3) true
    (Reachable.init _ (by decide)) (by decide) (by decide) (by decide)

/-! ## The packer: best fit, invariants, acceptance, `ProportionFull` -/

/-- In a state satisfying the invariant, a slot that has a chunk and at least one position
left is listed in `partial_eg_chunks_` with its free capacity. -/
theorem PackerInvariant.listed (cfg : RnnlmEgsConfig) (s : SingleMinibatchCreator)
    (inv : PackerInvariant cfg s) (j : Int) (l : List SequenceChunk)
    (hslot : vecGet? s.eg_chunks_ j = some l) (hne : l ≠ []) (hpos : 0 < freeCapacity cfg l) :
    (j, freeCapacity cfg l) ∈ s.partial_eg_chunks_ :=
  (inv.partial_iff j _).mpr ⟨l, hslot, hne, rfl, hpos⟩

/-- **C6.** In a reachable packer state (`chunk_length` being an `int32`), for a chunk with
`1 ≤ Length() < chunk_length`: if some partially filled slot has free capacity at least
`Length()`, `AcceptChunk` returns `true` after appending the chunk to a partially filled slot
whose free capacity is the smallest among all slots with free capacity at least `Length()`;
otherwise, if an empty slot exists, it returns `true` after appending the chunk to an empty
slot.  In both cases the free capacity of the chosen slot decreases by exactly `Length()` and
every other slot keeps its chunk list (hence its free capacity). -/
theorem AcceptChunk_best_fit (cfg : RnnlmEgsConfig) (s : SingleMinibatchCreator)
    (chunk : SequenceChunk) (hmax : cfg.chunk_length ≤ INT32_MAX) (hr : Reachable cfg s)
    (h1 : 1 ≤ chunk.Length) (h2 : chunk.Length < cfg.chunk_length) :
    ((∃ j l, vecGet? s.eg_chunks_ j = some l ∧ l ≠ [] ∧ chunk.Length ≤ freeCapacity cfg l) →
      ∃ j l s', SingleMinibatchCreator.AcceptChunk cfg s chunk = some (true, s') ∧
        vecGet? s.eg_chunks_ j = some l ∧ l ≠ [] ∧ chunk.Length ≤ freeCapacity cfg l ∧
        (∀ j' l', vecGet? s.eg_chunks_ j' = some l' → chunk.Length ≤ freeCapacity cfg l' →
          freeCapacity cfg l ≤ freeCapacity cfg l') ∧
        vecGet? s'.eg_chunks_ j = some (l ++ [chunk]) ∧
        freeCapacity cfg (l ++ [chunk]) = freeCapacity cfg l - chunk.Length ∧
        (∀ j', j' ≠ j → vecGet? s'.eg_chunks_ j' = vecGet? s.eg_chunks_ j')) ∧
    ((¬ ∃ j l, vecGet? s.eg_chunks_ j = some l ∧ l ≠ [] ∧
        chunk.Length ≤ freeCapacity cfg l) →
      (∃ j, vecGet? s.eg_chunks_ j = some []) →
      ∃ j s', SingleMinibatchCreator.AcceptChunk cfg s chunk = some (true, s') ∧
        vecGet? s.eg_chunks_ j = some [] ∧
        vecGet? s'.eg_chunks_ j = some [chunk] ∧
        freeCapacity cfg [chunk] = freeCapacity cfg [] - chunk.Length ∧
        (∀ j', j' ≠ j → vecGet? s'.eg_chunks_ j' = vecGet? s.eg_chunks_ j')) := by
  have inv := Reachable.invariant cfg (by omega) s hr
  have hfree : ∀ l, freeCapacity cfg (l ++ [chunk]) = freeCapacity cfg l - chunk.Length := by
    intro l
    simp only [freeCapacity, totalLength_concat]; ring
  have hupd : ∀ (j : Int) (l : List SequenceChunk) (s' : SingleMinibatchCreator),
      vecGet? s.eg_chunks_ j = some l →
      s'.eg_chunks_ = s.eg_chunks_.set j.toNat (l ++ [chunk]) →
      vecGet? s'.eg_chunks_ j = some (l ++ [chunk]) ∧
      ∀ j', j' ≠ j → vecGet? s'.eg_chunks_ j' = vecGet? s.eg_chunks_ j' := by
    intro j l s' hslot heg
    obtain ⟨hj0, hjl⟩ := vecGet?_lt_length hslot
    rw [heg]
    exact ⟨vecGet?_set_self _ _ hj0 hjl, fun j' hj' => vecGet?_set_ne _ _ hj0 hj'⟩
  constructor
  · rintro ⟨j0, l0, hs0, hne0, hfit0⟩
    have hlisted := inv.listed cfg s j0 l0 hs0 hne0 (by omega)
    rcases AcceptChunk_spec cfg s inv chunk h1 h2.le with
      ⟨_, _, hno⟩ | ⟨j, l, s', e, _, hslot, hfit, heg, _, _, hbest, hempty⟩
    · have := hno hmax _ hlisted
      simp only at this
      omega
    · have hne : l ≠ [] := by
        intro hl
        have := hempty hl hmax _ hlisted
        simp only at this
        omega
      obtain ⟨u1, u2⟩ := hupd j l s' hslot heg
      refine ⟨j, l, s', e, hslot, hne, hfit, ?_, u1, hfree l, u2⟩
      intro j' l' hs' hfit'
      by_cases hl' : l' = []
      · have := totalLength_pos_of_ne_nil (inv.chunk_pos l (mem_of_vecGet? hslot)) hne
        simp only [hl', freeCapacity, totalLength, List.map_nil, List.sum_nil] at this ⊢
        omega
      · exact hbest hne _ (inv.listed cfg s j' l' hs' hl' (by omega)) hfit'
  · rintro hnone ⟨j0, hs0⟩
    have hmem : j0 ∈ s.empty_eg_chunks_ := (inv.empty_iff j0).mpr hs0
    rcases AcceptChunk_spec cfg s inv chunk h1 h2.le with
      ⟨_, hnil, _⟩ | ⟨j, l, s', e, _, hslot, hfit, heg, _, _, _, _⟩
    · rw [hnil] at hmem
      simp at hmem
    · have hl : l = [] := by
        by_contra hne
        exact hnone ⟨j, l, hslot, hne, hfit⟩
      subst hl
      obtain ⟨u1, u2⟩ := hupd j [] s' hslot heg
      exact ⟨j, s', e, hslot, u1, hfree [], u2⟩

theorem AcceptChunk_best_fit_witness :
    (exampleConfig.chunk_length ≤ INT32_MAX ∧ Reachable exampleConfig examplePacker ∧
      1 ≤ (exampleChunk 4).Length ∧ (exampleChunk 4).Length < exampleConfig.chunk_length) ∧
    SingleMinibatchCreator.AcceptChunk exampleConfig examplePacker (exampleChunk 4) =
      some (true, { eg_chunks_ := [[], [exampleChunk 3, exampleChunk 4]],
                    empty_eg_chunks_ := [0], partial_eg_chunks_ := [(1, 1)] }) ∧
    ∃ j l s', SingleMinibatchCreator.AcceptChunk exampleConfig examplePacker (exampleChunk 4) =
      some (true, s') ∧ vecGet? examplePacker.eg_chunks_ j = some l ∧ l ≠ [] := by
  refine ⟨⟨by decide, examplePacker_reachable, by decide, by decide⟩, by decide, ?_⟩
  obtain ⟨j, l, s', h, hslot, hne, _⟩ :=
    (AcceptChunk_best_fit exampleConfig examplePacker (exampleChunk 4) (by decide)
      examplePacker_reachable (by decide) (by decide)).1
      ⟨1, [exampleChunk 3], by decide, by decide, by decide⟩
  exact ⟨j, l, s', h, hslot, hne⟩

/-- **C7.** With `chunk_length ≥ 0`, every packer state reachable from the constructor by
`AcceptChunk` calls with chunk lengths in `[1, chunk_length]` satisfies: there are `minibatch_size` slots and the
`Length()` values of the chunks of each slot sum to at most `chunk_length` (free capacity
`≥ 0`); `empty_eg_chunks_` lists, once each, exactly the slots holding no chunk;
`partial_eg_chunks_` holds exactly one pair `(j, sp)` for each slot `j` that is neither empty
nor full, with `sp = chunk_length - (sum of the slot's chunk lengths)`, and nothing else, and
every listed `sp` satisfies `0 < sp < chunk_length`.  Moreover `AcceptChunk` returns for every
further chunk with length in `[1, chunk_length]` (no assertion fails), and when it returns
`true` it has put the chunk in a slot whose free capacity was at least the chunk's length. -/
theorem reachable_invariants (cfg : RnnlmEgsConfig) (s : SingleMinibatchCreator)
    (hcl : 0 ≤ cfg.chunk_length) (hr : Reachable cfg s) :
    (s.eg_chunks_.length : Int) = cfg.minibatch_size ∧
    (∀ j l, vecGet? s.eg_chunks_ j = some l →
      totalLength l ≤ cfg.chunk_length ∧ 0 ≤ freeCapacity cfg l) ∧
    (s.empty_eg_chunks_.Nodup ∧
      ∀ j, j ∈ s.empty_eg_chunks_ ↔ vecGet? s.eg_chunks_ j = some []) ∧
    ((s.partial_eg_chunks_.map Prod.fst).Nodup ∧
      ∀ j sp, (j, sp) ∈ s.partial_eg_chunks_ ↔
        ∃ l, vecGet? s.eg_chunks_ j = some l ∧ l ≠ [] ∧ totalLength l ≠ cfg.chunk_length ∧
          sp = cfg.chunk_length - totalLength l) ∧
    (∀ p ∈ s.partial_eg_chunks_, 0 < p.2 ∧ p.2 < cfg.chunk_length) ∧
    (∀ chunk : SequenceChunk, 1 ≤ chunk.Length → chunk.Length ≤ cfg.chunk_length →
      ∃ b s', SingleMinibatchCreator.AcceptChunk cfg s chunk = some (b, s') ∧
        (b = true → ∃ j l, vecGet? s.eg_chunks_ j = some l ∧
          chunk.Length ≤ freeCapacity cfg l ∧
          s'.eg_chunks_ = s.eg_chunks_.set j.toNat (l ++ [chunk]))) := by
  have inv := Reachable.invariant cfg hcl s hr
  refine ⟨inv.size, ?_, ⟨inv.empty_nodup, inv.empty_iff⟩, ⟨inv.partial_nodup, ?_⟩,
    fun p hp => inv.space_lt cfg s p hp, ?_⟩
  · intro j l hslot
    have := inv.fits l (mem_of_vecGet? hslot)
    unfold freeCapacity
    exact ⟨this, by omega⟩
  · intro j sp
    rw [inv.partial_iff]
    constructor
    · rintro ⟨l, hslot, hne, hsp, hpos⟩
      unfold freeCapacity at hsp
      exact ⟨l, hslot, hne, by omega, hsp⟩
    · rintro ⟨l, hslot, hne, hnf, hsp⟩
      have := inv.fits l (mem_of_vecGet? hslot)
      exact ⟨l, hslot, hne, hsp, by omega⟩
  · intro chunk h1 h2
    rcases AcceptChunk_spec cfg s inv chunk h1 h2 with
      ⟨e, _⟩ | ⟨j, l, s', e, _, hslot, hfit, heg, _⟩
    · exact ⟨false, s, e, (fun h => by cases h)⟩
    · exact ⟨true, s', e, fun _ => ⟨j, l, hslot, hfit, heg⟩⟩

theorem reachable_invariants_witness :
    (0 ≤ exampleConfig.chunk_length ∧ Reachable exampleConfig examplePacker) ∧
    ((examplePacker.eg_chunks_.length : Int) = exampleConfig.minibatch_size ∧
      ∀ p ∈ examplePacker.partial_eg_chunks_, 0 < p.2 ∧ p.2 < exampleConfig.chunk_length) := by
  have h := reachable_invariants exampleConfig examplePacker (by decide)
    examplePacker_reachable
  exact ⟨⟨by decide, examplePacker_reachable⟩, h.1, h.2.2.2.2.1⟩

/-- **C8.** In a reachable packer state (`chunk_length` being an `int32`) and for a chunk with
`1 ≤ Length() ≤ chunk_length`, `AcceptChunk` returns, and it returns `true` if and only if
some slot has free capacity at least `Length()`; when it returns `false` the state is
unchanged.  A chunk with `Length() = chunk_length` is placed only in a slot that was empty,
and `AcceptChunk` returns `false` for it exactly when no slot is empty. -/
theorem AcceptChunk_true_iff (cfg : RnnlmEgsConfig) (s : SingleMinibatchCreator)
    (chunk : SequenceChunk) (hmax : cfg.chunk_length ≤ INT32_MAX) (hr : Reachable cfg s)
    (h1 : 1 ≤ chunk.Length) (h2 : chunk.Length ≤ cfg.chunk_length) :
    ∃ b s', SingleMinibatchCreator.AcceptChunk cfg s chunk = some (b, s') ∧
      (b = true ↔ ∃ j l, vecGet? s.eg_chunks_ j = some l ∧ chunk.Length ≤ freeCapacity cfg l) ∧
      (b = false → s' = s) ∧
      (chunk.Length = cfg.chunk_length →
        (b = true → ∃ j, vecGet? s.eg_chunks_ j = some [] ∧
          s'.eg_chunks_ = s.eg_chunks_.set j.toNat [chunk]) ∧
        (b = false ↔ ∀ j, vecGet? s.eg_chunks_ j ≠ some [])) := by
  have inv := Reachable.invariant cfg (by omega) s hr
  rcases AcceptChunk_spec cfg s inv chunk h1 h2 with
    ⟨e, hnil, hno⟩ | ⟨j, l, s', e, _, hslot, hfit, heg, _, hfull, _, _⟩
  · have hnoempty : ∀ j, vecGet? s.eg_chunks_ j ≠ some [] := by
      intro j hj
      have := (inv.empty_iff j).mpr hj
      rw [hnil] at this
      simp at this
    refine ⟨false, s, e, ?_, fun _ => rfl, fun _ => ⟨(fun h => by cases h), ?_⟩⟩
    · constructor
      · intro h; cases h
      · rintro ⟨j, l, hslot, hfit⟩
        exfalso
        by_cases hl : l = []
        · exact hnoempty j (hl ▸ hslot)
        · have := hno hmax _ (inv.listed cfg s j l hslot hl (by omega))
          simp only at this
          omega
    · exact ⟨fun _ => hnoempty, fun _ => rfl⟩
  · refine ⟨true, s', e, ?_, (fun h => by cases h), fun hc => ⟨fun _ => ?_, ?_⟩⟩
    · exact ⟨fun _ => ⟨j, l, hslot, hfit⟩, fun _ => rfl⟩
    · have hl := hfull hc
      subst hl
      exact ⟨j, hslot, by simpa using heg⟩
    · constructor
      · intro h; cases h
      · intro hno
        have hl := hfull hc
        subst hl
        exact absurd hslot (hno j)

theorem AcceptChunk_true_iff_witness :
    (exampleConfig.chunk_length ≤ INT32_MAX ∧ Reachable exampleConfig examplePacker ∧
      1 ≤ (exampleChunk 8).Length ∧ (exampleChunk 8).Length ≤ exampleConfig.chunk_length) ∧
    SingleMinibatchCreator.AcceptChunk exampleConfig examplePacker (exampleChunk 8) =
      some (true, { eg_chunks_ := [[exampleChunk 8], [exampleChunk 3]],
                    empty_eg_chunks_ := [], partial_eg_chunks_ := [(1, 5)] }) ∧
    ∃ b s', SingleMinibatchCreator.AcceptChunk exampleConfig examplePacker (exampleChunk 8) =
      some (b, s') := by
  refine ⟨⟨by decide, examplePacker_reachable, by decide, by decide⟩, by decide, ?_⟩
  obtain ⟨b, s', h, _⟩ :=
    AcceptChunk_true_iff exampleConfig examplePacker (exampleChunk 8) (by decide)
      examplePacker_reachable (by decide) (by decide)
  exact ⟨b, s', h⟩

theorem wrapInt32_eq_self {x : Int} (h0 : -2147483648 ≤ x) (h1 : x ≤ INT32_MAX) :
    wrapInt32 x = x := by
  unfold INT32_MAX at h1
  unfold wrapInt32
  omega

/-- The subtraction loop of `ProportionFull` in `int32` arithmetic agrees with the exact one
when the spaces are not negative and the exact values stay within the range of `int32`. -/
theorem foldl_wrap_sub (l : List (Int × Int)) : ∀ (init : Int),
    (∀ p ∈ l, 0 ≤ p.2) → init ≤ INT32_MAX →
    -2147483648 ≤ l.foldl (fun num p => num - p.2) init →
    l.foldl (fun num p => wrapInt32 (num - p.2)) init =
      l.foldl (fun num p => num - p.2) init := by
  induction l with
  | nil => intro init _ _ _; rfl
  | cons p t ih =>
    intro init hpos hmax hmin
    have hp := hpos p (List.mem_cons_self _ _)
    have ht : ∀ q ∈ t, 0 ≤ q.2 := fun q hq => hpos q (List.mem_cons_of_mem _ hq)
    rw [List.foldl_cons] at hmin ⊢
    rw [foldl_sub_snd] at hmin
    have hsum : 0 ≤ (t.map Prod.snd).sum :=
      List.sum_nonneg (fun x hx => by
        obtain ⟨q, hq, rfl⟩ := List.mem_map.mp hx
        exact ht q hq)
    have hw : wrapInt32 (init - p.2) = init - p.2 :=
      wrapInt32_eq_self (by omega) (by omega)
    rw [List.foldl_cons, hw]
    exact ih (init - p.2) ht (by omega) (by rw [foldl_sub_snd]; omega)

/-- The list of empty slots has at most `minibatch_size` entries. -/
theorem PackerInvariant.empty_length_le (cfg : RnnlmEgsConfig) (s : SingleMinibatchCreator)
    (inv : PackerInvariant cfg s) :
    (s.empty_eg_chunks_.length : Int) ≤ cfg.minibatch_size := by
  have hsub : s.empty_eg_chunks_ ⊆ intRange 0 cfg.minibatch_size := by
    intro j hj
    have := vecGet?_lt_length ((inv.empty_iff j).mp hj)
    rw [inv.size] at this
    exact mem_intRange.mpr this
  have hle := (List.subperm_of_subset inv.empty_nodup hsub).length_le
  rw [intRange_length] at hle
  have := inv.size
  omega

/-- **C9.** Let `chunk_length ≥ 0` and let `minibatch_size` and the product
`minibatch_size * chunk_length` fit into `int32` (beyond that the `int32` product of line 286
overflows).  Then in every reachable packer state the numerator `ProportionFull` computes in
`int32` arithmetic is `minibatch_size * chunk_length`, minus `chunk_length` per listed empty
slot, minus the listed space of each partially filled slot; it equals the sum of `Length()`
over all chunks in all slots and lies between `0` and `minibatch_size * chunk_length`, so the
assertion `num >= 0` holds and `ProportionFull()` returns the occupied capacity divided by
`minibatch_size * chunk_length`; with a positive denominator this value lies between 0 and 1
inclusive. -/
theorem ProportionFull_spec (cfg : RnnlmEgsConfig) (s : SingleMinibatchCreator)
    (hcl : 0 ≤ cfg.chunk_length) (hmbs : cfg.minibatch_size ≤ INT32_MAX)
    (hmax : cfg.minibatch_size * cfg.chunk_length ≤ INT32_MAX) (hr : Reachable cfg s) :
    SingleMinibatchCreator.ProportionFullNum cfg s = recordedOccupancy cfg s ∧
    SingleMinibatchCreator.ProportionFullNum cfg s = occupied s ∧
    0 ≤ SingleMinibatchCreator.ProportionFullNum cfg s ∧
    SingleMinibatchCreator.ProportionFullNum cfg s ≤ cfg.minibatch_size * cfg.chunk_length ∧
    SingleMinibatchCreator.ProportionFull cfg s =
      some ((occupied s : ℚ) / ((cfg.minibatch_size * cfg.chunk_length : Int) : ℚ)) ∧
    (0 < cfg.minibatch_size * cfg.chunk_length →
      ∃ r, SingleMinibatchCreator.ProportionFull cfg s = some r ∧ 0 ≤ r ∧ r ≤ 1) := by
  have inv := Reachable.invariant cfg hcl s hr
  have hrec := Reachable.num_eq_occupied cfg hcl s hr
  obtain ⟨b1, b2⟩ := sum_totalLength_bounds cfg s.eg_chunks_ inv.chunk_pos inv.fits
  rw [inv.size] at b2
  have hocc0 : 0 ≤ occupied s := b1
  have hocc1 : occupied s ≤ cfg.minibatch_size * cfg.chunk_length := b2
  have hE := PackerInvariant.empty_length_le cfg s inv
  have hm0 : 0 ≤ cfg.minibatch_size := by have := inv.size; omega
  have hden0 : 0 ≤ cfg.minibatch_size * cfg.chunk_length := mul_nonneg hm0 hcl
  have hcE0 : 0 ≤ cfg.chunk_length * (s.empty_eg_chunks_.length : Int) :=
    mul_nonneg hcl (by omega)
  have hcE1 : cfg.chunk_length * (s.empty_eg_chunks_.length : Int) ≤
      cfg.minibatch_size * cfg.chunk_length := by
    rw [mul_comm cfg.minibatch_size]
    exact mul_le_mul_of_nonneg_left hE hcl
  have hINT : INT32_MAX = 2147483647 := rfl
  have w1 : wrapInt32 (cfg.minibatch_size * cfg.chunk_length) =
      cfg.minibatch_size * cfg.chunk_length := wrapInt32_eq_self (by omega) hmax
  have w2 : wrapInt32 (s.empty_eg_chunks_.length : Int) = (s.empty_eg_chunks_.length : Int) :=
    wrapInt32_eq_self (by omega) (by omega)
  have w3 : wrapInt32 (cfg.chunk_length * (s.empty_eg_chunks_.length : Int)) =
      cfg.chunk_length * (s.empty_eg_chunks_.length : Int) :=
    wrapInt32_eq_self (by omega) (by omega)
  have w4 : wrapInt32 (cfg.minibatch_size * cfg.chunk_length -
      cfg.chunk_length * (s.empty_eg_chunks_.length : Int)) =
      cfg.minibatch_size * cfg.chunk_length -
        cfg.chunk_length * (s.empty_eg_chunks_.length : Int) :=
    wrapInt32_eq_self (by omega) (by omega)
  have hnum' : SingleMinibatchCreator.ProportionFullNum cfg s = recordedOccupancy cfg s := by
    unfold SingleMinibatchCreator.ProportionFullNum recordedOccupancy
    simp only [w1, w2, w3, w4]
    refine foldl_wrap_sub _ _ (fun p hp => (inv.space_lt cfg s p hp).1.le) (by omega) ?_
    have : recordedOccupancy cfg s = occupied s := hrec
    unfold recordedOccupancy at this
    simp only at this
    omega
  have hnum : SingleMinibatchCreator.ProportionFullNum cfg s = occupied s := hnum'.trans hrec
  have hpf : SingleMinibatchCreator.ProportionFull cfg s =
      some ((occupied s : ℚ) / ((cfg.minibatch_size * cfg.chunk_length : Int) : ℚ)) := by
    unfold SingleMinibatchCreator.ProportionFull
    simp only [hnum, w1, ge_iff_le, hocc0, if_true, mul_one]
  refine ⟨hnum', hnum, by omega, by omega, hpf, fun hden => ⟨_, hpf, ?_, ?_⟩⟩
  · apply div_nonneg
    · exact_mod_cast hocc0
    · exact_mod_cast hden.le
  · rw [div_le_one (by exact_mod_cast hden)]
    exact_mod_cast hocc1

theorem ProportionFull_spec_witness :
    (0 ≤ exampleConfig.chunk_length ∧ exampleConfig.minibatch_size ≤ INT32_MAX ∧
      exampleConfig.minibatch_size * exampleConfig.chunk_length ≤ INT32_MAX ∧
      Reachable exampleConfig examplePacker) ∧
    SingleMinibatchCreator.ProportionFullNum exampleConfig examplePacker = 3 ∧
    SingleMinibatchCreator.ProportionFull exampleConfig examplePacker =
      some ((occupied examplePacker : ℚ) /
        ((exampleConfig.minibatch_size * exampleConfig.chunk_length : Int) : ℚ)) :=
  ⟨⟨by decide, by decide, by decide, examplePacker_reachable⟩, by decide,
    (ProportionFull_spec exampleConfig examplePacker (by decide) (by decide) (by decide)
      examplePacker_reachable).2.2.2.2.1⟩

/-! ## `SampleForMinibatch` -/


/-- `SampleForGroup` returns the batch it was given, or does not return. -/
theorem SampleForGroup_eq (smp : RnnlmMinibatchSampler) (g : Int) (mb mb' : RnnlmMinibatch)
    (h : smp.SampleForGroup g mb = some mb') : mb' = mb := by
  unfold RnnlmMinibatchSampler.SampleForGroup at h
  split at h
  · cases h
  · split at h
    · cases h
    · exact (Option.some.inj h).symm

theorem sampleGroupsLoop_eq (smp : RnnlmMinibatchSampler) (gs : List Int)
    (mb mb' : RnnlmMinibatch) (h : sampleGroupsLoop smp gs mb = some mb') : mb' = mb := by
  induction gs generalizing mb with
  | nil => exact (Option.some.inj h).symm
  | cons g rest ih =>
    unfold sampleGroupsLoop at h
    cases hg : smp.SampleForGroup g mb with
    | none => simp [hg] at h
    | some m =>
      rw [hg] at h
      rw [ih m h]
      exact SampleForGroup_eq smp g mb m hg

/-- Whatever the batch, `SampleForMinibatch` with sampling enabled leaves in `sampled_words`
only what was there before and zeros from the `resize`: no output word is recorded. -/
theorem SampleForMinibatch_sampled_words (smp : RnnlmMinibatchSampler)
    (mb mb' : RnnlmMinibatch) (h : smp.SampleForMinibatch mb = some mb') :
    mb'.output_words = mb.output_words ∧ mb'.output_weights = mb.output_weights ∧
    ∀ w ∈ mb'.sampled_words, w ∈ mb.sampled_words ∨ w = 0 := by
  unfold RnnlmMinibatchSampler.SampleForMinibatch at h
  split at h
  · cases h
    exact ⟨rfl, rfl, fun w hw => Or.inl hw⟩
  · split at h
    · dsimp only at h
      split at h
      · cases h
      · split at h
        · rename_i sw sp hsw hsp
          have := sampleGroupsLoop_eq smp _ _ _ h
          rw [this]
          refine ⟨rfl, rfl, ?_⟩
          intro w hw
          dsimp only at hw
          unfold vecResize at hsw
          split at hsw
          · cases hsw
            rcases List.mem_append.mp hw with hm | hm
            · exact Or.inl (List.mem_of_mem_take hm)
            · exact Or.inr (List.eq_of_mem_replicate hm)
          · cases hsw
        · cases h
    · cases h

/-- **C10.** Evaluation of `SampleForMinibatch` with sampling enabled on the batch of the
single sequence `[3]`: the call returns, the output word `3` has weight `1` at timestep 0 of
slot 0, which belongs to group 0, and the candidate words recorded for group 0 are `[0]`: the
output word is not among them. -/
theorem SampleForMinibatch_misses_output_word :
    smallSampler.sampler_ ≠ none ∧
    ∃ mb', smallSampler.SampleForMinibatch smallBatch = some mb' ∧
      vecGet? mb'.output_words (0 * smallConfig.minibatch_size + 0) = some 3 ∧
      vecGet? mb'.output_weights (0 * smallConfig.minibatch_size + 0) = some 1 ∧
      sampledWordsOfGroup mb' 0 = [0] ∧ 3 ∉ sampledWordsOfGroup mb' 0 := by
  refine ⟨by decide,
    ⟨{ smallBatch with sample_group_size := 2, sampled_words := [0], sample_probs := [0] },
      by decide, by decide, by decide, by decide, by decide⟩⟩

/-! ## `CheckSequence` -/

theorem checkWordsLoop_eq_none (bos brk : Int) (words : List Int) :
    checkWordsLoop bos brk words = none ↔ ∃ x ∈ words, x = bos ∨ x = brk := by
  induction words with
  | nil => simp [checkWordsLoop]
  | cons w rest ih =>
    unfold checkWordsLoop
    by_cases h : w ≠ bos ∧ w ≠ brk
    · rw [if_pos h, ih]
      constructor
      · rintro ⟨x, hx, hx'⟩
        exact ⟨x, List.mem_cons_of_mem _ hx, hx'⟩
      · rintro ⟨x, hx, hx'⟩
        rcases List.mem_cons.mp hx with rfl | hm
        · rcases hx' with e | e
          · exact absurd e h.1
          · exact absurd e h.2
        · exact ⟨x, hm, hx'⟩
    · rw [if_neg h]
      simp only [true_iff]
      refine ⟨w, List.mem_cons_self _ _, ?_⟩
      by_contra hcon
      exact h ⟨fun e => hcon (Or.inl e), fun e => hcon (Or.inr e)⟩

theorem splitLoop_sequence (cfg : RnnlmEgsConfig) (ptr : List Int) (weight : ℚ)
    (lens : List Int) (cur_start : Int) :
    ∀ c ∈ splitLoop cfg ptr weight lens cur_start, c.sequence = ptr := by
  induction lens generalizing cur_start with
  | nil => intro c hc; simp [splitLoop] at hc
  | cons len rest ih =>
    intro c hc
    unfold splitLoop at hc
    rcases List.mem_cons.mp hc with rfl | hm
    · rfl
    · exact ih _ c hm

/-- Every chunk `SplitSequenceIntoChunks` creates has the tokens followed by one `eos_symbol`
as its token buffer. -/
theorem newChunks_sequence (cfg : RnnlmEgsConfig) (RandInt : Int → Int → Int) (weight : ℚ)
    (words : List Int) (new : List SequenceChunk)
    (h : newChunks cfg RandInt weight words = some new) :
    ∀ c ∈ new, c.sequence = words ++ [cfg.eos_symbol] := by
  unfold newChunks at h
  dsimp only at h
  split at h
  · cases h
    intro c hc
    rw [List.mem_singleton] at hc
    rw [hc]; rfl
  · split at h
    · cases h
    · cases h
      exact splitLoop_sequence _ _ _ _ _

/-- `SplitSequenceIntoChunks` returns and creates at least one chunk. -/
theorem newChunks_returns (cfg : RnnlmEgsConfig) (RandInt : Int → Int → Int) (weight : ℚ)
    (words : List Int) (hR : ∀ lo hi, lo ≤ hi → lo ≤ RandInt lo hi ∧ RandInt lo hi ≤ hi)
    (h1 : cfg.min_split_context < cfg.chunk_length) :
    ∃ first rest, newChunks cfg RandInt weight words = some (first :: rest) := by
  by_cases hlong : cfg.chunk_length < (words.length : Int) + 1
  · obtain ⟨f, r, e, _⟩ :=
      ChooseChunkLengths_spec cfg RandInt hR ((words.length : Int) + 1) h1 hlong
    have hnew := newChunks_split cfg RandInt weight words _ hlong e
    unfold splitLoop at hnew
    exact ⟨_, _, hnew⟩
  · refine ⟨SequenceChunk.create cfg (words ++ [cfg.eos_symbol]) weight 0
      ((words.length : Int) + 1), [], ?_⟩
    unfold newChunks
    simp only [List.length_append, List.length_singleton, Nat.cast_add, Nat.cast_one]
    rw [if_pos (by omega)]

/-- **C16.** `CheckSequence(weight, words)` aborts if and only if `weight ≤ 0` or some element
of `words` is `bos_symbol` or `brk_symbol`.  In particular a sequence of positive weight
without these symbols that already ends with `eos_symbol` is accepted, with the warning; and
`SplitSequenceIntoChunks` (with `min_split_context < chunk_length`) then returns, adds at
least one chunk, and gives every chunk it adds the token buffer `words ++ [eos_symbol]`, which
ends with two `eos_symbol`s. -/
theorem CheckSequence_spec (cfg : RnnlmEgsConfig) (weight : ℚ) (words : List Int) :
    (RnnlmMinibatchCreator.CheckSequence cfg weight words = none ↔
      weight ≤ 0 ∨ ∃ x ∈ words, x = cfg.bos_symbol ∨ x = cfg.brk_symbol) ∧
    (∀ ws : List Int, words = ws ++ [cfg.eos_symbol] → 0 < weight →
      (∀ x ∈ words, x ≠ cfg.bos_symbol ∧ x ≠ cfg.brk_symbol) →
      RnnlmMinibatchCreator.CheckSequence cfg weight words = some true ∧
      ∀ (RandInt : Int → Int → Int) (chunks_ : List SequenceChunk),
        (∀ lo hi, lo ≤ hi → lo ≤ RandInt lo hi ∧ RandInt lo hi ≤ hi) →
        cfg.min_split_context < cfg.chunk_length →
        ∃ first rest,
          RnnlmMinibatchCreator.SplitSequenceIntoChunks cfg RandInt chunks_ weight words =
            some (chunks_ ++ first :: rest) ∧
          ∀ c ∈ first :: rest,
            c.sequence = ws ++ [cfg.eos_symbol] ++ [cfg.eos_symbol]) := by
  have hiff : RnnlmMinibatchCreator.CheckSequence cfg weight words = none ↔
      weight ≤ 0 ∨ ∃ x ∈ words, x = cfg.bos_symbol ∨ x = cfg.brk_symbol := by
    unfold RnnlmMinibatchCreator.CheckSequence
    by_cases hw : weight > 0
    · rw [if_pos hw, ← checkWordsLoop_eq_none]
      cases hloop : checkWordsLoop cfg.bos_symbol cfg.brk_symbol words with
      | none => simp
      | some u => simp [not_le.mpr hw]
    · rw [if_neg hw]
      simp only [true_iff]
      exact Or.inl (not_lt.mp hw)
  refine ⟨hiff, ?_⟩
  intro ws hws hw hclean
  constructor
  · have hnot : RnnlmMinibatchCreator.CheckSequence cfg weight words ≠ none := by
      rw [Ne, hiff]
      rintro (h | ⟨x, hx, h⟩)
      · exact absurd hw (not_lt.mpr h)
      · rcases h with e | e
        · exact (hclean x hx).1 e
        · exact (hclean x hx).2 e
    unfold RnnlmMinibatchCreator.CheckSequence at hnot ⊢
    rw [if_pos hw] at hnot ⊢
    cases hloop : checkWordsLoop cfg.bos_symbol cfg.brk_symbol words with
    | none => rw [hloop] at hnot; exact absurd rfl hnot
    | some u =>
      simp only [Option.some.injEq, decide_eq_true_eq]
      rw [hws]
      simp
  · intro RandInt chunks_ hR h1
    obtain ⟨first, rest, hnew⟩ := newChunks_returns cfg RandInt weight words hR h1
    refine ⟨first, rest, by simp only [RnnlmMinibatchCreator.SplitSequenceIntoChunks, hnew], ?_⟩
    intro c hc
    rw [newChunks_sequence cfg RandInt weight words _ hnew c hc, hws]

theorem CheckSequence_spec_witness :
    (([3, 4, 9] : List Int) = [3, 4] ++ [exampleConfig.eos_symbol] ∧ (0 : ℚ) < 7 ∧
      ∀ x ∈ ([3, 4, 9] : List Int),
        x ≠ exampleConfig.bos_symbol ∧ x ≠ exampleConfig.brk_symbol) ∧
    RnnlmMinibatchCreator.CheckSequence exampleConfig 7 [3, 4, 9] = some true ∧
    RnnlmMinibatchCreator.CheckSequence exampleConfig 7 [3, 1, 9] = none ∧
    (newChunks exampleConfig (fun a _ => a) 7 [3, 4, 9]).map
      (fun l => l.map SequenceChunk.sequence) = some [[3, 4, 9, 9]] :=
  ⟨⟨by decide, by decide, by decide⟩,
    ((CheckSequence_spec exampleConfig 7 [3, 4, 9]).2 [3, 4] (by decide) (by decide)
      (by decide)).1, by decide, by decide⟩

/-! ## `GetHistory` -/

/-- The walk of `GetHistory` described on the list `new` of the words it collects, most recent
first, when it starts at step `j0` with at most `m` steps to go: word `i` of `new` is the input
word of slot `n` at timestep `t - (j0 + i)`, which is not negative; only the last word can be
`bos_symbol` or `brk_symbol`; and the walk ends by exhausting its steps or at such a word. -/
theorem historyLoop_iff (cfg : RnnlmEgsConfig) (mb : RnnlmMinibatch) (t n : Int) (m j0 : Nat)
    (acc res : List Int) :
    historyLoop cfg mb t n ((List.range' j0 m).map (fun (k : Nat) => -(k : Int))) acc =
      some res ↔
    ∃ new : List Int, res = acc ++ new ∧ new.length ≤ m ∧
      (∀ i (hi : i < new.length), 0 ≤ t - ((j0 + i : Nat) : Int) ∧
        vecGet? mb.input_words ((t - ((j0 + i : Nat) : Int)) * cfg.minibatch_size + n) =
          some new[i]) ∧
      (∀ i (hi : i < new.length), i + 1 < new.length →
        new[i] ≠ cfg.bos_symbol ∧ new[i] ≠ cfg.brk_symbol) ∧
      (new.length = m ∨
        ∃ x, new.getLast? = some x ∧ (x = cfg.bos_symbol ∨ x = cfg.brk_symbol)) := by
  induction m generalizing j0 acc with
  | zero =>
    simp only [List.range'_zero, List.map_nil, historyLoop, Option.some.injEq]
    constructor
    · intro h
      exact ⟨[], by simp [h], by simp, fun i hi => by simp at hi, fun i hi => by simp at hi,
        Or.inl rfl⟩
    · rintro ⟨new, h1, h2, _⟩
      have : new = [] := List.length_eq_zero.mp (by omega)
      simp [h1, this]
  | succ m ih =>
    rw [List.range'_succ, List.map_cons]
    unfold historyLoop
    dsimp only
    have hstep : t + -((j0 : Nat) : Int) = t - ((j0 + 0 : Nat) : Int) := by simp; ring
    by_cases h0 : t + -((j0 : Nat) : Int) ≥ 0
    · rw [if_pos h0]
      cases hw : vecGet? mb.input_words ((t + -((j0 : Nat) : Int)) * cfg.minibatch_size + n) with
      | none =>
        refine ⟨(fun h => by cases h), ?_⟩
        rintro ⟨new, h1, h2, h3, h4, h5⟩
        exfalso
        cases new with
        | nil =>
          rcases h5 with h5 | ⟨x, h5, _⟩
          · simp at h5
          · simp at h5
        | cons a as =>
          have := (h3 0 (by simp)).2
          rw [← hstep, hw] at this
          cases this
      | some word =>
        dsimp only
        by_cases hstop : word = cfg.bos_symbol ∨ word = cfg.brk_symbol
        · rw [if_pos hstop]
          constructor
          · intro h
            cases h
            refine ⟨[word], rfl, by simp, ?_, ?_, Or.inr ⟨word, by simp, hstop⟩⟩
            · intro i hi
              have hi0 : i = 0 := by simpa using hi
              subst hi0
              rw [← hstep]
              exact ⟨h0, by simpa using hw⟩
            · intro i hi hi2
              simp at hi2
          · rintro ⟨new, h1, h2, h3, h4, h5⟩
            cases new with
            | nil =>
              rcases h5 with h5 | ⟨x, h5, _⟩
              · simp at h5
              · simp at h5
            | cons a as =>
              have ha := (h3 0 (by simp)).2
              rw [← hstep, hw] at ha
              simp only [List.getElem_cons_zero, Option.some.injEq] at ha
              subst ha
              cases as with
              | nil => rw [h1]
              | cons b bs =>
                have := h4 0 (by simp) (by simp)
                simp only [List.getElem_cons_zero] at this
                rcases hstop with e | e
                · exact absurd e this.1
                · exact absurd e this.2
        · rw [if_neg hstop, ih (j0 + 1) (acc ++ [word])]
          constructor
          · rintro ⟨new, h1, h2, h3, h4, h5⟩
            refine ⟨word :: new, by simp [h1], by simp; omega, ?_, ?_, ?_⟩
            · intro i hi
              cases i with
              | zero =>
                rw [← hstep]
                exact ⟨h0, by simpa using hw⟩
              | succ i =>
                have := h3 i (by simpa using hi)
                simp only [List.getElem_cons_succ]
                have e : ((j0 + (i + 1) : Nat) : Int) = ((j0 + 1 + i : Nat) : Int) := by
                  push_cast; ring
                rw [e]
                exact this
            · intro i hi hi2
              cases i with
              | zero =>
                simp only [List.getElem_cons_zero]
                exact ⟨fun e => hstop (Or.inl e), fun e => hstop (Or.inr e)⟩
              | succ i =>
                simp only [List.getElem_cons_succ]
                exact h4 i (by simpa using hi) (by simpa using hi2)
            · rcases h5 with h5 | ⟨x, h5, hx⟩
              · left; simp [h5]
              · right
                refine ⟨x, ?_, hx⟩
                cases new with
                | nil => simp at h5
                | cons b bs => rw [List.getLast?_cons_cons]; exact h5
          · rintro ⟨new, h1, h2, h3, h4, h5⟩
            cases new with
            | nil =>
              rcases h5 with h5 | ⟨x, h5, _⟩
              · simp at h5
              · simp at h5
            | cons a as =>
              have ha := (h3 0 (by simp)).2
              rw [← hstep, hw] at ha
              simp only [List.getElem_cons_zero, Option.some.injEq] at ha
              subst ha
              refine ⟨as, by simp [h1], by simpa using h2, ?_, ?_, ?_⟩
              · intro i hi
                have := h3 (i + 1) (by simpa using hi)
                simp only [List.getElem_cons_succ] at this
                have e : ((j0 + (i + 1) : Nat) : Int) = ((j0 + 1 + i : Nat) : Int) := by
                  push_cast; ring
                rw [e] at this
                exact this
              · intro i hi hi2
                have := h4 (i + 1) (by simpa using hi) (by simpa using hi2)
                simpa using this
              · rcases h5 with h5 | ⟨x, h5, hx⟩
                · left; simpa using h5
                · cases as with
                  | nil =>
                    simp only [List.getLast?_singleton, Option.some.injEq] at h5
                    subst h5
                    exact absurd hx hstop
                  | cons b bs =>
                    right
                    rw [List.getLast?_cons_cons] at h5
                    exact ⟨x, h5, hx⟩
    · rw [if_neg h0]
      refine ⟨(fun h => by cases h), ?_⟩
      rintro ⟨new, h1, h2, h3, h4, h5⟩
      exfalso
      cases new with
      | nil =>
        rcases h5 with h5 | ⟨x, h5, _⟩
        · simp at h5
        · simp at h5
      | cons a as =>
        have := (h3 0 (by simp)).1
        rw [← hstep] at this
        exact h0 this

theorem GetHistory_eq_some (smp : RnnlmMinibatchSampler) (t n : Int) (mb : RnnlmMinibatch)
    (h : Int) (hh : 0 ≤ h) (hist : List Int) :
    smp.GetHistory t n mb h = some hist ↔
      historyLoop smp.config_ mb t n
        ((List.range' 0 h.toNat).map (fun (k : Nat) => -(k : Int))) [] = some hist.reverse := by
  unfold RnnlmMinibatchSampler.GetHistory
  rw [if_pos hh, List.range_eq_range']
  cases historyLoop smp.config_ mb t n
      ((List.range' 0 h.toNat).map (fun (k : Nat) => -(k : Int))) [] with
  | none => simp
  | some r =>
    simp only [Option.map_some', Option.some.injEq]
    constructor
    · intro e; rw [← e, List.reverse_reverse]
    · intro e; rw [e, List.reverse_reverse]

/-- **C19.** For `max_history_length = h ≥ 0`, `GetHistory(t, n, minibatch, h)` returns the
list `hist` exactly when `hist` is the walk back from timestep `t` in slot `n` that the claim
describes and the walk meets no negative timestep: with `k` the length of `hist`, `k ≤ h`;
entry `i` of `hist` is the input word of slot `n` at timestep `t - k + 1 + i`, which is not
negative (so the entries are the words at `t - k + 1, …, t - 1, t`, most recent last); no
entry after the first is `bos_symbol` or `brk_symbol`; and `k = h` or the first entry is
`bos_symbol` or `brk_symbol` (the walk stops, inclusively, at the first such word).  Hence a
returned history has at most `h` entries and `bos_symbol`, `brk_symbol` occur in it only as
its first entry. -/
theorem GetHistory_spec (smp : RnnlmMinibatchSampler) (t n : Int) (mb : RnnlmMinibatch)
    (h : Int) (hh : 0 ≤ h) (hist : List Int) :
    smp.GetHistory t n mb h = some hist ↔
      (hist.length : Int) ≤ h ∧
      (∀ i (hi : i < hist.length), 0 ≤ t - (hist.length : Int) + 1 + (i : Int) ∧
        vecGet? mb.input_words
          ((t - (hist.length : Int) + 1 + (i : Int)) * smp.config_.minibatch_size + n) =
          some hist[i]) ∧
      (∀ i (hi : i < hist.length), 0 < i →
        hist[i] ≠ smp.config_.bos_symbol ∧ hist[i] ≠ smp.config_.brk_symbol) ∧
      ((hist.length : Int) = h ∨
        ∃ x, hist.head? = some x ∧
          (x = smp.config_.bos_symbol ∨ x = smp.config_.brk_symbol)) := by
  rw [GetHistory_eq_some smp t n mb h hh, historyLoop_iff]
  constructor
  · rintro ⟨new, h1, h2, h3, h4, h5⟩
    rw [List.nil_append] at h1
    subst h1
    simp only [List.length_reverse] at h2 h3 h4 h5
    refine ⟨by omega, ?_, ?_, ?_⟩
    · intro i hi
      have := h3 (hist.length - 1 - i) (by omega)
      rw [List.getElem_reverse] at this
      have e : ((0 + (hist.length - 1 - i) : Nat) : Int) =
          (hist.length : Int) - 1 - (i : Int) := by omega
      rw [e] at this
      have e2 : t - ((hist.length : Int) - 1 - (i : Int)) =
          t - (hist.length : Int) + 1 + (i : Int) := by ring
      rw [e2] at this
      have e3 : hist.length - 1 - (hist.length - 1 - i) = i := by omega
      simp only [e3] at this
      exact this
    · intro i hi hpos
      have := h4 (hist.length - 1 - i) (by omega) (by omega)
      rw [List.getElem_reverse] at this
      have e3 : hist.length - 1 - (hist.length - 1 - i) = i := by omega
      simp only [e3] at this
      exact this
    · rcases h5 with h5 | ⟨x, h5, hx⟩
      · left; omega
      · right
        rw [List.getLast?_reverse] at h5
        exact ⟨x, h5, hx⟩
  · rintro ⟨h1, h2, h3, h4⟩
    refine ⟨hist.reverse, by simp, by simp; omega, ?_, ?_, ?_⟩
    · intro i hi
      have hi' : i < hist.length := by simpa using hi
      have := h2 (hist.length - 1 - i) (by omega)
      rw [List.getElem_reverse]
      have e : ((0 + i : Nat) : Int) = (i : Int) := by simp
      rw [e]
      have e2 : t - (hist.length : Int) + 1 + ((hist.length - 1 - i : Nat) : Int) =
          t - (i : Int) := by omega
      rw [e2] at this
      exact this
    · intro i hi hi2
      have hi' : i < hist.length := by simpa using hi
      have hi2' : i + 1 < hist.length := by simpa using hi2
      rw [List.getElem_reverse]
      exact h3 (hist.length - 1 - i) (by omega) (by omega)
    · rcases h4 with h4 | ⟨x, h4, hx⟩
      · left; simp only [List.length_reverse]; omega
      · right
        exact ⟨x, by rw [List.getLast?_reverse]; exact h4, hx⟩

theorem GetHistory_spec_witness :
    ((0 : Int) ≤ 2) ∧ smallSampler.GetHistory 1 0 smallBatch 2 = some [1, 3] ∧
    ((([1, 3] : List Int).length : Int) ≤ 2) :=
  ⟨by decide, by decide,
    ((GetHistory_spec smallSampler 1 0 smallBatch 2 (by decide) [1, 3]).mp (by decide)).1⟩

/-! ## `GetHistoriesForGroup` -/

theorem histLookup_addHistWeight (m : List (List Int × ℚ)) (h k : List Int) (w : ℚ) :
    histLookup (addHistWeight m h w) k =
      if k = h then some ((histLookup m h).getD 0 + w) else histLookup m k := by
  induction m with
  | nil =>
    simp only [addHistWeight, histLookup, Option.getD_none]
    by_cases e : k = h
    · simp [e]
    · simp [e, Ne.symm e]
  | cons p rest ih =>
    obtain ⟨a, x⟩ := p
    unfold addHistWeight
    by_cases ha : a = h
    · rw [if_pos ha]
      subst ha
      by_cases e : k = a
      · subst e; simp [histLookup]
      · simp [histLookup, e, Ne.symm e]
    · rw [if_neg ha]
      by_cases e : k = h
      · subst e
        simp only [histLookup, if_neg ha, ih, if_true]
      · simp only [histLookup, ih, if_neg e]

theorem keys_addHistWeight (m : List (List Int × ℚ)) (h : List Int) (w : ℚ) :
    (addHistWeight m h w).map Prod.fst =
      if h ∈ m.map Prod.fst then m.map Prod.fst else m.map Prod.fst ++ [h] := by
  induction m with
  | nil => simp [addHistWeight]
  | cons p rest ih =>
    obtain ⟨a, x⟩ := p
    unfold addHistWeight
    by_cases ha : a = h
    · rw [if_pos ha]
      subst ha
      simp
    · rw [if_neg ha]
      simp only [List.map_cons, ih, List.mem_cons]
      by_cases hm : h ∈ rest.map Prod.fst
      · simp [hm]
      · simp [hm, Ne.symm ha]

theorem histLookup_eq_none_iff (m : List (List Int × ℚ)) (k : List Int) :
    histLookup m k = none ↔ k ∉ m.map Prod.fst := by
  induction m with
  | nil => simp [histLookup]
  | cons p rest ih =>
    obtain ⟨a, x⟩ := p
    unfold histLookup
    by_cases e : a = k
    · simp [e]
    · rw [if_neg e, ih]
      simp [Ne.symm e]

theorem mem_iff_histLookup (m : List (List Int × ℚ)) (hnd : (m.map Prod.fst).Nodup)
    (k : List Int) (x : ℚ) : (k, x) ∈ m ↔ histLookup m k = some x := by
  induction m with
  | nil => simp [histLookup]
  | cons p rest ih =>
    obtain ⟨a, y⟩ := p
    rw [List.map_cons, List.nodup_cons] at hnd
    unfold histLookup
    by_cases e : a = k
    · subst e
      rw [if_pos rfl]
      constructor
      · intro hmem
        rcases List.mem_cons.mp hmem with h | h
        · cases h; rfl
        · exact absurd (List.mem_map_of_mem Prod.fst h) hnd.1
      · intro h
        cases h
        exact List.mem_cons_self _ _
    · rw [if_neg e, ← ih hnd.2]
      constructor
      · intro hmem
        rcases List.mem_cons.mp hmem with h | h
        · cases h; exact absurd rfl e
        · exact h
      · exact fun h => List.mem_cons_of_mem _ h

theorem historyWeight_append (C : List (List Int × ℚ)) (h k : List Int) (w : ℚ) :
    historyWeight (C ++ [(h, w)]) k = historyWeight C k + (if h = k then w else 0) := by
  unfold historyWeight
  rw [List.filter_append, List.map_append, List.sum_append]
  by_cases e : h = k
  · simp [e]
  · simp [e]

theorem historyWeight_of_not_mem (C : List (List Int × ℚ)) (k : List Int)
    (hk : k ∉ C.map Prod.fst) : historyWeight C k = 0 := by
  unfold historyWeight
  have : C.filter (fun c => c.1 = k) = [] := by
    rw [List.filter_eq_nil_iff]
    intro c hc
    simp only [decide_eq_true_eq]
    intro e
    exact hk (e ▸ List.mem_map_of_mem Prod.fst hc)
  rw [this]
  simp

theorem HistMapOf.nil : HistMapOf [] [] := by
  refine ⟨by simp, fun k => by simp [histLookup]⟩

theorem HistMapOf.add {m C : List (List Int × ℚ)} (hm : HistMapOf m C) (h : List Int)
    (w : ℚ) : HistMapOf (addHistWeight m h w) (C ++ [(h, w)]) := by
  obtain ⟨hnd, hlook⟩ := hm
  constructor
  · rw [keys_addHistWeight]
    split
    · exact hnd
    · rename_i hnot
      refine List.Nodup.append hnd (List.nodup_singleton _) ?_
      intro a ha ha'
      rw [List.mem_singleton] at ha'
      exact hnot (ha' ▸ ha)
  · intro k
    rw [histLookup_addHistWeight, historyWeight_append]
    by_cases e : k = h
    · subst e
      have hval : (histLookup m k).getD 0 = historyWeight C k := by
        rw [hlook k]
        split
        · rfl
        · rename_i hnot
          rw [historyWeight_of_not_mem C k hnot]; rfl
      simp [hval]
    · rw [if_neg e, hlook k, if_neg (Ne.symm e), add_zero]
      have : k ∈ List.map Prod.fst (C ++ [(h, w)]) ↔ k ∈ List.map Prod.fst C := by
        simp [e]
      by_cases hk : k ∈ List.map Prod.fst C
      · rw [if_pos hk, if_pos (this.mpr hk)]
      · rw [if_neg hk, if_neg (fun hh => hk (this.mp hh))]

/-- The pairs of a map that holds the contributions `C`. -/
theorem HistMapOf.mem_iff {m C : List (List Int × ℚ)} (hm : HistMapOf m C) (k : List Int)
    (x : ℚ) : (k, x) ∈ m ↔ k ∈ C.map Prod.fst ∧ x = historyWeight C k := by
  rw [mem_iff_histLookup m hm.1, hm.2 k]
  by_cases hk : k ∈ C.map Prod.fst
  · rw [if_pos hk]
    simp only [Option.some.injEq, hk, true_and]
    exact eq_comm
  · rw [if_neg hk]
    simp [hk]

theorem HistMapOf.eq_nil_iff {m C : List (List Int × ℚ)} (hm : HistMapOf m C) :
    m = [] ↔ C = [] := by
  constructor
  · intro e
    cases C with
    | nil => rfl
    | cons c rest =>
      exfalso
      have := (hm.mem_iff c.1 (historyWeight (c :: rest) c.1)).mpr ⟨by simp, rfl⟩
      rw [e] at this
      simp at this
  · intro e
    cases m with
    | nil => rfl
    | cons p rest =>
      exfalso
      have := ((hm.mem_iff p.1 p.2).mp (List.mem_cons_self _ _)).1
      rw [e] at this
      simp at this

/-- The loop over `n` at timestep `t`: when every position visited has a weight, which is not
negative, and a history if the weight is not zero, the loop returns and the map holds the
contributions of the positions visited so far. -/
theorem histLoopN_spec (smp : RnnlmMinibatchSampler) (mb : RnnlmMinibatch) (t : Int)
    (ns : List Int) (m : List (List Int × ℚ)) (ps : List (Int × Int))
    (hm : HistMapOf m (ps.filterMap (positionContribution smp mb)))
    (hpos : ∀ n ∈ ns, ∃ w,
      vecGet? mb.output_weights (t * smp.config_.minibatch_size + n) = some w ∧ 0 ≤ w ∧
      (w ≠ 0 → ∃ h, smp.GetHistory t n mb (smp.arpa_.Order - 1) = some h)) :
    ∃ m', histLoopN smp mb (smp.arpa_.Order - 1) t ns m = some m' ∧
      HistMapOf m' ((ps ++ ns.map (fun (n : Int) => (t, n))).filterMap
        (positionContribution smp mb)) := by
  induction ns generalizing m ps with
  | nil => exact ⟨m, rfl, by simpa using hm⟩
  | cons n rest ih =>
    obtain ⟨w, hw, hw0, hhist⟩ := hpos n (List.mem_cons_self _ _)
    have hrest := fun x hx => hpos x (List.mem_cons_of_mem _ hx)
    have happ : ps ++ List.map (fun (n : Int) => (t, n)) (n :: rest) =
        (ps ++ [(t, n)]) ++ List.map (fun (n : Int) => (t, n)) rest := by simp
    rw [happ]
    unfold histLoopN
    rw [hw]
    dsimp only
    rw [if_pos hw0]
    by_cases hz : w = 0
    · rw [if_pos hz]
      have hc : positionContribution smp mb (t, n) = none := by
        simp [positionContribution, hw, hz]
      exact ih m (ps ++ [(t, n)]) (by simpa [List.filterMap_append, hc] using hm) hrest
    · rw [if_neg hz]
      obtain ⟨h, hh⟩ := hhist hz
      rw [hh]
      have hc : positionContribution smp mb (t, n) = some (h, w) := by
        simp [positionContribution, hw, hz, hh]
      exact ih (addHistWeight m h w) (ps ++ [(t, n)])
        (by simpa [List.filterMap_append, hc] using hm.add h w) hrest

/-- The loop over `t`, under the same conditions. -/
theorem histLoopT_spec (smp : RnnlmMinibatchSampler) (mb : RnnlmMinibatch)
    (ts : List Int) (m : List (List Int × ℚ)) (ps : List (Int × Int))
    (hm : HistMapOf m (ps.filterMap (positionContribution smp mb)))
    (hpos : ∀ t ∈ ts, ∀ n ∈ intRange 0 smp.config_.minibatch_size, ∃ w,
      vecGet? mb.output_weights (t * smp.config_.minibatch_size + n) = some w ∧ 0 ≤ w ∧
      (w ≠ 0 → ∃ h, smp.GetHistory t n mb (smp.arpa_.Order - 1) = some h)) :
    ∃ m', histLoopT smp mb (smp.arpa_.Order - 1) ts m = some m' ∧
      HistMapOf m' ((ps ++ List.flatMap ts (fun (t : Int) =>
        (intRange 0 smp.config_.minibatch_size).map (fun (n : Int) => (t, n)))).filterMap
        (positionContribution smp mb)) := by
  induction ts generalizing m ps with
  | nil => exact ⟨m, rfl, by simpa using hm⟩
  | cons t rest ih =>
    obtain ⟨m1, h1, hm1⟩ := histLoopN_spec smp mb t (intRange 0 smp.config_.minibatch_size)
      m ps hm (hpos t (List.mem_cons_self _ _))
    obtain ⟨m2, h2, hm2⟩ := ih m1 _ hm1 (fun x hx => hpos x (List.mem_cons_of_mem _ hx))
    refine ⟨m2, ?_, ?_⟩
    · unfold histLoopT
      rw [h1]
      exact h2
    · rw [List.flatMap_cons, ← List.append_assoc]
      exact hm2

theorem mem_groupPositions (cfg : RnnlmEgsConfig) (g : Int) (p : Int × Int) :
    p ∈ groupPositions cfg g ↔
      p.1 ∈ intRange (g * cfg.sample_group_size) ((g + 1) * cfg.sample_group_size) ∧
      p.2 ∈ intRange 0 cfg.minibatch_size := by
  unfold groupPositions
  simp only [List.mem_flatMap, List.mem_map]
  constructor
  · rintro ⟨t, ht, n, hn, rfl⟩
    exact ⟨ht, hn⟩
  · rintro ⟨h1, h2⟩
    exact ⟨p.1, h1, p.2, h2, rfl⟩

theorem positionContribution_eq_some (smp : RnnlmMinibatchSampler) (mb : RnnlmMinibatch)
    (p : Int × Int) (h : List Int) (w : ℚ) :
    positionContribution smp mb p = some (h, w) ↔
      vecGet? mb.output_weights (p.1 * smp.config_.minibatch_size + p.2) = some w ∧ w ≠ 0 ∧
      smp.GetHistory p.1 p.2 mb (smp.arpa_.Order - 1) = some h := by
  unfold positionContribution
  cases hw : vecGet? mb.output_weights (p.1 * smp.config_.minibatch_size + p.2) with
  | none => simp
  | some w' =>
    dsimp only
    by_cases hz : w' = 0
    · rw [if_pos hz]
      refine ⟨(fun e => by cases e), ?_⟩
      rintro ⟨e1, e2, _⟩
      rw [Option.some.injEq] at e1
      exact absurd (e1 ▸ hz) e2
    · rw [if_neg hz]
      cases hh : smp.GetHistory p.1 p.2 mb (smp.arpa_.Order - 1) with
      | none => simp
      | some h' =>
        simp only [Option.map_some', Option.some.injEq, Prod.mk.injEq]
        constructor
        · rintro ⟨rfl, rfl⟩
          exact ⟨rfl, hz, rfl⟩
        · rintro ⟨rfl, _, rfl⟩
          exact ⟨rfl, rfl⟩

/-- **C11.** For a group `g` of a batch in which every position of the group has an output
weight, none negative, and every position with nonzero weight has a history (`GetHistory`
returns for it), and with a language model of positive order, `GetHistoriesForGroup` returns a
list of `(history, weight)` pairs with pairwise distinct histories.  If some position of the
group has nonzero weight, the list contains exactly the histories of the positions of the group
with nonzero output weight, each paired with the sum of the output weights of all such
positions sharing that history; if no position has nonzero weight, the list is the one pair
(empty history, 1).  Second part: two slots with the same history `[bos, 3]` and weights
`w1`, `w2` yield the single pair `([bos, 3], w1 + w2)`. -/
theorem GetHistoriesForGroup_spec :
    (∀ (smp : RnnlmMinibatchSampler) (g : Int) (mb : RnnlmMinibatch),
      0 < smp.arpa_.Order →
      (∀ p ∈ groupPositions smp.config_ g, ∃ w,
        vecGet? mb.output_weights (p.1 * smp.config_.minibatch_size + p.2) = some w ∧
        0 ≤ w ∧ (w ≠ 0 → ∃ h, smp.GetHistory p.1 p.2 mb (smp.arpa_.Order - 1) = some h)) →
      ∃ hw, smp.GetHistoriesForGroup g mb = some hw ∧ (hw.map Prod.fst).Nodup ∧
        ((∃ p ∈ groupPositions smp.config_ g, ∃ w,
            vecGet? mb.output_weights (p.1 * smp.config_.minibatch_size + p.2) = some w ∧
            w ≠ 0) →
          ∀ h x, (h, x) ∈ hw ↔
            (∃ p ∈ groupPositions smp.config_ g, ∃ w,
              vecGet? mb.output_weights (p.1 * smp.config_.minibatch_size + p.2) = some w ∧
              w ≠ 0 ∧ smp.GetHistory p.1 p.2 mb (smp.arpa_.Order - 1) = some h) ∧
            x = historyWeight (groupContributions smp g mb) h) ∧
        ((∀ p ∈ groupPositions smp.config_ g,
            vecGet? mb.output_weights (p.1 * smp.config_.minibatch_size + p.2) = some 0) →
          hw = [([], 1)])) ∧
    (∀ w1 w2 : ℚ, 0 < w1 → 0 < w2 →
      RnnlmMinibatchSampler.GetHistoriesForGroup
        { config_ := { smallConfig with minibatch_size := 2 },
          arpa_ := smallSampler.arpa_, sampler_ := smallSampler.sampler_ } 0
        { num_sequences := 2, chunk_length := 2, num_samples := 1, sample_group_size := 2,
          input_words := [1, 1, 3, 3], output_words := [3, 3, 9, 9],
          output_weights := [0, 0, w1, w2], sampled_words := [], sample_probs := [] } =
        some [([1, 3], w1 + w2)]) := by
  constructor
  · intro smp g mb hO hpos
    have hpos' : ∀ t ∈ intRange (g * smp.config_.sample_group_size)
        ((g + 1) * smp.config_.sample_group_size),
        ∀ n ∈ intRange 0 smp.config_.minibatch_size, ∃ w,
        vecGet? mb.output_weights (t * smp.config_.minibatch_size + n) = some w ∧ 0 ≤ w ∧
        (w ≠ 0 → ∃ h, smp.GetHistory t n mb (smp.arpa_.Order - 1) = some h) :=
      fun t ht n hn => hpos (t, n) ((mem_groupPositions _ _ _).mpr ⟨ht, hn⟩)
    obtain ⟨m, hrun, hm⟩ := histLoopT_spec smp mb _ [] [] HistMapOf.nil hpos'
    rw [List.nil_append] at hm
    have hm' : HistMapOf m (groupContributions smp g mb) := hm
    have hmem : ∀ h, h ∈ (groupContributions smp g mb).map Prod.fst ↔
        ∃ p ∈ groupPositions smp.config_ g, ∃ w,
          vecGet? mb.output_weights (p.1 * smp.config_.minibatch_size + p.2) = some w ∧
          w ≠ 0 ∧ smp.GetHistory p.1 p.2 mb (smp.arpa_.Order - 1) = some h := by
      intro h
      unfold groupContributions
      simp only [List.mem_map, List.mem_filterMap]
      constructor
      · rintro ⟨⟨h', w⟩, ⟨p, hp, hc⟩, rfl⟩
        exact ⟨p, hp, w, (positionContribution_eq_some smp mb p h' w).mp hc⟩
      · rintro ⟨p, hp, w, hc⟩
        exact ⟨(h, w), ⟨p, hp, (positionContribution_eq_some smp mb p h w).mpr hc⟩, rfl⟩
    by_cases hnil : m = []
    · -- no contribution: the substitute pair
      have hC := hm'.eq_nil_iff.mp hnil
      refine ⟨[([], 1)], ?_, by simp, ?_, fun _ => rfl⟩
      · unfold RnnlmMinibatchSampler.GetHistoriesForGroup
        rw [if_pos hO]
        dsimp only
        rw [hrun]
        simp [hnil]
      · rintro ⟨p, hp, w, hw, hw0⟩
        exfalso
        obtain ⟨w', hw', _, hh⟩ := hpos p hp
        rw [hw] at hw'
        cases hw'
        obtain ⟨h, hh⟩ := hh hw0
        have := (hmem h).mpr ⟨p, hp, w, hw, hw0, hh⟩
        rw [hC] at this
        simp at this
    · refine ⟨m, ?_, hm'.1, ?_, ?_⟩
      · unfold RnnlmMinibatchSampler.GetHistoriesForGroup
        rw [if_pos hO]
        dsimp only
        rw [hrun]
        simp [hnil]
      · intro _ h x
        rw [hm'.mem_iff, hmem]
      · intro hall
        exfalso
        apply hnil
        rw [hm'.eq_nil_iff]
        unfold groupContributions
        rw [List.filterMap_eq_nil_iff]
        intro p hp
        simp [positionContribution, hall p hp]
  · intro w1 w2 h1 h2
    have e1 : intRange (0 * 2) ((0 + 1) * 2) = [0, 1] := by decide
    have e2 : intRange 0 2 = [0, 1] := by decide
    have n1 : w1 ≠ 0 := ne_of_gt h1
    have n2 : w2 ≠ 0 := ne_of_gt h2
    simp [RnnlmMinibatchSampler.GetHistoriesForGroup, smallSampler, smallConfig, e1, e2,
      histLoopT, histLoopN, vecGet?, RnnlmMinibatchSampler.GetHistory, historyLoop,
      addHistWeight, h1.le, h2.le, n1, n2, List.range_succ]

theorem GetHistoriesForGroup_spec_witness :
    (0 < smallSampler.arpa_.Order ∧
      ∀ p ∈ groupPositions smallSampler.config_ 0, ∃ w,
        vecGet? smallBatch.output_weights (p.1 * smallSampler.config_.minibatch_size + p.2) =
          some w ∧
        0 ≤ w ∧ (w ≠ 0 → ∃ h, smallSampler.GetHistory p.1 p.2 smallBatch
          (smallSampler.arpa_.Order - 1) = some h)) ∧
    smallSampler.GetHistoriesForGroup 0 smallBatch = some [([1], 1), ([1, 3], 1)] ∧
    ∃ hw, smallSampler.GetHistoriesForGroup 0 smallBatch = some hw ∧
      (hw.map Prod.fst).Nodup := by
  have hpos : ∀ p ∈ groupPositions smallSampler.config_ 0, ∃ w,
      vecGet? smallBatch.output_weights (p.1 * smallSampler.config_.minibatch_size + p.2) =
        some w ∧
      0 ≤ w ∧ (w ≠ 0 → ∃ h, smallSampler.GetHistory p.1 p.2 smallBatch
        (smallSampler.arpa_.Order - 1) = some h) := by
    have hps : groupPositions smallSampler.config_ 0 = [(0, 0), (1, 0)] := by decide
    rw [hps]
    intro p hp
    simp only [List.mem_cons, List.mem_singleton, List.not_mem_nil, or_false] at hp
    rcases hp with rfl | rfl
    · exact ⟨1, by decide, by decide, fun _ => ⟨[1], by decide⟩⟩
    · exact ⟨1, by decide, by decide, fun _ => ⟨[1, 3], by decide⟩⟩
  have e1 : intRange (0 * 2) ((0 + 1) * 2) = [0, 1] := by decide
  have e2 : intRange 0 1 = [0] := by decide
  refine ⟨⟨by decide, hpos⟩, ?_, ?_⟩
  · simp [RnnlmMinibatchSampler.GetHistoriesForGroup, smallSampler, smallConfig, smallBatch,
      e1, e2, histLoopT, histLoopN, vecGet?, RnnlmMinibatchSampler.GetHistory, historyLoop,
      addHistWeight, List.range_succ]
  obtain ⟨hw, h1, h2, _⟩ := GetHistoriesForGroup_spec.1 smallSampler 0 smallBatch
    (by decide) hpos
  exact ⟨hw, h1, h2⟩

/-! ## The constructor of `RnnlmMinibatchSampler` -/

theorem vecSet?_eq_some {α : Type} {v v' : List α} {i : Int} {x : α}
    (h : vecSet? v i x = some v') : v' = v.set i.toNat x ∧ 0 ≤ i ∧ i < (v.length : Int) := by
  unfold vecSet? at h
  split at h
  · rename_i hi
    exact ⟨(Option.some.inj h).symm, hi.1, hi.2⟩
  · cases h

theorem scaleLoop_snd (scale : ℚ) (l : List ℚ) :
    (scaleLoop scale l).2 = l.map (fun p => p * scale) := by
  induction l with
  | nil => rfl
  | cons p rest ih => simp [scaleLoop, ih]

theorem scaleLoop_fst (scale : ℚ) (l : List ℚ) :
    (scaleLoop scale l).1 = ((l.filter (fun p => p ≠ 0)).length : Int) := by
  induction l with
  | nil => rfl
  | cons p rest ih =>
    simp only [scaleLoop, ih]
    by_cases hp : p = 0
    · simp [hp]
    · simp [hp]
      ring

theorem ite_none_eq_some {α : Type} (c : Prop) [Decidable c] {r x : α}
    (h : (if c then none else some r) = some x) : x = r := by
  split at h
  · cases h
  · exact (Option.some.inj h).symm

/-- After the override both reserved ids hold `special_symbol_prob`. -/
theorem modifiedUnigram_reserved (cfg : RnnlmEgsConfig) (arpa : ArpaForSampling)
    (ud : List ℚ) (h : modifiedUnigram cfg arpa = some ud) :
    vecGet? ud cfg.bos_symbol = some cfg.special_symbol_prob ∧
    vecGet? ud cfg.brk_symbol = some cfg.special_symbol_prob := by
  unfold modifiedUnigram at h
  dsimp only at h
  split at h
  · split at h
    · cases h
    · split at h
      · split at h
        · split at h
          · cases h
          · rename_i ud1 hset1
            obtain ⟨e1, a1, a2⟩ := vecSet?_eq_some hset1
            obtain ⟨e2, b1, b2⟩ := vecSet?_eq_some h
            have hbrk : vecGet? ud cfg.brk_symbol = some cfg.special_symbol_prob := by
              rw [e2]; exact vecGet?_set_self _ _ b1 b2
            refine ⟨?_, hbrk⟩
            by_cases hbb : cfg.bos_symbol = cfg.brk_symbol
            · rw [hbb]; exact hbrk
            · rw [e2, vecGet?_set_ne _ _ b1 hbb, e1]
              exact vecGet?_set_self _ _ a1 a2
        · cases h
      · cases h
  · cases h

theorem renormalisedUnigram_eq (cfg : RnnlmEgsConfig) (arpa : ArpaForSampling) (ud : List ℚ)
    (h : modifiedUnigram cfg arpa = some ud) :
    renormalisedUnigram cfg arpa = some (scaleLoop (1 / ud.sum) ud) := by
  unfold renormalisedUnigram
  rw [h]

theorem modifiedUnigram_example :
    modifiedUnigram samplerConfig exampleArpa = some [1 / 2, 1 / 4, 1 / 4, 1 / 4, 1 / 4] := by
  simp [modifiedUnigram, samplerConfig, smallConfig, exampleArpa, addUniformMass, vecGet?,
    vecSet?]
  norm_num

/-- **C12.** When the constructor passes its assertions (the modified table `ud` exists) and
the modified table has a positive sum `new_sum`, the table the constructor's renormalisation
loop produces sums to 1 in exact arithmetic, and `bos_symbol` and `brk_symbol` both end with
the probability `special_symbol_prob / new_sum` in it; the constructor returns, and whenever
`num_samples` is not zero and at most the number of nonzero entries, the `Sampler` is built
from exactly this table. -/
theorem construct_renormalised (cfg : RnnlmEgsConfig) (arpa : ArpaForSampling)
    (ud : List ℚ) (h : modifiedUnigram cfg arpa = some ud) (hsum : 0 < ud.sum) :
    ∃ count table, renormalisedUnigram cfg arpa = some (count, table) ∧
      table.sum = 1 ∧
      vecGet? table cfg.bos_symbol = some (cfg.special_symbol_prob / ud.sum) ∧
      vecGet? table cfg.brk_symbol = some (cfg.special_symbol_prob / ud.sum) ∧
      ∃ smp, RnnlmMinibatchSampler.construct cfg arpa = some smp ∧
        (cfg.num_samples ≠ 0 → cfg.num_samples ≤ count → smp.sampler_ = some table) := by
  obtain ⟨hbos, hbrk⟩ := modifiedUnigram_reserved cfg arpa ud h
  have hget : ∀ (i : Int) (x : ℚ), vecGet? ud i = some x →
      vecGet? (scaleLoop (1 / ud.sum) ud).2 i = some (x / ud.sum) := by
    intro i x hx
    rw [scaleLoop_snd]
    unfold vecGet? at hx ⊢
    split
    · rename_i hi
      rw [if_pos hi] at hx
      rw [List.getElem?_map, hx]
      simp [div_eq_mul_inv]
    · rename_i hi
      rw [if_neg hi] at hx
      cases hx
  refine ⟨(scaleLoop (1 / ud.sum) ud).1, (scaleLoop (1 / ud.sum) ud).2,
    renormalisedUnigram_eq cfg arpa ud h, ?_, hget _ _ hbos, hget _ _ hbrk, ?_⟩
  · rw [scaleLoop_snd, List.sum_map_mul_right]
    simp only [List.map_id', one_div]
    exact mul_inv_cancel₀ (ne_of_gt hsum)
  · unfold RnnlmMinibatchSampler.construct
    rw [renormalisedUnigram_eq cfg arpa ud h]
    dsimp only
    refine ⟨_, rfl, ?_⟩
    intro hne hle
    have hcond : ¬ cfg.num_samples > (scaleLoop (1 / ud.sum) ud).1 := not_lt.mpr hle
    rw [if_neg hcond, if_neg hne]

/-- The constructor on `samplerConfig` and `exampleArpa`: the modified table
`[1/2, 1/4, 1/4, 1/4, 1/4]` has sum `3/2`, and the sampler is built from the renormalised
table. -/
theorem construct_example :
    RnnlmMinibatchSampler.construct samplerConfig exampleArpa =
      some { config_ := samplerConfig, arpa_ := exampleArpa,
             sampler_ := some [1 / 3, 1 / 6, 1 / 6, 1 / 6, 1 / 6] } := by
  unfold RnnlmMinibatchSampler.construct
  rw [renormalisedUnigram_eq _ _ _ modifiedUnigram_example]
  simp [scaleLoop, samplerConfig, smallConfig]
  norm_num

theorem construct_renormalised_witness :
    (modifiedUnigram samplerConfig exampleArpa = some [1 / 2, 1 / 4, 1 / 4, 1 / 4, 1 / 4] ∧
      (0 : ℚ) < ([1 / 2, 1 / 4, 1 / 4, 1 / 4, 1 / 4] : List ℚ).sum) ∧
    ∃ count table, renormalisedUnigram samplerConfig exampleArpa = some (count, table) ∧
      table.sum = 1 ∧
      vecGet? table samplerConfig.bos_symbol =
        some (samplerConfig.special_symbol_prob /
          ([1 / 2, 1 / 4, 1 / 4, 1 / 4, 1 / 4] : List ℚ).sum) ∧
      vecGet? table samplerConfig.brk_symbol =
        some (samplerConfig.special_symbol_prob /
          ([1 / 2, 1 / 4, 1 / 4, 1 / 4, 1 / 4] : List ℚ).sum) ∧
      ∃ smp, RnnlmMinibatchSampler.construct samplerConfig exampleArpa = some smp ∧
        (samplerConfig.num_samples ≠ 0 → samplerConfig.num_samples ≤ count →
          smp.sampler_ = some table) :=
  ⟨⟨modifiedUnigram_example, by norm_num⟩,
    construct_renormalised samplerConfig exampleArpa _ modifiedUnigram_example (by norm_num)⟩

/-- **C15.** Let the constructor pass its assertions, `ud` being the modified unigram table.
If the configured `num_samples` exceeds the number of ids with nonzero probability in `ud`,
the constructor returns a sampler without `Sampler` (`sampler_` is `NULL`), and
`SampleForMinibatch` then returns every batch unchanged, in every field.  Conversely, if
`0 < num_samples` and `num_samples` is at most that number, the `Sampler` is built. -/
theorem construct_sampling_switch (cfg : RnnlmEgsConfig) (arpa : ArpaForSampling)
    (ud : List ℚ) (h : modifiedUnigram cfg arpa = some ud) :
    (((ud.filter (fun p => p ≠ 0)).length : Int) < cfg.num_samples →
      ∃ smp, RnnlmMinibatchSampler.construct cfg arpa = some smp ∧ smp.sampler_ = none ∧
        ∀ mb, smp.SampleForMinibatch mb = some mb) ∧
    (0 < cfg.num_samples → cfg.num_samples ≤ ((ud.filter (fun p => p ≠ 0)).length : Int) →
      ∃ smp table, RnnlmMinibatchSampler.construct cfg arpa = some smp ∧
        smp.sampler_ = some table) := by
  constructor
  · intro hgt
    have hcond : cfg.num_samples > (scaleLoop (1 / ud.sum) ud).1 := by
      rw [scaleLoop_fst]; exact hgt
    refine ⟨_, by unfold RnnlmMinibatchSampler.construct
                  rw [renormalisedUnigram_eq cfg arpa ud h], ?_, ?_⟩
    · dsimp only
      rw [if_pos hcond]
      rfl
    · intro mb
      unfold RnnlmMinibatchSampler.SampleForMinibatch
      dsimp only
      rw [if_pos hcond]
      rfl
  · intro hpos hle
    have hcond : ¬ cfg.num_samples > (scaleLoop (1 / ud.sum) ud).1 := by
      rw [scaleLoop_fst]; omega
    refine ⟨_, (scaleLoop (1 / ud.sum) ud).2,
      by unfold RnnlmMinibatchSampler.construct
         rw [renormalisedUnigram_eq cfg arpa ud h], ?_⟩
    dsimp only
    rw [if_neg hcond, if_neg (by omega)]

theorem modifiedUnigram_oversampled :
    modifiedUnigram { samplerConfig with num_samples := 6 } exampleArpa =
      some [1 / 2, 1 / 4, 1 / 4, 1 / 4, 1 / 4] := by
  simp [modifiedUnigram, samplerConfig, smallConfig, exampleArpa, addUniformMass, vecGet?,
    vecSet?]
  norm_num

theorem construct_sampling_switch_witness :
    (modifiedUnigram { samplerConfig with num_samples := 6 } exampleArpa =
        some [1 / 2, 1 / 4, 1 / 4, 1 / 4, 1 / 4] ∧
      ((([1 / 2, 1 / 4, 1 / 4, 1 / 4, 1 / 4] : List ℚ).filter (fun p => p ≠ 0)).length : Int) <
        ({ samplerConfig with num_samples := 6 } : RnnlmEgsConfig).num_samples) ∧
    ∃ smp, RnnlmMinibatchSampler.construct { samplerConfig with num_samples := 6 } exampleArpa =
        some smp ∧ smp.sampler_ = none ∧ ∀ mb, smp.SampleForMinibatch mb = some mb :=
  ⟨⟨modifiedUnigram_oversampled, by simp⟩,
    (construct_sampling_switch { samplerConfig with num_samples := 6 } exampleArpa _
      modifiedUnigram_oversampled).1 (by simp)⟩

theorem addMassLoop_spec (x : ℚ) (l : List Int) : ∀ (ud : List ℚ), l.Nodup →
    (∀ i ∈ l, 0 ≤ i ∧ i < (ud.length : Int)) →
    ∃ ud', addMassLoop x l ud = some ud' ∧ ud'.length = ud.length ∧
      ∀ i, vecGet? ud' i =
        if i ∈ l then (vecGet? ud i).map (fun p => p + x) else vecGet? ud i := by
  induction l with
  | nil =>
    intro ud _ _
    exact ⟨ud, rfl, rfl, fun i => by simp⟩
  | cons j rest ih =>
    intro ud hnd hb
    obtain ⟨hj0, hj1⟩ := hb j (List.mem_cons_self _ _)
    have hlt : j.toNat < ud.length := by omega
    have hget : vecGet? ud j = some ud[j.toNat] := by
      rw [vecGet?_nonneg _ hj0, List.getElem?_eq_getElem hlt]
    have hset : vecSet? ud j (ud[j.toNat] + x) = some (ud.set j.toNat (ud[j.toNat] + x)) := by
      unfold vecSet?
      rw [if_pos ⟨hj0, hj1⟩]
    have hnd' := List.nodup_cons.mp hnd
    obtain ⟨ud', h1, h2, h3⟩ := ih (ud.set j.toNat (ud[j.toNat] + x)) hnd'.2
      (fun i hi => by
        have := hb i (List.mem_cons_of_mem _ hi)
        simpa using this)
    refine ⟨ud', ?_, ?_, ?_⟩
    · simp only [addMassLoop, hget, hset]
      exact h1
    · simpa using h2
    · intro i
      rw [h3 i]
      by_cases hij : i = j
      · subst hij
        rw [if_neg hnd'.1, if_pos (List.mem_cons_self _ _),
          vecGet?_set_self _ _ hj0 hj1, hget]
        rfl
      · rw [vecGet?_set_ne _ _ hj0 hij]
        simp [hij]

theorem intRange_nodup (a b : Int) : (intRange a b).Nodup := by
  unfold intRange
  refine List.Nodup.map ?_ (List.nodup_range _)
  intro k1 k2 h
  simpa using h

/-- When `unigram_prob_mass > 0`, the smoothing step of the constructor (lines 42-46)
returns a table of the same size in which every id from `1` to `num_words - 1`, `bos_symbol`
and `brk_symbol` included, has had the same amount `unigram_prob_mass / (num_words - 1)` added
to its probability, and id `0` (like every index outside the table) is unchanged. -/
theorem addUniformMass_spec (cfg : RnnlmEgsConfig) (ud : List ℚ)
    (h : cfg.unigram_prob_mass > 0) :
    ∃ ud', addUniformMass cfg ud = some ud' ∧ ud'.length = ud.length ∧
      ∀ i, vecGet? ud' i =
        if 1 ≤ i then
          (vecGet? ud i).map
            (fun p => p + cfg.unigram_prob_mass / (((ud.length : Int) - 1 : Int) : ℚ))
        else vecGet? ud i := by
  obtain ⟨ud', h1, h2, h3⟩ :=
    addMassLoop_spec (cfg.unigram_prob_mass / (((ud.length : Int) - 1 : Int) : ℚ))
      (intRange 1 (ud.length : Int)) ud (intRange_nodup _ _)
      (fun i hi => by
        have := mem_intRange.mp hi
        omega)
  refine ⟨ud', ?_, h2, ?_⟩
  · unfold addUniformMass
    simp only [if_pos h]
    exact h1
  · intro i
    rw [h3 i]
    by_cases hi : 1 ≤ i
    · by_cases hlt : i < (ud.length : Int)
      · rw [if_pos (mem_intRange.mpr ⟨hi, hlt⟩), if_pos hi]
      · have hnone : vecGet? ud i = none := by
          cases hg : vecGet? ud i with
          | none => rfl
          | some p => exact absurd (vecGet?_lt_length hg).2 hlt
        rw [hnone]
        simp
    · rw [if_neg (fun hm => hi (mem_intRange.mp hm).1), if_neg hi]

theorem addUniformMass_spec_witness :
    massConfig.unigram_prob_mass > 0 ∧
    ∃ ud', addUniformMass massConfig exampleArpa.unigram = some ud' ∧
      ud'.length = exampleArpa.unigram.length ∧
      ∀ i, vecGet? ud' i =
        if 1 ≤ i then
          (vecGet? exampleArpa.unigram i).map
            (fun p => p + massConfig.unigram_prob_mass /
              (((exampleArpa.unigram.length : Int) - 1 : Int) : ℚ))
        else vecGet? exampleArpa.unigram i :=
  ⟨by norm_num [massConfig],
    addUniformMass_spec massConfig exampleArpa.unigram (by norm_num [massConfig])⟩

theorem addUniformMass_example :
    addUniformMass massConfig exampleArpa.unigram =
      some [1 / 2, 1 / 10, 1 / 10, 7 / 20, 7 / 20] := by
  have e1 : intRange 1 5 = [1, 2, 3, 4] := by decide
  simp [addUniformMass, massConfig, samplerConfig, smallConfig, exampleArpa, addMassLoop, e1,
    vecGet?, vecSet?]
  norm_num

/-- The smoothing step at a concrete input: with `unigram_prob_mass = 2/5` on the five-id
table `[1/2, 0, 0, 1/4, 1/4]` (`bos = 1`, `brk = 2`), the smoothing step gives
`[1/2, 1/10, 1/10, 7/20, 7/20]`: id `0` is not increased while ids `3` and `4` are, and
`bos` and `brk` each receive `1/10`.  So there is no amount `d` by which every id other than
`bos` and `brk` is increased with `bos` and `brk` unchanged -- not even the first half holds --
and the constructor then fails its check on the reserved ids, although the input table gave
them probability `0`. -/
theorem addUniformMass_not_over_non_reserved :
    addUniformMass massConfig exampleArpa.unigram =
      some [1 / 2, 1 / 10, 1 / 10, 7 / 20, 7 / 20] ∧
    vecGet? exampleArpa.unigram massConfig.bos_symbol = some 0 ∧
    vecGet? exampleArpa.unigram massConfig.brk_symbol = some 0 ∧
    modifiedUnigram massConfig exampleArpa = none ∧
    ¬ ∃ (d : ℚ) (ud' : List ℚ), addUniformMass massConfig exampleArpa.unigram = some ud' ∧
      ∀ i, i ≠ massConfig.bos_symbol → i ≠ massConfig.brk_symbol →
        vecGet? ud' i = (vecGet? exampleArpa.unigram i).map (fun p => p + d) := by
  refine ⟨addUniformMass_example, by decide, by decide, ?_, ?_⟩
  · unfold modifiedUnigram
    rw [addUniformMass_example]
    simp [massConfig, samplerConfig, smallConfig, exampleArpa, vecGet?]
    norm_num
  · rintro ⟨d, ud', h1, h2⟩
    rw [addUniformMass_example] at h1
    cases h1
    have h0 := h2 0 (by decide) (by decide)
    have h3 := h2 3 (by decide) (by decide)
    simp [vecGet?, exampleArpa] at h0 h3
    rw [h0] at h3
    norm_num at h3

/-- **C13.** With smoothing on (`unigram_prob_mass > 0`) the constructor adds the share
`unigram_prob_mass / (num_words - 1)` to `bos_symbol` as well (for `bos_symbol ≥ 1`, an id of
the table), and then fails its own check of lines 51-52 whenever that share is not below
`1e-10`, however small the probability `p ≥ 0` the input table gave `bos_symbol`: the
constructor does not return. -/
theorem construct_rejects_smoothed_table (cfg : RnnlmEgsConfig) (arpa : ArpaForSampling)
    (p : ℚ) (hmass : cfg.unigram_prob_mass > 0) (hbos : 1 ≤ cfg.bos_symbol)
    (hp : vecGet? arpa.unigram cfg.bos_symbol = some p) (hp0 : 0 ≤ p)
    (hshare : 1 / 10000000000 ≤
      cfg.unigram_prob_mass / (((arpa.unigram.length : Int) - 1 : Int) : ℚ)) :
    (∃ ud, addUniformMass cfg arpa.unigram = some ud ∧
      vecGet? ud cfg.bos_symbol =
        some (p + cfg.unigram_prob_mass / (((arpa.unigram.length : Int) - 1 : Int) : ℚ))) ∧
    modifiedUnigram cfg arpa = none ∧
    RnnlmMinibatchSampler.construct cfg arpa = none := by
  obtain ⟨ud, u1, _, u3⟩ := addUniformMass_spec cfg arpa.unigram hmass
  have hb : vecGet? ud cfg.bos_symbol =
      some (p + cfg.unigram_prob_mass / (((arpa.unigram.length : Int) - 1 : Int) : ℚ)) := by
    rw [u3, if_pos hbos, hp]
    rfl
  have hmod : modifiedUnigram cfg arpa = none := by
    unfold modifiedUnigram
    dsimp only
    split
    · rw [u1]
      dsimp only
      rw [hb]
      cases hk : vecGet? ud cfg.brk_symbol with
      | none => rfl
      | some q =>
        dsimp only
        rw [if_neg]
        rintro ⟨h1, _⟩
        have : p + cfg.unigram_prob_mass / (((arpa.unigram.length : Int) - 1 : Int) : ℚ) <
            1 / 10000000000 := h1
        linarith
    · rfl
  refine ⟨⟨ud, u1, hb⟩, hmod, ?_⟩
  unfold RnnlmMinibatchSampler.construct renormalisedUnigram
  rw [hmod]

theorem construct_rejects_smoothed_table_witness :
    (massConfig.unigram_prob_mass > 0 ∧ 1 ≤ massConfig.bos_symbol ∧
      vecGet? exampleArpa.unigram massConfig.bos_symbol = some 0 ∧ (0 : ℚ) ≤ 0 ∧
      1 / 10000000000 ≤
        massConfig.unigram_prob_mass / (((exampleArpa.unigram.length : Int) - 1 : Int) : ℚ)) ∧
    (∃ ud, addUniformMass massConfig exampleArpa.unigram = some ud ∧
      vecGet? ud massConfig.bos_symbol =
        some (0 + massConfig.unigram_prob_mass /
          (((exampleArpa.unigram.length : Int) - 1 : Int) : ℚ))) ∧
    modifiedUnigram massConfig exampleArpa = none ∧
    RnnlmMinibatchSampler.construct massConfig exampleArpa = none :=
  ⟨⟨by norm_num [massConfig], by decide, by decide, le_refl _,
      by norm_num [massConfig, exampleArpa]⟩,
    construct_rejects_smoothed_table massConfig exampleArpa 0 (by norm_num [massConfig])
      (by decide) (by decide) (le_refl _) (by norm_num [massConfig, exampleArpa])⟩

/-- **C14.** With sampling enabled, `SampleForMinibatch` aborts on every batch whenever
`0 < sample_group_size < chunk_length`, whether or not `sample_group_size` divides
`chunk_length`: its assertion tests `sample_group_size % chunk_length == 0`, with the operands
the other way round. -/
theorem SampleForMinibatch_rejects_divisor (smp : RnnlmMinibatchSampler) (mb : RnnlmMinibatch)
    (table : List ℚ) (hs : smp.sampler_ = some table)
    (h0 : 0 < smp.config_.sample_group_size)
    (h1 : smp.config_.sample_group_size < smp.config_.chunk_length) :
    smp.SampleForMinibatch mb = none := by
  have hmod : Int.tmod smp.config_.sample_group_size smp.config_.chunk_length ≠ 0 := by
    rw [Int.tmod_eq_of_lt (le_of_lt h0) h1]
    omega
  unfold RnnlmMinibatchSampler.SampleForMinibatch
  rw [hs]
  dsimp only
  rw [if_neg (fun h => hmod h.2.2.2.1)]

theorem SampleForMinibatch_rejects_divisor_witness :
    (groupSampler.sampler_ = some [0, 0, 0, 1 / 4, 1 / 4, 1 / 4, 0, 0, 0, 1 / 4] ∧
      0 < groupSampler.config_.sample_group_size ∧
      groupSampler.config_.sample_group_size < groupSampler.config_.chunk_length) ∧
    (groupSampler.config_.chunk_length = 4 ∧ groupSampler.config_.sample_group_size = 2 ∧
      groupBatch.chunk_length = groupSampler.config_.chunk_length ∧
      groupBatch.num_sequences = groupSampler.config_.minibatch_size ∧
      (groupBatch.input_words.length : Int) =
        groupSampler.config_.chunk_length * groupSampler.config_.minibatch_size) ∧
    groupSampler.SampleForMinibatch groupBatch = none :=
  ⟨⟨rfl, by decide, by decide⟩, ⟨rfl, rfl, rfl, rfl, by decide⟩,
    SampleForMinibatch_rejects_divisor groupSampler groupBatch _ rfl (by decide) (by decide)⟩

set_option maxRecDepth 100000 in
/-- **C17.** `WriteMinibatch` resets nothing: its body is empty, and `CreateMinibatch`, through
which a slot-set is materialised, does not write the slot bookkeeping either.  On a creator
whose slot 1 holds a chunk of length 3 (two slots of capacity 8), after `WriteMinibatch` slot 1
still holds the chunk, only slot 0 is listed as empty, slot 1 is listed with 5 positions left,
and `ProportionFull()` is `3/16`, not `0`; materialising the slot-set with `CreateMinibatch`
returns the same slot-set. -/
theorem WriteMinibatch_keeps_slots :
    exampleCreator.WriteMinibatch.slots.eg_chunks_ = [[], [exampleChunk 3]] ∧
    exampleCreator.WriteMinibatch.slots.empty_eg_chunks_ = [0] ∧
    exampleCreator.WriteMinibatch.slots.partial_eg_chunks_ = [(1, 5)] ∧
    SingleMinibatchCreator.ProportionFull exampleConfig exampleCreator.WriteMinibatch.slots =
      some (3 / 16) ∧
    (SingleMinibatchCreator.CreateMinibatch exampleConfig exampleCreator.slots exampleBatch).map
      Prod.fst = some exampleCreator.slots := by
  refine ⟨rfl, rfl, rfl, ?_, by decide⟩
  have hnum : SingleMinibatchCreator.ProportionFullNum exampleConfig
      exampleCreator.WriteMinibatch.slots = 3 := by decide
  have hden : wrapInt32 (exampleConfig.minibatch_size * exampleConfig.chunk_length) = 16 := by
    decide
  unfold SingleMinibatchCreator.ProportionFull
  simp only [hnum, hden]
  norm_num

theorem contextSum_cons (c : SequenceChunk) (cs : List SequenceChunk) :
    contextSum (c :: cs) = c.context_begin + contextSum cs := by
  simp [contextSum]

theorem positivesBefore_nonneg (cs : List SequenceChunk) (i : Nat) :
    0 ≤ positivesBefore cs i := by
  unfold positivesBefore; omega

theorem positivesBefore_zero (cs : List SequenceChunk) : positivesBefore cs 0 = 0 := by
  simp [positivesBefore]

theorem positivesBefore_succ (c : SequenceChunk) (cs : List SequenceChunk) (i : Nat) :
    positivesBefore (c :: cs) (i + 1) =
      (if c.context_begin > 0 then 1 else 0) + positivesBefore cs i := by
  unfold positivesBefore
  rw [List.take_succ_cons, List.filter_cons]
  by_cases h : c.context_begin > 0
  · simp [h]; omega
  · simp [h]

/-- A round that changes nothing leaves the chunks and the capacity as they are, and there is
no capacity left or no chunk has context to gain. -/
theorem growRound_exit (cs : List SequenceChunk) (extra : Int)
    (h : (growRound cs extra).1 = false) :
    (growRound cs extra).2.1 = cs ∧ (growRound cs extra).2.2 = extra ∧
      (extra ≤ 0 ∨ ∀ c ∈ cs, c.context_begin ≤ 0) := by
  induction cs with
  | nil => simp [growRound]
  | cons c cs ih =>
    unfold growRound at h ⊢
    by_cases hc : c.context_begin > 0 ∧ extra > 0
    · rw [if_pos hc] at h
      cases h
    · rw [if_neg hc] at h ⊢
      obtain ⟨i1, i2, i3⟩ := ih h
      refine ⟨by simp only [i1], i2, ?_⟩
      rcases i3 with i3 | i3
      · exact Or.inl i3
      · by_cases he : extra ≤ 0
        · exact Or.inl he
        · refine Or.inr (fun x hx => ?_)
          rcases List.mem_cons.mp hx with rfl | hx
          · omega
          · exact i3 x hx

/-- One round lowers the sum of the `context_begin` by exactly the capacity it uses. -/
theorem growRound_contextSum (cs : List SequenceChunk) (extra : Int) :
    contextSum (growRound cs extra).2.1 + extra = contextSum cs + (growRound cs extra).2.2 := by
  induction cs generalizing extra with
  | nil => simp [growRound]
  | cons c cs ih =>
    unfold growRound
    split
    · have := ih (extra - 1)
      simp only [contextSum_cons]
      omega
    · have := ih extra
      simp only [contextSum_cons]
      omega

/-- On exit of the growth loop there is no capacity left or no chunk has context to gain, and
the sum of the `context_begin` has been lowered by the capacity used. -/
theorem growLoop_exit (fuel : Nat) (cs : List SequenceChunk) (extra : Int)
    (cs' : List SequenceChunk) (extra' : Int)
    (h : growLoop fuel cs extra = some (cs', extra')) :
    (extra' ≤ 0 ∨ ∀ c ∈ cs', c.context_begin ≤ 0) ∧
      contextSum cs' + extra = contextSum cs + extra' := by
  induction fuel generalizing cs extra with
  | zero => simp [growLoop] at h
  | succ fuel ih =>
    unfold growLoop at h
    by_cases hch : (growRound cs extra).1 = true
    · simp only [hch, if_true] at h
      obtain ⟨e1, e2⟩ := ih _ _ h
      have := growRound_contextSum cs extra
      exact ⟨e1, by omega⟩
    · simp only [hch] at h
      have hf : (growRound cs extra).1 = false := by simpa using hch
      obtain ⟨i1, i2, i3⟩ := growRound_exit cs extra hf
      simp only [Bool.false_eq_true, if_false, Option.some.injEq, Prod.mk.injEq] at h
      obtain ⟨h1, h2⟩ := h
      rw [i1] at h1
      rw [i2] at h2
      subst h1 h2
      exact ⟨i3, rfl⟩

/-- Within one round the chunks are visited in slot order and each is extended by at most one
position: chunk `i` is extended exactly when its `context_begin` is positive and fewer than
`extra_length_available` chunks before it had a positive `context_begin`. -/
theorem growRound_order (cs : List SequenceChunk) (extra : Int) (i : Nat) :
    (growRound cs extra).2.1[i]? =
      cs[i]?.map (fun c =>
        if c.context_begin > 0 ∧ positivesBefore cs i < extra then
          { c with context_begin := c.context_begin - 1 }
        else c) := by
  induction cs generalizing extra i with
  | nil => simp [growRound]
  | cons c cs ih =>
    unfold growRound
    by_cases hc : c.context_begin > 0 ∧ extra > 0
    · rw [if_pos hc]
      cases i with
      | zero => simp [positivesBefore_zero, hc.1, hc.2]
      | succ i =>
        simp only [List.getElem?_cons_succ, ih, positivesBefore_succ, if_pos hc.1]
        congr 1
        funext x
        by_cases hx : x.context_begin > 0 ∧ positivesBefore cs i < extra - 1
        · rw [if_pos hx, if_pos ⟨hx.1, by omega⟩]
        · rw [if_neg hx, if_neg (fun h => hx ⟨h.1, by omega⟩)]
    · rw [if_neg hc]
      cases i with
      | zero =>
        simp only [List.getElem?_cons_zero, Option.map_some', positivesBefore_zero]
        rw [if_neg (fun h => hc ⟨h.1, h.2⟩)]
      | succ i =>
        simp only [List.getElem?_cons_succ, ih, positivesBefore_succ]
        congr 1
        funext x
        have hp := positivesBefore_nonneg cs i
        by_cases hcb : c.context_begin > 0
        · have he : ¬ extra > 0 := fun h => hc ⟨hcb, h⟩
          rw [if_pos hcb, if_neg (fun h => by omega), if_neg (fun h => by omega)]
        · rw [if_neg hcb, zero_add]

theorem contextSum_nonneg {cs : List SequenceChunk} (h : ∀ c ∈ cs, 0 ≤ c.context_begin) :
    0 ≤ contextSum cs := by
  induction cs with
  | nil => simp [contextSum]
  | cons c cs ih =>
    rw [contextSum_cons]
    have := h c (List.mem_cons_self _ _)
    have := ih (fun x hx => h x (List.mem_cons_of_mem _ hx))
    omega

theorem contextSum_eq_zero {cs : List SequenceChunk} (h : ∀ c ∈ cs, c.context_begin = 0) :
    contextSum cs = 0 := by
  induction cs with
  | nil => simp [contextSum]
  | cons c cs ih =>
    rw [contextSum_cons, h c (List.mem_cons_self _ _),
      ih (fun x hx => h x (List.mem_cons_of_mem _ hx))]
    rfl

/-- **C18.** For a slot of well-formed chunks whose lengths sum to at most `chunk_length`, the
left-context growth loop of `CreateMinibatchOneSequence` terminates (within
`extra_length_available + 1` rounds) with chunks `grown` and leftover capacity `extra`; every
grown chunk has the token buffer, weight, `begin` and `end` of the chunk it comes from and a
`context_begin` that is not larger and not negative; on exit the leftover capacity is `0` or
every chunk has `context_begin = 0`; the `context_begin` values were lowered in total by
`min(initial leftover capacity, sum of the initial context_begin values)`; and in every round
(`growRound`) the chunks are taken in slot order and extended by one position each: chunk `i`
is extended exactly when its `context_begin` is positive and fewer chunks before it had a
positive `context_begin` than there was capacity at the start of the round. -/
theorem growth_loop_spec (cfg : RnnlmEgsConfig) (cs : List SequenceChunk)
    (hwf : ∀ c ∈ cs, c.WellFormed) (hlen : totalLength cs ≤ cfg.chunk_length) :
    ∃ grown extra,
      growLoop ((cfg.chunk_length - totalLength cs).toNat + 1) cs
        (cfg.chunk_length - totalLength cs) = some (grown, extra) ∧
      grownChunks cfg cs = some grown ∧
      List.Forall₂ SequenceChunk.ExtendedFrom grown cs ∧
      (∀ c ∈ grown, 0 ≤ c.context_begin) ∧
      (extra = 0 ∨ ∀ c ∈ grown, c.context_begin = 0) ∧
      contextSum cs - contextSum grown =
        min (cfg.chunk_length - totalLength cs) (contextSum cs) ∧
      ∀ (round : List SequenceChunk) (avail : Int) (i : Nat),
        (growRound round avail).2.1[i]? =
          round[i]?.map (fun c =>
            if c.context_begin > 0 ∧ positivesBefore round i < avail then
              { c with context_begin := c.context_begin - 1 }
            else c) := by
  obtain ⟨grown, extra, e1, e2, e3, e4⟩ :=
    growLoop_spec ((cfg.chunk_length - totalLength cs).toNat + 1) cs
      (cfg.chunk_length - totalLength cs) (by omega) (by omega)
  have gwf := forall₂_extendedFrom_wellFormed e2 hwf
  have gnn : ∀ c ∈ grown, 0 ≤ c.context_begin := fun c hc => (gwf c hc).1
  obtain ⟨x1, x2⟩ := growLoop_exit _ _ _ _ _ e1
  have hexit : extra = 0 ∨ ∀ c ∈ grown, c.context_begin = 0 := by
    rcases x1 with x1 | x1
    · exact Or.inl (by omega)
    · exact Or.inr (fun c hc => le_antisymm (x1 c hc) (gnn c hc))
  refine ⟨grown, extra, e1, by simp [grownChunks, hlen, e1], e2, gnn, hexit, ?_,
    fun round avail i => growRound_order round avail i⟩
  have hg := contextSum_nonneg gnn
  rcases hexit with h0 | h0
  · omega
  · have := contextSum_eq_zero h0
    omega

theorem growth_loop_spec_witness :
    ((∀ c ∈ exampleSlot, c.WellFormed) ∧ totalLength exampleSlot ≤ exampleConfig.chunk_length) ∧
    ∃ grown extra,
      growLoop ((exampleConfig.chunk_length - totalLength exampleSlot).toNat + 1) exampleSlot
        (exampleConfig.chunk_length - totalLength exampleSlot) = some (grown, extra) ∧
      grownChunks exampleConfig exampleSlot = some grown ∧
      List.Forall₂ SequenceChunk.ExtendedFrom grown exampleSlot ∧
      (∀ c ∈ grown, 0 ≤ c.context_begin) ∧
      (extra = 0 ∨ ∀ c ∈ grown, c.context_begin = 0) ∧
      contextSum exampleSlot - contextSum grown =
        min (exampleConfig.chunk_length - totalLength exampleSlot) (contextSum exampleSlot) ∧
      ∀ (round : List SequenceChunk) (avail : Int) (i : Nat),
        (growRound round avail).2.1[i]? =
          round[i]?.map (fun c =>
            if c.context_begin > 0 ∧ positivesBefore round i < avail then
              { c with context_begin := c.context_begin - 1 }
            else c) :=
  ⟨⟨by decide, by decide⟩, growth_loop_spec exampleConfig exampleSlot (by decide) (by decide)⟩

/-- The first `Set` call of the loop over the chunks of a slot, if there is one, has
`bos_symbol` or `brk_symbol` as its input word: it is the call for `i = context_begin` of the
first chunk that has a position. -/
theorem slotCalls_head (cfg : RnnlmEgsConfig) (cs : List SequenceChunk) (pos : Int)
    (calls : List SetCall) (pos' : Int) (h : slotCalls cfg cs pos = some (calls, pos'))
    (call : SetCall) (hcall : calls[0]? = some call) :
    call.input_word = cfg.bos_symbol ∨ call.input_word = cfg.brk_symbol := by
  induction cs generalizing pos calls pos' with
  | nil =>
    simp only [slotCalls, Option.some.injEq, Prod.mk.injEq] at h
    rw [← h.1] at hcall
    simp at hcall
  | cons chunk cs ih =>
    unfold slotCalls at h
    by_cases hlt : chunk.context_begin < chunk.end_
    · rw [intRange_of_lt hlt] at h
      unfold chunkCalls at h
      cases h1 : chunkCallAt cfg chunk chunk.context_begin pos with
      | none => simp [h1] at h
      | some c0 =>
        rw [h1] at h
        dsimp only at h
        cases h2 : chunkCalls cfg chunk (intRange (chunk.context_begin + 1) chunk.end_)
            (pos + 1) with
        | none => simp [h2] at h
        | some r =>
          obtain ⟨rest, p1⟩ := r
          rw [h2] at h
          dsimp only at h
          cases h3 : slotCalls cfg cs p1 with
          | none => simp [h3] at h
          | some r' =>
            obtain ⟨rest', p2⟩ := r'
            rw [h3] at h
            simp only [Option.some.injEq, Prod.mk.injEq] at h
            rw [← h.1] at hcall
            simp only [List.cons_append, List.getElem?_cons_zero, Option.some.injEq] at hcall
            subst hcall
            obtain ⟨_, _, _, s1, s2, _⟩ := chunkCallAt_sound cfg chunk _ pos c0 h1
            by_cases hz : chunk.context_begin = 0
            · exact Or.inl (s1 rfl hz)
            · exact Or.inr (s2 rfl hz)
    · rw [intRange_of_le (by omega)] at h
      simp only [chunkCalls] at h
      cases h3 : slotCalls cfg cs pos with
      | none => simp [h3] at h
      | some r' =>
        obtain ⟨rest', p2⟩ := r'
        rw [h3] at h
        simp only [Option.some.injEq, Prod.mk.injEq, List.nil_append] at h
        rw [← h.1] at hcall
        exact ih pos rest' p2 h3 hcall

/-- The first of all `Set` calls of a slot has `bos_symbol` or `brk_symbol` as its input word,
whether it comes from a chunk or from the padding. -/
theorem allCalls_head (cfg : RnnlmEgsConfig) (cs : List SequenceChunk) (calls : List SetCall)
    (h : allCalls cfg cs = some calls) (call : SetCall) (hcall : vecGet? calls 0 = some call) :
    call.input_word = cfg.bos_symbol ∨ call.input_word = cfg.brk_symbol := by
  unfold allCalls at h
  cases h1 : slotCalls cfg cs 0 with
  | none => simp [h1] at h
  | some r =>
    obtain ⟨calls1, p⟩ := r
    simp only [h1, Option.some.injEq] at h
    rw [vecGet?_nonneg _ (le_refl _)] at hcall
    simp only [Int.toNat_zero] at hcall
    rw [← h] at hcall
    cases calls1 with
    | nil =>
      simp only [List.nil_append, paddingCalls, List.getElem?_map] at hcall
      cases hp : (intRange p cfg.chunk_length)[0]? with
      | none => simp [hp] at hcall
      | some q =>
        simp only [hp, Option.map_some', Option.some.injEq] at hcall
        rw [← hcall]
        exact Or.inl rfl
    | cons c0 rest =>
      refine slotCalls_head cfg cs 0 (c0 :: rest) p h1 call ?_
      simpa using hcall

/-- Materialising slot `n`: the function returns, the batch keeps its shape, the input word at
timestep 0 of slot `n` is `bos_symbol` or `brk_symbol`, and the input words at timestep 0 of
the other slots are not touched. -/
theorem CreateMinibatchOneSequence_first (cfg : RnnlmEgsConfig)
    (eg_chunks : List (List SequenceChunk)) (n : Int) (mb : RnnlmMinibatch)
    (this_chunks : List SequenceChunk)
    (hsize : (eg_chunks.length : Int) = cfg.minibatch_size)
    (hslot : vecGet? eg_chunks n = some this_chunks)
    (hwf : ∀ c ∈ this_chunks, c.WellFormed)
    (hlen : totalLength this_chunks ≤ cfg.chunk_length)
    (hcl : 0 < cfg.chunk_length)
    (hmb : mb.Shaped cfg) :
    ∃ grown mb',
      SingleMinibatchCreator.CreateMinibatchOneSequence cfg eg_chunks n mb =
        some (eg_chunks.set n.toNat grown, mb') ∧
      (∀ c ∈ grown, c.WellFormed) ∧
      totalLength grown ≤ cfg.chunk_length ∧
      mb'.Shaped cfg ∧
      (∃ w, vecGet? mb'.input_words n = some w ∧
        (w = cfg.bos_symbol ∨ w = cfg.brk_symbol)) ∧
      ∀ m, 0 ≤ m → m < cfg.minibatch_size → m ≠ n →
        vecGet? mb'.input_words m = vecGet? mb.input_words m := by
  obtain ⟨hn0, hnlen⟩ := vecGet?_lt_length hslot
  obtain ⟨grown, g1, g2, g3⟩ := grownChunks_spec cfg this_chunks hlen
  have gwf := forall₂_extendedFrom_wellFormed g2 hwf
  obtain ⟨calls, a1, a2, a3, _, _⟩ := allCalls_spec cfg grown gwf g3
  have hwn := allCalls_weight_nonneg cfg grown (fun c hc => (gwf c hc).2.2.2.2.le) calls a1
  obtain ⟨mb', r1, r2, r3, r4, _⟩ := runCalls_spec cfg n hn0 (by omega) calls mb 0 (le_refl _)
    (by rw [a3, zero_add, a2]) (by omega) hwn hmb
  have hcallt : ∀ call ∈ calls, 0 ≤ call.t := by
    intro call hc
    have : call.t ∈ calls.map SetCall.t := List.mem_map_of_mem _ hc
    rw [a3] at this
    exact (mem_intRange.mp this).1
  refine ⟨grown, mb', ?_, gwf, g3, r2, ?_, ?_⟩
  · simp only [SingleMinibatchCreator.CreateMinibatchOneSequence, hslot, g1, a1, r1]
  · have hpl : 0 < calls.length := by omega
    have hget : vecGet? calls 0 = some calls[0] := by
      rw [vecGet?_nonneg _ (le_refl _)]
      exact List.getElem?_eq_getElem hpl
    have hmem : calls[0] ∈ calls := List.getElem_mem _
    have ht : calls[0].t = 0 := by
      have h1 : (calls.map SetCall.t)[0]? = some calls[0].t := by
        rw [List.getElem?_map, List.getElem?_eq_getElem hpl]; rfl
      rw [a3, intRange_of_lt hcl] at h1
      simpa using h1.symm
    have h3 := (r3 _ hmem).1
    rw [ht, zero_mul, zero_add] at h3
    exact ⟨_, h3, allCalls_head cfg grown calls a1 _ hget⟩
  · intro m hm0 hmm hne
    refine (r4 m ?_).1
    intro call hc heq
    have ht0 := hcallt call hc
    have hne0 : call.t ≠ 0 := by
      intro hz
      rw [hz, zero_mul, zero_add] at heq
      exact hne heq
    have : 1 * cfg.minibatch_size ≤ call.t * cfg.minibatch_size :=
      mul_le_mul_of_nonneg_right (by omega) (by omega)
    omega

/-- The loop of `CreateMinibatch` over the slots `k, …, minibatch_size - 1`: it returns, and
afterwards the input word at timestep 0 of every slot that was already materialised or is
materialised by the loop is `bos_symbol` or `brk_symbol`. -/
theorem createLoop_first (cfg : RnnlmEgsConfig) (hcl : 0 < cfg.chunk_length) (j : Nat) :
    ∀ (k : Int) (eg_chunks : List (List SequenceChunk)) (mb : RnnlmMinibatch),
      (cfg.minibatch_size - k).toNat = j → 0 ≤ k →
      (eg_chunks.length : Int) = cfg.minibatch_size →
      (∀ l ∈ eg_chunks, ∀ c ∈ l, c.WellFormed) →
      (∀ l ∈ eg_chunks, totalLength l ≤ cfg.chunk_length) →
      mb.Shaped cfg →
      (∀ m, 0 ≤ m → m < k → ∃ w, vecGet? mb.input_words m = some w ∧
        (w = cfg.bos_symbol ∨ w = cfg.brk_symbol)) →
      ∃ egs' mb', createLoop cfg (intRange k cfg.minibatch_size) eg_chunks mb =
          some (egs', mb') ∧ mb'.Shaped cfg ∧
        ∀ m, 0 ≤ m → m < cfg.minibatch_size → ∃ w, vecGet? mb'.input_words m = some w ∧
          (w = cfg.bos_symbol ∨ w = cfg.brk_symbol) := by
  induction j with
  | zero =>
    intro k eg_chunks mb hj hk hsize hwf hfit hmb hdone
    rw [intRange_of_le (by omega)]
    exact ⟨eg_chunks, mb, rfl, hmb, fun m h0 h1 => hdone m h0 (by omega)⟩
  | succ j ih =>
    intro k eg_chunks mb hj hk hsize hwf hfit hmb hdone
    have hlt : k < cfg.minibatch_size := by omega
    have hkl : k.toNat < eg_chunks.length := by omega
    have hslot : vecGet? eg_chunks k = some eg_chunks[k.toNat] := by
      rw [vecGet?_nonneg _ hk, List.getElem?_eq_getElem hkl]
    have hmem : eg_chunks[k.toNat] ∈ eg_chunks := List.getElem_mem _
    obtain ⟨grown, mb1, c1, c2, c3, c4, c5, c6⟩ :=
      CreateMinibatchOneSequence_first cfg eg_chunks k mb _ hsize hslot (hwf _ hmem)
        (hfit _ hmem) hcl hmb
    have hset : ∀ l ∈ eg_chunks.set k.toNat grown, l = grown ∨ l ∈ eg_chunks := by
      intro l hl
      rcases List.mem_or_eq_of_mem_set hl with h | h
      · exact Or.inr h
      · exact Or.inl h
    obtain ⟨egs', mb', e1, e2, e3⟩ := ih (k + 1) (eg_chunks.set k.toNat grown) mb1
      (by omega) (by omega) (by simpa using hsize)
      (fun l hl => by
        rcases hset l hl with rfl | h
        · exact c2
        · exact hwf l h)
      (fun l hl => by
        rcases hset l hl with rfl | h
        · exact c3
        · exact hfit l h)
      c4
      (fun m h0 h1 => by
        by_cases hmk : m = k
        · subst hmk; exact c5
        · rw [c6 m h0 (by omega) hmk]
          exact hdone m h0 (by omega))
    refine ⟨egs', mb', ?_, e2, e3⟩
    rw [intRange_of_lt hlt]
    simp only [createLoop, c1]
    exact e1

theorem vecResize_spec {α : Type} (v : List α) (n : Int) (fill : α) (h : 0 ≤ n) :
    ∃ v', vecResize v n fill = some v' ∧ (v'.length : Int) = n := by
  refine ⟨_, by unfold vecResize; rw [if_pos h], ?_⟩
  simp only [List.length_append, List.length_take, List.length_replicate]
  omega

/-- The walk back of `GetHistory` in a slot whose input word at timestep 0 is `bos_symbol` or
`brk_symbol` returns: it stops at timestep 0 at the latest. -/
theorem historyLoop_returns (cfg : RnnlmEgsConfig) (mb : RnnlmMinibatch) (t n cl : Int)
    (hlen : (mb.input_words.length : Int) = cl * cfg.minibatch_size)
    (hn0 : 0 ≤ n) (hnm : n < cfg.minibatch_size) (ht : t < cl)
    (hfirst : ∃ w, vecGet? mb.input_words n = some w ∧
      (w = cfg.bos_symbol ∨ w = cfg.brk_symbol)) (m : Nat) :
    ∀ (j0 : Nat) (acc : List Int), (j0 : Int) ≤ t →
      ∃ res, historyLoop cfg mb t n
        ((List.range' j0 m).map (fun (k : Nat) => -(k : Int))) acc = some res := by
  induction m with
  | zero =>
    intro j0 acc _
    exact ⟨acc, by simp [historyLoop]⟩
  | succ m ih =>
    intro j0 acc hj
    obtain ⟨b1, b2⟩ := batchIndex_bounds hn0 hnm (by omega : 0 ≤ t + -(j0 : Int))
      (by omega : t + -(j0 : Int) < cl)
    have hidx : ((t + -(j0 : Int)) * cfg.minibatch_size + n).toNat < mb.input_words.length := by
      omega
    obtain ⟨x, hget⟩ : ∃ x, vecGet? mb.input_words
        ((t + -(j0 : Int)) * cfg.minibatch_size + n) = some x :=
      ⟨_, by rw [vecGet?_nonneg _ b1, List.getElem?_eq_getElem hidx]⟩
    rw [List.range'_succ, List.map_cons]
    unfold historyLoop
    dsimp only
    rw [if_pos (by omega : t + -(j0 : Int) ≥ 0), hget]
    dsimp only
    split
    · exact ⟨_, rfl⟩
    · rename_i hw
      have hne : t + -(j0 : Int) ≠ 0 := by
        intro hz
        obtain ⟨w, hw1, hw2⟩ := hfirst
        rw [hz, zero_mul, zero_add] at hget
        rw [hw1] at hget
        have := Option.some.inj hget
        rw [← this] at hw
        exact hw hw2
      exact ih (j0 + 1) _ (by push_cast; omega)

/-- `CreateMinibatch` on slots of well-formed chunks that fit, with sizes that fit into
`int32`, returns a batch of the right shape in which the input word at timestep 0 of every
slot is `bos_symbol` or `brk_symbol`. -/
theorem CreateMinibatch_first (cfg : RnnlmEgsConfig) (s : SingleMinibatchCreator)
    (mb : RnnlmMinibatch)
    (hsize : (s.eg_chunks_.length : Int) = cfg.minibatch_size)
    (hwf : ∀ l ∈ s.eg_chunks_, ∀ c ∈ l, c.WellFormed)
    (hfit : ∀ l ∈ s.eg_chunks_, totalLength l ≤ cfg.chunk_length)
    (hcl : 0 < cfg.chunk_length) (hns : 0 ≤ cfg.num_samples)
    (hwords : cfg.chunk_length * cfg.minibatch_size ≤ INT32_MAX)
    (hsamples : cfg.chunk_length * cfg.num_samples ≤ INT32_MAX) :
    ∃ s' mb', SingleMinibatchCreator.CreateMinibatch cfg s mb = some (s', mb') ∧
      mb'.Shaped cfg ∧
      ∀ m, 0 ≤ m → m < cfg.minibatch_size → ∃ w, vecGet? mb'.input_words m = some w ∧
        (w = cfg.bos_symbol ∨ w = cfg.brk_symbol) := by
  have hm : 0 ≤ cfg.minibatch_size := by omega
  have hnw : 0 ≤ cfg.chunk_length * cfg.minibatch_size := mul_nonneg hcl.le hm
  have hsw : 0 ≤ cfg.chunk_length * cfg.num_samples := mul_nonneg hcl.le hns
  have w1 : wrapInt32 (cfg.chunk_length * cfg.minibatch_size) =
      cfg.chunk_length * cfg.minibatch_size := wrapInt32_eq_self (by omega) hwords
  have w2 : wrapInt32 (cfg.chunk_length * cfg.num_samples) =
      cfg.chunk_length * cfg.num_samples := wrapInt32_eq_self (by omega) hsamples
  obtain ⟨iw, i1, i2⟩ := vecResize_spec mb.input_words _ (0 : Int) hnw
  obtain ⟨ow, o1, o2⟩ := vecResize_spec mb.output_words _ (0 : Int) hnw
  obtain ⟨sw, s1, _⟩ := vecResize_spec mb.sampled_words _ (0 : Int) hsw
  obtain ⟨egs', mb', e1, e2, e3⟩ := createLoop_first cfg hcl cfg.minibatch_size.toNat 0
    s.eg_chunks_
    { mb with num_sequences := cfg.minibatch_size, chunk_length := cfg.chunk_length,
              num_samples := cfg.num_samples, input_words := iw, output_words := ow,
              output_weights :=
                List.replicate (cfg.chunk_length * cfg.minibatch_size).toNat 0,
              sampled_words := sw }
    (by omega) (le_refl _) hsize hwf hfit
    ⟨i2, o2, by simp only [List.length_replicate]; omega⟩
    (fun m h0 h1 => by omega)
  refine ⟨{ s with eg_chunks_ := egs' }, mb', ?_, e2, e3⟩
  unfold SingleMinibatchCreator.CreateMinibatch
  simp only [w1, w2, i1, o1, s1, e1]

/-- **C20.** For slots of well-formed chunks whose lengths sum to at most `chunk_length`
(with `chunk_length > 0`, one slot list per slot, a non-negative `num_samples`, and the sizes
`chunk_length * minibatch_size` and `chunk_length * num_samples` within `int32`),
`CreateMinibatch` returns a batch in which the input word at timestep 0 of every slot is
`bos_symbol` or `brk_symbol`.  Consequently, for every sampler with the same `minibatch_size`,
`bos_symbol` and `brk_symbol`, every slot `n`, every timestep `t` in `[0, chunk_length)` and
every `max_history_length`, negative ones included, the loop of `GetHistory` runs to its end
on that batch: the assertion `hist_t >= 0` does not fail (nor is the batch read outside its
bounds); and for every `max_history_length >= 0` the call of `GetHistory` returns a
history. -/
theorem CreateMinibatch_history_safe (cfg : RnnlmEgsConfig) (s : SingleMinibatchCreator)
    (mb : RnnlmMinibatch)
    (hsize : (s.eg_chunks_.length : Int) = cfg.minibatch_size)
    (hwf : ∀ l ∈ s.eg_chunks_, ∀ c ∈ l, c.WellFormed)
    (hfit : ∀ l ∈ s.eg_chunks_, totalLength l ≤ cfg.chunk_length)
    (hcl : 0 < cfg.chunk_length) (hns : 0 ≤ cfg.num_samples)
    (hwords : cfg.chunk_length * cfg.minibatch_size ≤ INT32_MAX)
    (hsamples : cfg.chunk_length * cfg.num_samples ≤ INT32_MAX) :
    ∃ s' mb', SingleMinibatchCreator.CreateMinibatch cfg s mb = some (s', mb') ∧
      (∀ n, 0 ≤ n → n < cfg.minibatch_size →
        ∃ w, vecGet? mb'.input_words (0 * cfg.minibatch_size + n) = some w ∧
          (w = cfg.bos_symbol ∨ w = cfg.brk_symbol)) ∧
      ∀ (smp : RnnlmMinibatchSampler),
        smp.config_.minibatch_size = cfg.minibatch_size →
        smp.config_.bos_symbol = cfg.bos_symbol → smp.config_.brk_symbol = cfg.brk_symbol →
        ∀ (n t max_history_length : Int), 0 ≤ n → n < cfg.minibatch_size → 0 ≤ t →
          t < cfg.chunk_length →
          (∃ collected, historyLoop smp.config_ mb' t n
            ((List.range max_history_length.toNat).map (fun (k : Nat) => -(k : Int))) [] =
              some collected) ∧
          (0 ≤ max_history_length →
            ∃ history, smp.GetHistory t n mb' max_history_length = some history) := by
  obtain ⟨s', mb', c1, c2, c3⟩ :=
    CreateMinibatch_first cfg s mb hsize hwf hfit hcl hns hwords hsamples
  refine ⟨s', mb', c1, fun n h0 h1 => by rw [zero_mul, zero_add]; exact c3 n h0 h1, ?_⟩
  intro smp hm hb hk n t h hn0 hnm ht0 htc
  obtain ⟨res, hres⟩ := historyLoop_returns smp.config_ mb' t n cfg.chunk_length
    (by rw [hm]; exact c2.1) hn0 (by rw [hm]; exact hnm) htc
    (by rw [hb, hk]; exact c3 n hn0 hnm) h.toNat 0 [] (by simpa using ht0)
  rw [← List.range_eq_range'] at hres
  refine ⟨⟨res, hres⟩, fun hh => ⟨res.reverse, ?_⟩⟩
  unfold RnnlmMinibatchSampler.GetHistory
  rw [if_pos hh, hres]
  rfl

theorem CreateMinibatch_history_safe_witness :
    ((examplePacker.eg_chunks_.length : Int) = exampleConfig.minibatch_size ∧
      (∀ l ∈ examplePacker.eg_chunks_, ∀ c ∈ l, c.WellFormed) ∧
      (∀ l ∈ examplePacker.eg_chunks_, totalLength l ≤ exampleConfig.chunk_length) ∧
      0 < exampleConfig.chunk_length ∧ 0 ≤ exampleConfig.num_samples ∧
      exampleConfig.chunk_length * exampleConfig.minibatch_size ≤ INT32_MAX ∧
      exampleConfig.chunk_length * exampleConfig.num_samples ≤ INT32_MAX) ∧
    ∃ s' mb',
      SingleMinibatchCreator.CreateMinibatch exampleConfig examplePacker exampleBatch =
        some (s', mb') ∧
      (∀ n, 0 ≤ n → n < exampleConfig.minibatch_size →
        ∃ w, vecGet? mb'.input_words (0 * exampleConfig.minibatch_size + n) = some w ∧
          (w = exampleConfig.bos_symbol ∨ w = exampleConfig.brk_symbol)) ∧
      ∀ (smp : RnnlmMinibatchSampler),
        smp.config_.minibatch_size = exampleConfig.minibatch_size →
        smp.config_.bos_symbol = exampleConfig.bos_symbol →
        smp.config_.brk_symbol = exampleConfig.brk_symbol →
        ∀ (n t max_history_length : Int), 0 ≤ n → n < exampleConfig.minibatch_size → 0 ≤ t →
          t < exampleConfig.chunk_length →
          (∃ collected, historyLoop smp.config_ mb' t n
            ((List.range max_history_length.toNat).map (fun (k : Nat) => -(k : Int))) [] =
              some collected) ∧
          (0 ≤ max_history_length →
            ∃ history, smp.GetHistory t n mb' max_history_length = some history) :=
  ⟨⟨by decide, by decide, by decide, by decide, by decide, by decide, by decide⟩,
    CreateMinibatch_history_safe exampleConfig examplePacker exampleBatch (by decide)
      (by decide) (by decide) (by decide) (by decide) (by decide) (by decide)⟩

/-- A round on a slot with no capacity left, or in which no chunk has context to gain, changes
nothing. -/
theorem growRound_fixed (cs : List SequenceChunk) (extra : Int)
    (h : extra ≤ 0 ∨ ∀ c ∈ cs, c.context_begin ≤ 0) :
    growRound cs extra = (false, cs, extra) := by
  induction cs with
  | nil => rfl
  | cons c cs ih =>
    have hc : ¬ (c.context_begin > 0 ∧ extra > 0) := by
      rintro ⟨h1, h2⟩
      rcases h with h | h
      · omega
      · have := h c (List.mem_cons_self _ _)
        omega
    have hrest : extra ≤ 0 ∨ ∀ x ∈ cs, x.context_begin ≤ 0 := by
      rcases h with h | h
      · exact Or.inl h
      · exact Or.inr (fun x hx => h x (List.mem_cons_of_mem _ hx))
    unfold growRound
    rw [if_neg hc, ih hrest]

/-- The growth step on chunks that have already been grown leaves them as they are. -/
theorem grownChunks_idem (cfg : RnnlmEgsConfig) (cs grown : List SequenceChunk)
    (hlen : totalLength cs ≤ cfg.chunk_length) (h : grownChunks cfg cs = some grown) :
    grownChunks cfg grown = some grown := by
  obtain ⟨cs', extra', e1, _, e3, e4⟩ :=
    growLoop_spec ((cfg.chunk_length - totalLength cs).toNat + 1) cs
      (cfg.chunk_length - totalLength cs) (by omega) (by omega)
  have hg : grown = cs' := by
    simp only [grownChunks, hlen, if_true, e1, Option.some.injEq] at h
    exact h.symm
  subst hg
  obtain ⟨x1, _⟩ := growLoop_exit _ _ _ _ _ e1
  have hextra : cfg.chunk_length - totalLength grown = extra' := by omega
  have hround := growRound_fixed grown extra' x1
  unfold grownChunks
  simp only
  rw [if_pos (by omega), hextra]
  simp only [growLoop, hround]
  rfl

theorem list_ext_vecGet? {α : Type} {u v : List α}
    (h : ∀ i : Int, vecGet? u i = vecGet? v i) : u = v := by
  apply List.ext_getElem?
  intro k
  have := h (k : Int)
  rwa [vecGet?_natCast, vecGet?_natCast] at this

/-- Executing the same `Set` calls again on the batch they produced changes nothing. -/
theorem runCalls_idem (cfg : RnnlmEgsConfig) (n : Int) (hn0 : 0 ≤ n)
    (hnm : n < cfg.minibatch_size) (calls : List SetCall) (mb mb' : RnnlmMinibatch) (p0 : Int)
    (hp0 : 0 ≤ p0) (ht : calls.map SetCall.t = intRange p0 (p0 + calls.length))
    (hend : p0 + calls.length ≤ cfg.chunk_length) (hw : ∀ call ∈ calls, 0 ≤ call.weight)
    (hmb : mb.Shaped cfg) (h : runCalls cfg n calls mb = some mb') :
    runCalls cfg n calls mb' = some mb' := by
  obtain ⟨m1, r1, r2, r3, _⟩ := runCalls_spec cfg n hn0 hnm calls mb p0 hp0 ht hend hw hmb
  rw [h] at r1
  cases r1
  obtain ⟨m2, q1, _, q3, q4, g1, g2, g3, g4, g5, g6⟩ :=
    runCalls_spec cfg n hn0 hnm calls mb' p0 hp0 ht hend hw r2
  rw [q1]
  have hi : m2.input_words = mb'.input_words := by
    apply list_ext_vecGet?
    intro i
    by_cases hex : ∃ call ∈ calls, i = call.t * cfg.minibatch_size + n
    · obtain ⟨call, hc, rfl⟩ := hex
      rw [(q3 call hc).1, (r3 call hc).1]
    · exact (q4 i (fun call hc heq => hex ⟨call, hc, heq⟩)).1
  have ho : m2.output_words = mb'.output_words := by
    apply list_ext_vecGet?
    intro i
    by_cases hex : ∃ call ∈ calls, i = call.t * cfg.minibatch_size + n
    · obtain ⟨call, hc, rfl⟩ := hex
      rw [(q3 call hc).2.1, (r3 call hc).2.1]
    · exact (q4 i (fun call hc heq => hex ⟨call, hc, heq⟩)).2.1
  have hwt : m2.output_weights = mb'.output_weights := by
    apply list_ext_vecGet?
    intro i
    by_cases hex : ∃ call ∈ calls, i = call.t * cfg.minibatch_size + n
    · obtain ⟨call, hc, rfl⟩ := hex
      rw [(q3 call hc).2.2, (r3 call hc).2.2]
    · exact (q4 i (fun call hc heq => hex ⟨call, hc, heq⟩)).2.2
  cases m2
  cases mb'
  simp only at hi ho hwt g1 g2 g3 g4 g5 g6
  subst hi ho hwt g1 g2 g3 g4 g5 g6
  rfl

/-- **C21.** For a slot `n` whose chunks are well formed and whose lengths sum to at most
`chunk_length`, and a batch of the right shape, `CreateMinibatchOneSequence` returns slot lists
`eg1` (slot `n` with its grown contexts) and a batch `mb1`, and running it a second time on
`eg1` and `mb1` returns exactly `eg1` and `mb1` again: no `context_begin` changes and the batch
is the same.  The second run issues the same `Set` calls as the first, so on any batch of the
right shape it writes the same input words, output words and weights as the first run wrote. -/
theorem CreateMinibatchOneSequence_idempotent (cfg : RnnlmEgsConfig)
    (eg_chunks : List (List SequenceChunk)) (n : Int) (mb : RnnlmMinibatch)
    (this_chunks : List SequenceChunk)
    (hsize : (eg_chunks.length : Int) = cfg.minibatch_size)
    (hslot : vecGet? eg_chunks n = some this_chunks)
    (hwf : ∀ c ∈ this_chunks, c.WellFormed)
    (hlen : totalLength this_chunks ≤ cfg.chunk_length)
    (hmb : mb.Shaped cfg) :
    ∃ eg1 mb1 grown calls,
      SingleMinibatchCreator.CreateMinibatchOneSequence cfg eg_chunks n mb = some (eg1, mb1) ∧
      vecGet? eg1 n = some grown ∧
      SingleMinibatchCreator.CreateMinibatchOneSequence cfg eg1 n mb1 = some (eg1, mb1) ∧
      allCalls cfg grown = some calls ∧
      runCalls cfg n calls mb = some mb1 ∧
      ∀ mb2 : RnnlmMinibatch, mb2.Shaped cfg →
        ∃ mb3, SingleMinibatchCreator.CreateMinibatchOneSequence cfg eg1 n mb2 =
            some (eg1, mb3) ∧
          runCalls cfg n calls mb2 = some mb3 := by
  obtain ⟨hn0, hnlen⟩ := vecGet?_lt_length hslot
  obtain ⟨grown, g1, g2, g3⟩ := grownChunks_spec cfg this_chunks hlen
  have gwf := forall₂_extendedFrom_wellFormed g2 hwf
  obtain ⟨calls, a1, a2, a3, _, _⟩ := allCalls_spec cfg grown gwf g3
  have hwn := allCalls_weight_nonneg cfg grown (fun c hc => (gwf c hc).2.2.2.2.le) calls a1
  have ht : calls.map SetCall.t = intRange 0 (0 + calls.length) := by rw [a3, zero_add, a2]
  obtain ⟨mb1, r1, r2, _⟩ := runCalls_spec cfg n hn0 (by omega) calls mb 0 (le_refl _)
    ht (by omega) hwn hmb
  have hidem := grownChunks_idem cfg this_chunks grown hlen g1
  have hslot1 : vecGet? (eg_chunks.set n.toNat grown) n = some grown :=
    vecGet?_set_self _ _ hn0 hnlen
  have hset : (eg_chunks.set n.toNat grown).set n.toNat grown = eg_chunks.set n.toNat grown :=
    List.set_set _ _ _ _
  have hrun1 : runCalls cfg n calls mb1 = some mb1 :=
    runCalls_idem cfg n hn0 (by omega) calls mb mb1 0 (le_refl _) ht (by omega) hwn hmb r1
  refine ⟨eg_chunks.set n.toNat grown, mb1, grown, calls, ?_, hslot1, ?_, a1, r1, ?_⟩
  · simp only [SingleMinibatchCreator.CreateMinibatchOneSequence, hslot, g1, a1, r1]
  · simp only [SingleMinibatchCreator.CreateMinibatchOneSequence, hslot1, hidem, a1, hrun1,
      hset]
  · intro mb2 hmb2
    obtain ⟨mb3, s1, _⟩ := runCalls_spec cfg n hn0 (by omega) calls mb2 0 (le_refl _)
      ht (by omega) hwn hmb2
    refine ⟨mb3, ?_, s1⟩
    simp only [SingleMinibatchCreator.CreateMinibatchOneSequence, hslot1, hidem, a1, s1, hset]

theorem CreateMinibatchOneSequence_idempotent_witness :
    ((([exampleSlot, []] : List (List SequenceChunk)).length : Int) =
        exampleConfig.minibatch_size ∧
      vecGet? [exampleSlot, []] 0 = some exampleSlot ∧
      (∀ c ∈ exampleSlot, c.WellFormed) ∧
      totalLength exampleSlot ≤ exampleConfig.chunk_length ∧
      exampleBatch.Shaped exampleConfig) ∧
    ∃ eg1 mb1 grown calls,
      SingleMinibatchCreator.CreateMinibatchOneSequence exampleConfig [exampleSlot, []] 0
        exampleBatch = some (eg1, mb1) ∧
      vecGet? eg1 0 = some grown ∧
      SingleMinibatchCreator.CreateMinibatchOneSequence exampleConfig eg1 0 mb1 =
        some (eg1, mb1) ∧
      allCalls exampleConfig grown = some calls ∧
      runCalls exampleConfig 0 calls exampleBatch = some mb1 ∧
      ∀ mb2 : RnnlmMinibatch, mb2.Shaped exampleConfig →
        ∃ mb3, SingleMinibatchCreator.CreateMinibatchOneSequence exampleConfig eg1 0 mb2 =
            some (eg1, mb3) ∧
          runCalls exampleConfig 0 calls mb2 = some mb3 :=
  ⟨by decide,
    CreateMinibatchOneSequence_idempotent exampleConfig [exampleSlot, []] 0 exampleBatch
      exampleSlot (by decide) (by decide) (by decide) (by decide) (by decide)⟩

end kaldi.rnnlm
